import Mathlib

/-!
Verification development for the pickit sparse-checkout tree engine.

The definitions below are a shallow embedding of the Rust sources:
`src/git.rs` (path codec), `src/app.rs` (tree store, state propagator,
task coordination handlers) and `src/main.rs` (apply-completion handling).
Rust strings are modelled as `List Char` (Unicode scalar values, exactly
Rust `char`), byte buffers as `List Nat` with every element below 256,
`PathBuf` as `List String` (its components), and the arena `Vec<TreeItem>`
as `List TreeItem` addressed by position.
-/

namespace Pickit

/-! ## UTF-8 encoding and lossy decoding

Models Rust `char::encode_utf8` and `String::from_utf8_lossy`: a valid
scalar value is encoded into 1-4 bytes; the lossy decoder turns every
maximal valid sequence back into its scalar and every invalid byte or
aborted sequence into U+FFFD. -/

/-- Encoding of one Unicode scalar value into its UTF-8 bytes,
as Rust `char::encode_utf8` produces them. -/
def utf8EncodeChar (c : Char) : List Nat :=
  let n := c.toNat
  if n < 0x80 then [n]
  else if n < 0x800 then [0xC0 + n / 0x40, 0x80 + n % 0x40]
  else if n < 0x10000 then
    [0xE0 + n / 0x1000, 0x80 + n / 0x40 % 0x40, 0x80 + n % 0x40]
  else
    [0xF0 + n / 0x40000, 0x80 + n / 0x1000 % 0x40, 0x80 + n / 0x40 % 0x40, 0x80 + n % 0x40]

/-- Encoding of a whole string (list of scalars) into UTF-8 bytes. -/
def utf8EncodeList (s : List Char) : List Nat :=
  s.flatMap utf8EncodeChar

/-- Replacement character U+FFFD substituted by lossy decoding. -/
def replChar : Char := Char.ofNat 0xFFFD

/-- State of the incremental UTF-8 decoder: output so far, number of
continuation bytes still expected, value accumulated so far, and the
minimum legal value for the current sequence length (overlong check). -/
structure Utf8State where
  out : List Char
  need : Nat
  acc : Nat
  minv : Nat
deriving DecidableEq

/-- Processing of one byte as the first byte of a sequence. -/
def utf8StepLead (o : List Char) (b : Nat) : Utf8State :=
  if b < 0x80 then ⟨o ++ [Char.ofNat b], 0, 0, 0⟩
  else if b < 0xC0 then ⟨o ++ [replChar], 0, 0, 0⟩
  else if b < 0xE0 then ⟨o, 1, b - 0xC0, 0x80⟩
  else if b < 0xF0 then ⟨o, 2, b - 0xE0, 0x800⟩
  else if b < 0xF8 then ⟨o, 3, b - 0xF0, 0x10000⟩
  else ⟨o ++ [replChar], 0, 0, 0⟩

/-- One step of the lossy UTF-8 decoder. An expected continuation byte
extends the accumulator; completing a sequence emits its scalar when it is
in range, not overlong and not a surrogate, and U+FFFD otherwise; a
missing continuation byte emits U+FFFD and restarts at the current byte. -/
def utf8Step (st : Utf8State) (b : Nat) : Utf8State :=
  if st.need = 0 then utf8StepLead st.out b
  else if 0x80 ≤ b ∧ b < 0xC0 then
    let acc2 := st.acc * 0x40 + (b - 0x80)
    if st.need = 1 then
      if st.minv ≤ acc2 ∧ acc2 < 0x110000 ∧ (acc2 < 0xD800 ∨ 0xE000 ≤ acc2) then
        ⟨st.out ++ [Char.ofNat acc2], 0, 0, 0⟩
      else ⟨st.out ++ [replChar], 0, 0, 0⟩
    else ⟨st.out, st.need - 1, acc2, st.minv⟩
  else utf8StepLead (st.out ++ [replChar]) b

/-- Lossy UTF-8 decoding of a byte list, as `String::from_utf8_lossy`:
valid sequences become their scalar, everything else U+FFFD. -/
def utf8DecodeLossy (bs : List Nat) : List Char :=
  let st := bs.foldl utf8Step ⟨[], 0, 0, 0⟩
  if st.need = 0 then st.out else st.out ++ [replChar]

/-! ## Path codec (`src/git.rs`) -/

/-- Code points with the Unicode White_Space property, the set trimmed by
Rust `str::trim`. -/
def rustWhitespaceCodes : List Nat :=
  [0x09, 0x0A, 0x0B, 0x0C, 0x0D, 0x20, 0x85, 0xA0, 0x1680,
   0x2000, 0x2001, 0x2002, 0x2003, 0x2004, 0x2005, 0x2006, 0x2007,
   0x2008, 0x2009, 0x200A, 0x2028, 0x2029, 0x202F, 0x205F, 0x3000]

/-- Test for Rust `char::is_whitespace`. -/
def isRustWhitespace (c : Char) : Bool := rustWhitespaceCodes.contains c.toNat

/-- Model of Rust `str::trim`: removes leading and trailing whitespace. -/
def rustTrim (s : List Char) : List Char :=
  ((s.dropWhile isRustWhitespace).reverse.dropWhile isRustWhitespace).reverse

/-- Test for Rust `char::is_ascii_digit` (0-9). -/
def isAsciiDigit (c : Char) : Bool := 0x30 ≤ c.toNat && c.toNat ≤ 0x39

/-- Test for an octal digit (0-7). -/
def isOctalDigit (c : Char) : Bool := 0x30 ≤ c.toNat && c.toNat ≤ 0x37

/-- Value of the three-digit octal escape `\d1 d2 d3`. -/
def octalEscapeVal (d1 d2 d3 : Char) : Nat :=
  (d1.toNat - 0x30) * 64 + (d2.toNat - 0x30) * 8 + (d3.toNat - 0x30)

/-- Byte-producing scan loop of `unescape_git_path_string` in
`src/git.rs:57-112`: interprets the C-style escapes `\n` `\t` `\r` `\\`
`\"`, a backslash followed by three octal digits as one byte when the
digits parse as an octal `u8` (mirrors `u8::from_str_radix(_, 8)`:
all digits below 8 and value at most 255), passes every other backslash
sequence through literally, and pushes the UTF-8 bytes of ordinary
characters. -/
def unescapeBytes : List Char → List Nat
  | [] => []
  | c :: rest =>
    if c = '\\' then
      match rest with
      | [] => [0x5C]
      | d :: rest2 =>
        if d = 'n' then 0x0A :: unescapeBytes rest2
        else if d = 't' then 0x09 :: unescapeBytes rest2
        else if d = 'r' then 0x0D :: unescapeBytes rest2
        else if d = '\\' then 0x5C :: unescapeBytes rest2
        else if d = '"' then 0x22 :: unescapeBytes rest2
        else if isOctalDigit d then
          match rest2 with
          | d2 :: d3 :: rest3 =>
            if isAsciiDigit d2 && isAsciiDigit d3 then
              if isOctalDigit d2 && isOctalDigit d3 && octalEscapeVal d d2 d3 ≤ 255 then
                octalEscapeVal d d2 d3 :: unescapeBytes rest3
              else
                0x5C :: (utf8EncodeChar d ++ utf8EncodeChar d2 ++ utf8EncodeChar d3
                  ++ unescapeBytes rest3)
            else
              0x5C :: (utf8EncodeChar d ++ utf8EncodeChar d2 ++ utf8EncodeChar d3
                ++ unescapeBytes rest3)
          | [d2] => 0x5C :: (utf8EncodeChar d ++ utf8EncodeChar d2)
          | [] => 0x5C :: utf8EncodeChar d
        else 0x5C :: (utf8EncodeChar d ++ unescapeBytes rest2)
    else utf8EncodeChar c ++ unescapeBytes rest

/-- Model of `unescape_git_path_string` (`src/git.rs:49-116`): trim the
input, strip one layer of surrounding double quotes when the trimmed
input starts and ends with a quote and has length at least 2, run the
escape-interpreting byte scan, and reinterpret the bytes as UTF-8 with
lossy replacement. -/
def unescape_git_path_string (s : List Char) : List Char :=
  let t := rustTrim s
  let u :=
    if 2 ≤ t.length ∧ t.head? = some '"' ∧ t.getLast? = some '"' then
      (t.drop 1).dropLast
    else t
  utf8DecodeLossy (unescapeBytes u)

/-- Safety test for a byte of an unquoted path: printable ASCII excluding
double quote, backslash and space. -/
def isSafeByte (b : Nat) : Bool :=
  0x21 ≤ b && b ≤ 0x7E && b != 0x22 && b != 0x5C

/-- Escaping of one byte inside a quoted path: backslash, double quote
and newline / tab / carriage return get their short forms, other
printable ASCII stays literal, and any other byte becomes a three-digit
octal sequence. -/
def escapeByte (b : Nat) : List Char :=
  if b = 0x5C then ['\\', '\\']
  else if b = 0x22 then ['\\', '"']
  else if b = 0x0A then ['\\', 'n']
  else if b = 0x09 then ['\\', 't']
  else if b = 0x0D then ['\\', 'r']
  else if 0x20 ≤ b && b ≤ 0x7E then [Char.ofNat b]
  else ['\\', Char.ofNat (0x30 + b / 64), Char.ofNat (0x30 + b / 8 % 8), Char.ofNat (0x30 + b % 8)]

/-- Modelled from the spec: the encoder `quote_path_string` is not among
the provided sources (only `src/git_test.rs` refers to it), so this
follows section 4.1 of the specification: a string whose bytes are all
safe is returned unchanged, anything else is wrapped in double quotes
with backslash, double quote and newline / tab / carriage return escaped
by their short forms and every other non-printable or non-ASCII byte as
a three-digit octal sequence. -/
def quote_path_string (s : List Char) : List Char :=
  let bytes := utf8EncodeList s
  if bytes.all isSafeByte then s
  else '"' :: (bytes.flatMap escapeByte ++ ['"'])

end Pickit

namespace Pickit

/-! ## Codec lemmas -/

theorem char_ofNat_toNat (c : Char) : Char.ofNat c.toNat = c := by
  have hv : c.toNat.isValidChar := by
    rcases c.valid with h | ⟨h1, h2⟩
    · exact Or.inl h
    · exact Or.inr ⟨h1, h2⟩
  apply Char.eq_of_val_eq
  simp only [Char.ofNat, hv, dite_true]
  apply UInt32.toNat.inj
  simp only [Char.ofNatAux]
  rfl

theorem char_valid_nat (c : Char) :
    c.toNat < 0xD800 ∨ (0xE000 ≤ c.toNat ∧ c.toNat < 0x110000) := by
  rcases c.valid with h | ⟨h1, h2⟩
  · exact Or.inl h
  · exact Or.inr ⟨h1, h2⟩

theorem utf8StepLead_ascii (o : List Char) (b : Nat) (h : b < 0x80) :
    utf8StepLead o b = ⟨o ++ [Char.ofNat b], 0, 0, 0⟩ := by
  simp [utf8StepLead, h]

theorem utf8StepLead_two (o : List Char) (b : Nat) (h1 : 0xC0 ≤ b) (h2 : b < 0xE0) :
    utf8StepLead o b = ⟨o, 1, b - 0xC0, 0x80⟩ := by
  rw [utf8StepLead, if_neg (by omega), if_neg (by omega), if_pos h2]

theorem utf8StepLead_three (o : List Char) (b : Nat) (h1 : 0xE0 ≤ b) (h2 : b < 0xF0) :
    utf8StepLead o b = ⟨o, 2, b - 0xE0, 0x800⟩ := by
  rw [utf8StepLead, if_neg (by omega), if_neg (by omega), if_neg (by omega), if_pos h2]

theorem utf8StepLead_four (o : List Char) (b : Nat) (h1 : 0xF0 ≤ b) (h2 : b < 0xF8) :
    utf8StepLead o b = ⟨o, 3, b - 0xF0, 0x10000⟩ := by
  rw [utf8StepLead, if_neg (by omega), if_neg (by omega), if_neg (by omega),
    if_neg (by omega), if_pos h2]

theorem utf8Step_need0 (o : List Char) (a m b : Nat) :
    utf8Step ⟨o, 0, a, m⟩ b = utf8StepLead o b := by
  simp [utf8Step]

theorem utf8Step_cont (o : List Char) (k a m b : Nat) (hb1 : 0x80 ≤ b) (hb2 : b < 0xC0) :
    utf8Step ⟨o, k + 2, a, m⟩ b = ⟨o, k + 1, a * 0x40 + (b - 0x80), m⟩ := by
  have h0 : ¬(k + 2 = 0) := by omega
  have h1 : ¬(k + 2 = 1) := by omega
  simp [utf8Step, h0, h1, hb1, hb2]

theorem utf8Step_last (o : List Char) (a m b : Nat) (hb1 : 0x80 ≤ b) (hb2 : b < 0xC0)
    (hv : m ≤ a * 0x40 + (b - 0x80) ∧ a * 0x40 + (b - 0x80) < 0x110000 ∧
      (a * 0x40 + (b - 0x80) < 0xD800 ∨ 0xE000 ≤ a * 0x40 + (b - 0x80))) :
    utf8Step ⟨o, 1, a, m⟩ b = ⟨o ++ [Char.ofNat (a * 0x40 + (b - 0x80))], 0, 0, 0⟩ := by
  have h0 : ¬(1 = 0) := by omega
  simp [utf8Step, h0, hb1, hb2, hv.1, hv.2.1, hv.2.2]

theorem utf8_foldl_encodeChar (c : Char) (o : List Char) (bs : List Nat) :
    List.foldl utf8Step ⟨o, 0, 0, 0⟩ (utf8EncodeChar c ++ bs)
      = List.foldl utf8Step ⟨o ++ [c], 0, 0, 0⟩ bs := by
  have hval := char_valid_nat c
  by_cases h1 : c.toNat < 0x80
  · rw [utf8EncodeChar, if_pos h1]
    simp only [List.cons_append, List.nil_append, List.foldl_cons]
    rw [utf8Step_need0, utf8StepLead_ascii _ _ h1, char_ofNat_toNat]
  · by_cases h2 : c.toNat < 0x800
    · rw [utf8EncodeChar, if_neg h1, if_pos h2]
      simp only [List.cons_append, List.nil_append, List.foldl_cons]
      rw [utf8Step_need0, utf8StepLead_two _ _ (by omega) (by omega)]
      rw [utf8Step_last _ _ _ _ (by omega) (by omega) (by
        refine ⟨by omega, by omega, by omega⟩)]
      have : (0xC0 + c.toNat / 0x40 - 0xC0) * 0x40 + (0x80 + c.toNat % 0x40 - 0x80)
          = c.toNat := by omega
      rw [this, char_ofNat_toNat]
    · by_cases h3 : c.toNat < 0x10000
      · rw [utf8EncodeChar, if_neg h1, if_neg h2, if_pos h3]
        simp only [List.cons_append, List.nil_append, List.foldl_cons]
        rw [utf8Step_need0, utf8StepLead_three _ _ (by omega) (by omega)]
        rw [show (2 : Nat) = 0 + 2 from rfl, utf8Step_cont _ _ _ _ _ (by omega) (by omega)]
        rw [utf8Step_last _ _ _ _ (by omega) (by omega) (by
        refine ⟨by omega, by omega, by omega⟩)]
        have : ((0xE0 + c.toNat / 0x1000 - 0xE0) * 0x40 + (0x80 + c.toNat / 0x40 % 0x40 - 0x80))
            * 0x40 + (0x80 + c.toNat % 0x40 - 0x80) = c.toNat := by omega
        rw [this, char_ofNat_toNat]
      · rw [utf8EncodeChar, if_neg h1, if_neg h2, if_neg h3]
        simp only [List.cons_append, List.nil_append, List.foldl_cons]
        rw [utf8Step_need0, utf8StepLead_four _ _ (by omega) (by omega)]
        rw [show (3 : Nat) = 1 + 2 from rfl, utf8Step_cont _ _ _ _ _ (by omega) (by omega)]
        rw [show (1 : Nat) + 1 = 0 + 2 from rfl, utf8Step_cont _ _ _ _ _ (by omega) (by omega)]
        rw [utf8Step_last _ _ _ _ (by omega) (by omega) (by
        refine ⟨by omega, by omega, by omega⟩)]
        have : (((0xF0 + c.toNat / 0x40000 - 0xF0) * 0x40 + (0x80 + c.toNat / 0x1000 % 0x40 - 0x80))
            * 0x40 + (0x80 + c.toNat / 0x40 % 0x40 - 0x80)) * 0x40
            + (0x80 + c.toNat % 0x40 - 0x80) = c.toNat := by omega
        rw [this, char_ofNat_toNat]

theorem utf8_foldl_encodeList (s : List Char) (o : List Char) :
    List.foldl utf8Step ⟨o, 0, 0, 0⟩ (utf8EncodeList s) = ⟨o ++ s, 0, 0, 0⟩ := by
  induction s generalizing o with
  | nil => simp [utf8EncodeList]
  | cons c cs ih =>
    have : utf8EncodeList (c :: cs) = utf8EncodeChar c ++ utf8EncodeList cs := by
      simp [utf8EncodeList]
    rw [this, utf8_foldl_encodeChar, ih]
    simp

theorem utf8DecodeLossy_encodeList (s : List Char) :
    utf8DecodeLossy (utf8EncodeList s) = s := by
  rw [utf8DecodeLossy]
  simp only [utf8_foldl_encodeList]
  simp

end Pickit

namespace Pickit

theorem char_toNat_ofNat (n : Nat) (h : n < 0xD800) : (Char.ofNat n).toNat = n := by
  have hv : n.isValidChar := Or.inl h
  simp only [Char.ofNat, hv, dite_true]
  simp only [Char.ofNatAux]
  rfl

theorem char_ne_of_toNat_ne (a b : Char) (h : a.toNat ≠ b.toNat) : a ≠ b := by
  intro he
  exact h (he ▸ rfl)

theorem unescapeBytes_cons_plain (c : Char) (rest : List Char) (h : ¬c = '\\') :
    unescapeBytes (c :: rest) = utf8EncodeChar c ++ unescapeBytes rest := by
  rw [unescapeBytes.eq_def]
  simp [h]

theorem unescapeBytes_escapeByte (b : Nat) (hb : b < 256) (L : List Char) :
    unescapeBytes (escapeByte b ++ L) = b :: unescapeBytes L := by
  by_cases h1 : b = 0x5C
  · subst h1
    rw [show escapeByte 0x5C ++ L = '\\' :: '\\' :: L from rfl, unescapeBytes.eq_def]
    simp
  · by_cases h2 : b = 0x22
    · subst h2
      rw [show escapeByte 0x22 ++ L = '\\' :: '"' :: L from rfl, unescapeBytes.eq_def]
      simp
    · by_cases h3 : b = 0x0A
      · subst h3
        rw [show escapeByte 0x0A ++ L = '\\' :: 'n' :: L from rfl, unescapeBytes.eq_def]
        simp
      · by_cases h4 : b = 0x09
        · subst h4
          rw [show escapeByte 0x09 ++ L = '\\' :: 't' :: L from rfl, unescapeBytes.eq_def]
          simp
        · by_cases h5 : b = 0x0D
          · subst h5
            rw [show escapeByte 0x0D ++ L = '\\' :: 'r' :: L from rfl, unescapeBytes.eq_def]
            simp
          · by_cases h6 : 0x20 ≤ b ∧ b ≤ 0x7E
            · have hesc : escapeByte b = [Char.ofNat b] := by
                rw [escapeByte, if_neg h1, if_neg h2, if_neg h3, if_neg h4, if_neg h5,
                  if_pos (by simp; omega)]
              have htn : (Char.ofNat b).toNat = b := char_toNat_ofNat b (by omega)
              have hne : ¬Char.ofNat b = '\\' := by
                apply char_ne_of_toNat_ne
                rw [htn]; intro hx
                exact h1 hx
              rw [hesc, List.cons_append, List.nil_append,
                unescapeBytes_cons_plain _ _ hne]
              rw [utf8EncodeChar]
              rw [if_pos (by omega : (Char.ofNat b).toNat < 0x80), htn]
              rfl
            · -- three-digit octal escape case
              have hesc : escapeByte b = ['\\', Char.ofNat (0x30 + b / 64),
                  Char.ofNat (0x30 + b / 8 % 8), Char.ofNat (0x30 + b % 8)] := by
                rw [escapeByte, if_neg h1, if_neg h2, if_neg h3, if_neg h4, if_neg h5,
                  if_neg (by simp; omega)]
              have ht1 : (Char.ofNat (0x30 + b / 64)).toNat = 0x30 + b / 64 :=
                char_toNat_ofNat _ (by omega)
              have ht2 : (Char.ofNat (0x30 + b / 8 % 8)).toNat = 0x30 + b / 8 % 8 :=
                char_toNat_ofNat _ (by omega)
              have ht3 : (Char.ofNat (0x30 + b % 8)).toNat = 0x30 + b % 8 :=
                char_toNat_ofNat _ (by omega)
              have hne_n : ¬Char.ofNat (0x30 + b / 64) = 'n' :=
                char_ne_of_toNat_ne _ _ (by rw [ht1]; show _ ≠ 110; omega)
              have hne_t : ¬Char.ofNat (0x30 + b / 64) = 't' :=
                char_ne_of_toNat_ne _ _ (by rw [ht1]; show _ ≠ 116; omega)
              have hne_r : ¬Char.ofNat (0x30 + b / 64) = 'r' :=
                char_ne_of_toNat_ne _ _ (by rw [ht1]; show _ ≠ 114; omega)
              have hne_b : ¬Char.ofNat (0x30 + b / 64) = '\\' :=
                char_ne_of_toNat_ne _ _ (by rw [ht1]; show _ ≠ 92; omega)
              have hne_q : ¬Char.ofNat (0x30 + b / 64) = '"' :=
                char_ne_of_toNat_ne _ _ (by rw [ht1]; show _ ≠ 34; omega)
              have hoct1 : isOctalDigit (Char.ofNat (0x30 + b / 64)) = true := by
                simp [isOctalDigit, ht1]; omega
              have hoct2 : isOctalDigit (Char.ofNat (0x30 + b / 8 % 8)) = true := by
                simp [isOctalDigit, ht2]; omega
              have hoct3 : isOctalDigit (Char.ofNat (0x30 + b % 8)) = true := by
                simp [isOctalDigit, ht3]; omega
              have hdig2 : isAsciiDigit (Char.ofNat (0x30 + b / 8 % 8)) = true := by
                simp [isAsciiDigit, ht2]; omega
              have hdig3 : isAsciiDigit (Char.ofNat (0x30 + b % 8)) = true := by
                simp [isAsciiDigit, ht3]; omega
              have hval : octalEscapeVal (Char.ofNat (0x30 + b / 64))
                  (Char.ofNat (0x30 + b / 8 % 8)) (Char.ofNat (0x30 + b % 8)) = b := by
                rw [octalEscapeVal, ht1, ht2, ht3]; omega
              have hle : b ≤ 255 := by omega
              rw [hesc]
              simp only [List.cons_append, List.nil_append]
              rw [unescapeBytes.eq_def]
              simp [hne_n, hne_t, hne_r, hne_b, hne_q, hoct1, hoct2,
                hoct3, hdig2, hdig3, hval, hle]

theorem unescapeBytes_flatMap_escapeByte (bs : List Nat) (h : ∀ b ∈ bs, b < 256) :
    unescapeBytes (bs.flatMap escapeByte) = bs := by
  induction bs with
  | nil => rfl
  | cons b t ih =>
    rw [List.flatMap_cons, unescapeBytes_escapeByte b (h b (by simp)) _,
      ih (fun x hx => h x (by simp [hx]))]

theorem unescapeBytes_no_backslash (s : List Char) (h : ∀ c ∈ s, ¬c = '\\') :
    unescapeBytes s = utf8EncodeList s := by
  induction s with
  | nil => rfl
  | cons c t ih =>
    rw [unescapeBytes_cons_plain c t (h c (by simp))]
    rw [ih (fun x hx => h x (by simp [hx]))]
    rfl

theorem dropWhile_head_false (p : Char → Bool) (s : List Char)
    (h : ∀ hd, s.head? = some hd → p hd = false) : s.dropWhile p = s := by
  cases s with
  | nil => rfl
  | cons a t => simp [List.dropWhile_cons, h a rfl]

theorem rustTrim_eq_self (s : List Char)
    (h1 : ∀ hd, s.head? = some hd → isRustWhitespace hd = false)
    (h2 : ∀ lt, s.getLast? = some lt → isRustWhitespace lt = false) :
    rustTrim s = s := by
  rw [rustTrim, dropWhile_head_false _ _ h1, dropWhile_head_false, List.reverse_reverse]
  intro hd hh
  rw [List.head?_reverse] at hh
  exact h2 hd hh

theorem utf8EncodeChar_lt_256 (c : Char) : ∀ b ∈ utf8EncodeChar c, b < 256 := by
  intro b hb
  have hval := char_valid_nat c
  rw [utf8EncodeChar] at hb
  by_cases h1 : c.toNat < 0x80
  · simp [h1] at hb; omega
  · by_cases h2 : c.toNat < 0x800
    · simp [h1, h2] at hb
      rcases hb with h | h <;> omega
    · by_cases h3 : c.toNat < 0x10000
      · simp [h1, h2, h3] at hb
        rcases hb with h | h | h <;> omega
      · simp [h1, h2, h3] at hb
        rcases hb with h | h | h | h <;> omega

theorem utf8EncodeList_lt_256 (s : List Char) : ∀ b ∈ utf8EncodeList s, b < 256 := by
  intro b hb
  rw [utf8EncodeList, List.mem_flatMap] at hb
  obtain ⟨c, _, hbc⟩ := hb
  exact utf8EncodeChar_lt_256 c b hbc

theorem safe_char_of_safe_bytes (c : Char) (h : ∀ b ∈ utf8EncodeChar c, isSafeByte b = true) :
    c.toNat ∈ Set.Icc 0x21 0x7E ∧ c.toNat ≠ 0x22 ∧ c.toNat ≠ 0x5C ∧
      utf8EncodeChar c = [c.toNat] := by
  by_cases h1 : c.toNat < 0x80
  · have henc : utf8EncodeChar c = [c.toNat] := by rw [utf8EncodeChar, if_pos h1]
    have hs := h c.toNat (by rw [henc]; simp)
    simp [isSafeByte] at hs
    exact ⟨⟨hs.1.1.1, hs.1.1.2⟩, hs.1.2, hs.2, henc⟩
  · exfalso
    by_cases h2 : c.toNat < 0x800
    · have : ¬isSafeByte (0xC0 + c.toNat / 0x40) = true := by
        simp [isSafeByte]; omega
      exact this (h _ (by rw [utf8EncodeChar, if_neg h1, if_pos h2]; simp))
    · by_cases h3 : c.toNat < 0x10000
      · have : ¬isSafeByte (0xE0 + c.toNat / 0x1000) = true := by
          simp [isSafeByte]; omega
        exact this (h _ (by rw [utf8EncodeChar, if_neg h1, if_neg h2, if_pos h3]; simp))
      · have : ¬isSafeByte (0xF0 + c.toNat / 0x40000) = true := by
          simp [isSafeByte]; omega
        exact this (h _ (by rw [utf8EncodeChar, if_neg h1, if_neg h2, if_neg h3]; simp))

theorem not_whitespace_of_safe (c : Char) (hlo : 0x21 ≤ c.toNat) (hhi : c.toNat ≤ 0x7E) :
    isRustWhitespace c = false := by
  simp [isRustWhitespace, rustWhitespaceCodes]
  omega

end Pickit

namespace Pickit

theorem quote_unquoted_case (s : List Char) (hsafe : (utf8EncodeList s).all isSafeByte) :
    unescape_git_path_string s = s := by
  have hch : ∀ c ∈ s, 0x21 ≤ c.toNat ∧ c.toNat ≤ 0x7E ∧ c.toNat ≠ 0x22 ∧ c.toNat ≠ 0x5C := by
    intro c hc
    have hb : ∀ b ∈ utf8EncodeChar c, isSafeByte b = true := by
      intro b hbc
      have : b ∈ utf8EncodeList s := by
        rw [utf8EncodeList, List.mem_flatMap]
        exact ⟨c, hc, hbc⟩
      exact List.all_eq_true.mp hsafe b this
    obtain ⟨hicc, hq, hbsl, _⟩ := safe_char_of_safe_bytes c hb
    exact ⟨hicc.1, hicc.2, hq, hbsl⟩
  have hh : ∀ hd, s.head? = some hd → isRustWhitespace hd = false := by
    intro hd hhd
    have hm : hd ∈ s := by
      cases s with
      | nil => simp at hhd
      | cons a t => simp at hhd; simp [hhd]
    obtain ⟨h1, h2, _, _⟩ := hch hd hm
    exact not_whitespace_of_safe hd h1 h2
  have hl : ∀ lt, s.getLast? = some lt → isRustWhitespace lt = false := by
    intro lt hlt
    have hm : lt ∈ s := by
      have hx : lt ∈ s.getLast? := Option.mem_def.mpr hlt
      obtain ⟨hne, heq⟩ := List.mem_getLast?_eq_getLast hx
      rw [heq]
      exact List.getLast_mem hne
    obtain ⟨h1, h2, _, _⟩ := hch lt hm
    exact not_whitespace_of_safe lt h1 h2
  have hnq : ¬(2 ≤ s.length ∧ s.head? = some '"' ∧ s.getLast? = some '"') := by
    rintro ⟨-, hhd, -⟩
    cases s with
    | nil => simp at hhd
    | cons a t =>
      simp at hhd
      obtain ⟨-, -, hq, -⟩ := hch a (by simp)
      subst hhd
      exact hq rfl
  have hbs : ∀ c ∈ s, ¬c = '\\' := by
    intro c hc he
    obtain ⟨-, -, -, hq⟩ := hch c hc
    subst he
    exact hq rfl
  rw [unescape_git_path_string]
  simp only [rustTrim_eq_self s hh hl, if_neg hnq]
  rw [unescapeBytes_no_backslash s hbs, utf8DecodeLossy_encodeList]

/-- Claim C2: decoding the encoding of any string without an embedded NUL
byte yields the string back, including spaces, double quotes, backslashes,
control characters and multi-byte UTF-8. The decoder is the model of
`unescape_git_path_string` from `src/git.rs`; the encoder is modelled from
the specification because `quote_path_string` is absent from the provided
sources. -/
theorem decode_encode_roundtrip (s : List Char) (hnul : ∀ c ∈ s, c.toNat ≠ 0) :
    unescape_git_path_string (quote_path_string s) = s := by
  rw [quote_path_string]
  by_cases hsafe : (utf8EncodeList s).all isSafeByte
  · rw [if_pos hsafe]
    exact quote_unquoted_case s hsafe
  · rw [if_neg hsafe]
    rw [unescape_git_path_string]
    have htrim : rustTrim ('"' :: ((utf8EncodeList s).flatMap escapeByte ++ ['"']))
        = '"' :: ((utf8EncodeList s).flatMap escapeByte ++ ['"']) := by
      apply rustTrim_eq_self
      · intro hd hhd
        simp at hhd
        subst hhd
        decide
      · intro lt hlt
        rw [show ('"' :: ((utf8EncodeList s).flatMap escapeByte ++ ['"']))
            = ('"' :: (utf8EncodeList s).flatMap escapeByte) ++ ['"'] by simp] at hlt
        rw [List.getLast?_concat] at hlt
        have hlt2 : lt = '"' := by
          injection hlt with h2
          exact h2.symm
        rw [hlt2]
        decide
    simp only [htrim]
    have hcond : 2 ≤ ('"' :: ((utf8EncodeList s).flatMap escapeByte ++ ['"'])).length ∧
        ('"' :: ((utf8EncodeList s).flatMap escapeByte ++ ['"'])).head? = some '"' ∧
        ('"' :: ((utf8EncodeList s).flatMap escapeByte ++ ['"'])).getLast? = some '"' := by
      refine ⟨by simp, by simp, ?_⟩
      rw [show ('"' :: ((utf8EncodeList s).flatMap escapeByte ++ ['"']))
          = ('"' :: (utf8EncodeList s).flatMap escapeByte) ++ ['"'] by simp]
      rw [List.getLast?_concat]
    rw [if_pos hcond]
    have hstrip : (('"' :: ((utf8EncodeList s).flatMap escapeByte ++ ['"'])).drop 1).dropLast
        = (utf8EncodeList s).flatMap escapeByte := by
      simp
    rw [hstrip]
    rw [unescapeBytes_flatMap_escapeByte _ (utf8EncodeList_lt_256 s),
      utf8DecodeLossy_encodeList]

/-- Witness for claim C2 at the concrete string consisting of a letter,
a space, a double quote, a backslash, a newline and a CJK character. -/
theorem decode_encode_roundtrip_witness :
    (∀ c ∈ ['a', ' ', '"', '\\', '\n', '日'], c.toNat ≠ 0) ∧
      unescape_git_path_string (quote_path_string ['a', ' ', '"', '\\', '\n', '日'])
        = ['a', ' ', '"', '\\', '\n', '日'] :=
  ⟨by decide, decode_encode_roundtrip ['a', ' ', '"', '\\', '\n', '日'] (by decide)⟩

/-- Counterexample to claim C9: the input consisting of the four
characters a, backslash, n, b is not wrapped in surrounding double
quotes, yet decoding it interprets the backslash escape and returns
a, newline, b instead of the input unchanged. -/
theorem unquoted_not_identity_cex :
    ¬(2 ≤ (['a', '\\', 'n', 'b'] : List Char).length ∧
        (['a', '\\', 'n', 'b'] : List Char).head? = some '"' ∧
        (['a', '\\', 'n', 'b'] : List Char).getLast? = some '"') ∧
      unescape_git_path_string ['a', '\\', 'n', 'b'] ≠ ['a', '\\', 'n', 'b'] := by
  constructor
  · decide
  · decide

/-- Claim C9 as amended: an input that is not wrapped in surrounding
double quotes, contains no backslash, and neither starts nor ends with
whitespace decodes to itself unchanged. -/
theorem unquoted_decode_eq_self (s : List Char)
    (hq : ¬(2 ≤ s.length ∧ s.head? = some '"' ∧ s.getLast? = some '"'))
    (hbs : ∀ c ∈ s, ¬c = '\\')
    (hh : ∀ hd, s.head? = some hd → isRustWhitespace hd = false)
    (hl : ∀ lt, s.getLast? = some lt → isRustWhitespace lt = false) :
    unescape_git_path_string s = s := by
  rw [unescape_git_path_string]
  simp only [rustTrim_eq_self s hh hl, if_neg hq]
  rw [unescapeBytes_no_backslash s hbs, utf8DecodeLossy_encodeList]

/-- Witness for the amended claim C9 at the concrete unquoted input abc. -/
theorem unquoted_decode_eq_self_witness :
    unescape_git_path_string ['a', 'b', 'c'] = ['a', 'b', 'c'] :=
  unquoted_decode_eq_self ['a', 'b', 'c'] (by decide) (by decide) (by decide) (by decide)

end Pickit

namespace Pickit

/-! ## Tree store data model (`src/app.rs`)

A `PathBuf` is modelled by its component list (`List String`); the root
path `.` is the one-component list consisting of the string `.`, so that
component counting, prefix tests and equality tests agree with the Rust
`Path` operations used by the sources. The arena `Vec<TreeItem>` is a
`List TreeItem` addressed by position; the recursions that Rust bounds by
the strictly decreasing parent index (or strictly increasing child index)
take an explicit fuel argument, instantiated with the arena length, which
is enough fuel in every state whose parent indices are smaller than the
child index. -/

/-- Directory path as its list of components. -/
abbrev DirPath := List String

/-- Path of the root node. -/
def rootPath : DirPath := ["."]

/-- Pending change marker (`ChangeType` in `src/app.rs`). -/
inductive ChangeType where
  | Add
  | Remove
deriving DecidableEq

/-- Tree node (`TreeItem` in `src/app.rs`). -/
structure TreeItem where
  path : DirPath
  name : String
  children_indices : List Nat
  parent_index : Option Nat
  is_expanded : Bool
  children_loaded : Bool
  is_checked_out : Bool
  pending_change : Option ChangeType
  is_locked : Bool
  contains_uncommitted_changes : Bool
  has_checked_out_descendant : Bool
  is_implicitly_checked_out : Bool
  is_loading : Bool
  indentation_level : Nat
  cached_pending_changes : Nat
deriving DecidableEq

/-- Constructor `TreeItem::new`. -/
def TreeItem.new (path : DirPath) (name : String) (is_checked_out : Bool) : TreeItem where
  path := path
  name := name
  children_indices := []
  parent_index := none
  is_expanded := false
  children_loaded := false
  is_checked_out := is_checked_out
  pending_change := none
  is_locked := false
  contains_uncommitted_changes := false
  has_checked_out_descendant := false
  is_implicitly_checked_out := false
  is_loading := false
  indentation_level := 0
  cached_pending_changes := 0

/-- Application state (`App` in `src/app.rs`), restricted to the fields
the tree engine reads or writes; the channel endpoints and scroll state
are presentation concerns and carry no tree information. -/
structure App where
  items : List TreeItem
  path_to_index : List (DirPath × Nat)
  filtered_item_indices : List Nat
  selected_item_index : Nat
  last_git_error : Option String
  is_applying_changes : Bool
  sparse_checkout_dirs : List DirPath
  uncommitted_paths : List DirPath
  is_sparse_checkout_list_loading : Bool
deriving DecidableEq

/-- Lookup in the path index (`path_to_index.contains_key`). -/
def mapContainsKey (m : List (DirPath × Nat)) (k : DirPath) : Bool :=
  m.any (fun e => e.1 == k)

/-- Insertion into the path index; keys are only ever inserted when
absent, so shadowing cannot occur. -/
def mapInsert (m : List (DirPath × Nat)) (k : DirPath) (v : Nat) : List (DirPath × Nat) :=
  (k, v) :: m

/-- Pointwise update of an arena slot, a no-op out of bounds (the Rust
code only ever indexes valid slots). -/
def setItem (items : List TreeItem) (i : Nat) (f : TreeItem → TreeItem) : List TreeItem :=
  match items[i]? with
  | some it => items.set i (f it)
  | none => items

/-! ### Path ordering

`Vec<PathBuf>` is sorted through `PathBuf`'s `Ord`: lexicographic over
components, each component compared bytewise; for valid UTF-8 the byte
order coincides with code-point order, which is what `strLtb` compares. -/

/-- Strict bytewise (code-point) comparison of two strings given as
character lists. -/
def strLtb : List Char → List Char → Bool
  | _, [] => false
  | [], _ :: _ => true
  | a :: as, b :: bs =>
    if a.toNat < b.toNat then true
    else if b.toNat < a.toNat then false
    else strLtb as bs

/-- Non-strict lexicographic comparison of component paths, the order in
which `itertools::sorted` arranges `PathBuf`s. -/
def pathLeb : DirPath → DirPath → Bool
  | [], _ => true
  | _ :: _, [] => false
  | a :: as, b :: bs =>
    if strLtb a.data b.data then true
    else if strLtb b.data a.data then false
    else pathLeb as bs

/-- Propositional form of `pathLeb`. -/
def pathLe (p q : DirPath) : Prop := pathLeb p q = true

instance : DecidableRel pathLe := fun p q => instDecidableEqBool (pathLeb p q) true

/-! ### Pending-change cache (`App::update_pending_changes_cache`) -/

/-- Contribution of a node's own marker to its cached count. -/
def pendingBit (it : TreeItem) : Nat := if it.pending_change.isSome then 1 else 0

/-- Cached count a node should carry: its own marker bit plus the cached
counts of its direct children (`src/app.rs:127-141`). -/
def cacheValue (items : List TreeItem) (it : TreeItem) : Nat :=
  pendingBit it + (it.children_indices.map
    (fun c => ((items[c]?).map TreeItem.cached_pending_changes).getD 0)).sum

/-- Model of `App::update_pending_changes_cache` (`src/app.rs:127-152`):
recompute the slot's cached count from its children, and when the value
changed, repeat one level up toward the root. The fuel bounds the
parent-chain recursion, which Rust bounds by the strictly decreasing
parent index; fuel equal to the arena length is enough in every state
whose parent indices point below their child. -/
def update_pending_changes_cache : Nat → List TreeItem → Nat → List TreeItem
  | 0, items, _ => items
  | fuel + 1, items, item_idx =>
    match items[item_idx]? with
    | none => items
    | some it =>
      let current := cacheValue items it
      if it.cached_pending_changes = current then items
      else
        let items2 := items.set item_idx { it with cached_pending_changes := current }
        match it.parent_index with
        | some parent_idx => update_pending_changes_cache fuel items2 parent_idx
        | none => items2

/-- Bottom-up rebuild pass `for i in (0..len).rev()` over
`update_pending_changes_cache`, as run by the initial load, the refresh
and the sparse-list handler. -/
def rebuildCachesFrom : List TreeItem → Nat → List TreeItem
  | items, 0 => items
  | items, k + 1 => rebuildCachesFrom (update_pending_changes_cache items.length items k) k

/-- Full bottom-up cache rebuild over the whole arena. -/
def rebuildAllCaches (items : List TreeItem) : List TreeItem :=
  rebuildCachesFrom items items.length

/-! ### State propagation (`App::update_tree_item_states`) -/

/-- Test of pass 1 (`src/app.rs:249-265`): does the externally reported
path `sco` witness a checked-out strict descendant for a node at
`item_path`? For the root, any reported path other than the root path
counts; otherwise the reported path must extend `item_path` by at least
one component. -/
def isStrictPathDescendant (sco item_path : DirPath) : Bool :=
  if item_path = rootPath then sco != rootPath
  else item_path.isPrefixOf sco && item_path.length < sco.length

/-- Pass 1: set `has_checked_out_descendant` from the reported sparse
list alone. -/
def pass1 (sparse : List DirPath) (items : List TreeItem) : List TreeItem :=
  items.map (fun it =>
    { it with has_checked_out_descendant :=
        sparse.any (fun sco => isStrictPathDescendant sco it.path) })

/-- One index of pass 2 (`src/app.rs:272-282`): OR into the slot its own
explicit checkout and its children's `is_checked_out` or
`has_checked_out_descendant`. -/
def pass2Step (items : List TreeItem) (i : Nat) : List TreeItem :=
  match items[i]? with
  | none => items
  | some it =>
    let item_has_explicit_checkout := it.is_checked_out
    let children_have := it.children_indices.any (fun c =>
      match items[c]? with
      | some child => child.is_checked_out || child.has_checked_out_descendant
      | none => false)
    items.set i { it with has_checked_out_descendant :=
      it.has_checked_out_descendant || children_have || item_has_explicit_checkout }

/-- Pass 2 processes indices from the last one down to 0. -/
def pass2From : List TreeItem → Nat → List TreeItem
  | items, 0 => items
  | items, k + 1 => pass2From (pass2Step items k) k

/-- One index of pass 3 (`src/app.rs:286-305`): a node whose parent is
neither missing nor the root inherits `is_implicitly_checked_out` from
the parent's explicit or implicit checkout. -/
def pass3Step (items : List TreeItem) (i : Nat) : List TreeItem :=
  match items[i]? with
  | none => items
  | some it =>
    let parent_eff :=
      match it.parent_index with
      | some parent_idx =>
        if parent_idx = 0 then false
        else
          match items[parent_idx]? with
          | some parent => parent.is_checked_out || parent.is_implicitly_checked_out
          | none => false
      | none => false
    items.set i { it with is_implicitly_checked_out := parent_eff }

/-- Pass 3 processes indices from 0 upward; the second argument is the
next index, the third the number of indices still to process. -/
def pass3Upto : List TreeItem → Nat → Nat → List TreeItem
  | items, _, 0 => items
  | items, i, k + 1 => pass3Upto (pass3Step items i) (i + 1) k

/-- Model of `App::update_tree_item_states` (`src/app.rs:244-306`):
pass 1 from the reported sparse list, pass 2 bottom-up, pass 3 top-down. -/
def update_tree_item_states (sparse : List DirPath) (items : List TreeItem) : List TreeItem :=
  let p1 := pass1 sparse items
  let p2 := pass2From p1 p1.length
  pass3Upto p2 0 p2.length

/-! ### Visible list (`App::build_visible_items`) -/

/-- Depth-first pre-order collection of visible indices, recursing into
children only of expanded nodes (`src/app.rs:614-627`). The fuel bounds
the descent, which Rust bounds by the strictly increasing child index. -/
def build_visible_items_recursive (items : List TreeItem) : Nat → Nat → List Nat
  | 0, item_idx => [item_idx]
  | fuel + 1, item_idx =>
    item_idx ::
      (match items[item_idx]? with
        | none => []
        | some it =>
          if it.is_expanded then
            it.children_indices.flatMap (fun c =>
              build_visible_items_recursive items fuel c)
          else [])

/-- Model of `App::build_visible_items`. -/
def build_visible_items (app : App) : App :=
  { app with filtered_item_indices :=
      if app.items.isEmpty then []
      else build_visible_items_recursive app.items app.items.length 0 }

end Pickit

namespace Pickit

/-! ### Message handlers and operations (`src/app.rs`, `src/main.rs`) -/

/-- Loop body of `App::handle_children_loaded` over the sorted discovered
paths (`src/app.rs:193-223`): skip a path already present in the index,
otherwise append a fresh node under `parent_idx`, record it in the index,
and push its arena position onto the parent's child list. -/
def mergeChildrenLoop : App → Nat → List DirPath → App
  | app, _, [] => app
  | app, parent_idx, dir_path :: rest =>
    if mapContainsKey app.path_to_index dir_path then
      mergeChildrenLoop app parent_idx rest
    else
      let name := (dir_path.getLast?).getD ""
      let is_checked_out := app.sparse_checkout_dirs.contains dir_path
      let contains_uncommitted_changes :=
        app.uncommitted_paths.any (fun p => dir_path.isPrefixOf p)
      let is_locked := contains_uncommitted_changes
      let item0 := TreeItem.new dir_path name is_checked_out
      let item := { item0 with
        contains_uncommitted_changes := contains_uncommitted_changes
        is_locked := is_locked
        parent_index := some parent_idx
        indentation_level :=
          ((app.items[parent_idx]?).map TreeItem.indentation_level).getD 0 + 1
        cached_pending_changes := 0 }
      let new_idx := app.items.length
      let items2 := setItem app.items parent_idx (fun p =>
        { p with children_indices := p.children_indices ++ [new_idx] })
      let app2 := { app with
        items := items2 ++ [item]
        path_to_index := mapInsert app.path_to_index dir_path new_idx }
      mergeChildrenLoop app2 parent_idx rest

/-- Model of `App::handle_children_loaded` (`src/app.rs:182-243`). On
success: clear the parent's loading flag, mark its children loaded, merge
the sorted discovered paths, expand the parent when it now has children,
re-run the state passes, rebuild the visible list and update the parent's
cached count. On failure: clear the loading flag of the first loading
node and record the error. -/
def handle_children_loaded (app : App) (result : Except String (Nat × List DirPath)) : App :=
  match result with
  | .ok (parent_idx, sub_dirs) =>
    let app1 := { app with items := setItem app.items parent_idx (fun it =>
      { it with is_loading := false, children_loaded := true }) }
    let app2 :=
      if sub_dirs.isEmpty then app1
      else mergeChildrenLoop app1 parent_idx (List.insertionSort pathLe sub_dirs)
    let app3 := { app2 with items := setItem app2.items parent_idx (fun it =>
      if it.children_indices.isEmpty then it else { it with is_expanded := true }) }
    let app4 := { app3 with
      items := update_tree_item_states app3.sparse_checkout_dirs app3.items }
    let app5 := build_visible_items app4
    { app5 with
      items := update_pending_changes_cache app5.items.length app5.items parent_idx }
  | .error e =>
    let items2 :=
      match app.items.findIdx? (fun i => i.is_loading) with
      | some j => setItem app.items j (fun it => { it with is_loading := false })
      | none => app.items
    { app with items := items2, last_git_error := some e }

/-- Model of `App::handle_sparse_checkout_list_loaded`
(`src/app.rs:154-180`). On success: store the fresh list, reset every
node's `is_checked_out` from membership in it, re-run the state passes,
rebuild the visible list and rebuild all cached counts bottom-up. On
failure: record the error. -/
def handle_sparse_checkout_list_loaded (app : App) (result : Except String (List DirPath)) :
    App :=
  let app0 := { app with is_sparse_checkout_list_loading := false }
  match result with
  | .ok list =>
    let app1 := { app0 with sparse_checkout_dirs := list }
    let app2 := { app1 with items := app1.items.map (fun (it : TreeItem) =>
      { it with is_checked_out := list.contains it.path }) }
    let app3 := { app2 with
      items := update_tree_item_states app2.sparse_checkout_dirs app2.items }
    let app4 := build_visible_items app3
    { app4 with items := rebuildAllCaches app4.items }
  | .error e => { app0 with last_git_error := some e }

/-- Loop body of `App::load_initial_tree` over the sorted top-level
directories (`src/app.rs:334-359`); unlike the children merge there is no
duplicate check, every discovered path becomes a child of the root. -/
def initialChildrenLoop : App → List DirPath → App
  | app, [] => app
  | app, dir_path :: rest =>
    let name := (dir_path.getLast?).getD ""
    let is_checked_out := app.sparse_checkout_dirs.contains dir_path
    let contains_uncommitted_changes :=
      app.uncommitted_paths.any (fun p => dir_path.isPrefixOf p)
    let is_locked := contains_uncommitted_changes
    let item0 := TreeItem.new dir_path name is_checked_out
    let item := { item0 with
      contains_uncommitted_changes := contains_uncommitted_changes
      is_locked := is_locked
      parent_index := some 0
      indentation_level := 1
      cached_pending_changes := 0 }
    let new_idx := app.items.length
    let items2 := setItem app.items 0 (fun p =>
      { p with children_indices := p.children_indices ++ [new_idx] })
    let app2 := { app with
      items := items2 ++ [item]
      path_to_index := mapInsert app.path_to_index dir_path new_idx }
    initialChildrenLoop app2 rest

/-- Model of `App::load_initial_tree` (`src/app.rs:308-369`): store the
freshly scanned uncommitted paths, clear the arena and index, create the
root node (explicitly checked out, locked, expanded, children loaded),
append the sorted top-level directories, run the state passes and rebuild
all cached counts bottom-up. The repository-root display name and the
results of the two synchronous git calls are parameters. -/
def load_initial_tree (app : App) (root_name : String) (uncommitted : List DirPath)
    (top_level_dirs : List DirPath) : App :=
  let app0 := { app with uncommitted_paths := uncommitted, items := [], path_to_index := [] }
  let root_item := { TreeItem.new rootPath root_name true with
    is_locked := true
    is_expanded := true
    children_loaded := true
    indentation_level := 0
    cached_pending_changes := 0 }
  let app1 := { app0 with items := [root_item], path_to_index := [(rootPath, 0)] }
  let app2 := initialChildrenLoop app1 (List.insertionSort pathLe top_level_dirs)
  let app3 := { app2 with
    items := update_tree_item_states app2.sparse_checkout_dirs app2.items }
  { app3 with items := rebuildAllCaches app3.items }

/-- Model of `App::refresh` (`src/app.rs:423-468`): mark the asynchronous
sparse-list load as in flight (its result arrives later through
`handle_sparse_checkout_list_loaded`), store the freshly scanned
uncommitted paths, update every node in place (the root pinned to
checked-out and locked, every other node refreshed from the cached sparse
list and the new uncommitted set), run the state passes and rebuild all
cached counts bottom-up. -/
def refresh (app : App) (uncommitted : List DirPath) : App :=
  let app0 := { app with is_sparse_checkout_list_loading := true }
  let app1 := { app0 with uncommitted_paths := uncommitted }
  let app2 := { app1 with items := app1.items.map (fun (it : TreeItem) =>
    if it.path = rootPath then { it with is_checked_out := true, is_locked := true }
    else
      let contains_uncommitted_changes := uncommitted.any (fun p => it.path.isPrefixOf p)
      { it with
        is_checked_out := app1.sparse_checkout_dirs.contains it.path
        contains_uncommitted_changes := contains_uncommitted_changes
        is_locked := contains_uncommitted_changes }) }
  let app3 := { app2 with
    items := update_tree_item_states app2.sparse_checkout_dirs app2.items }
  { app3 with items := rebuildAllCaches app3.items }

/-- Model of the `ApplyChangesCompleted(Ok)` arm of the main loop
(`src/main.rs:160-169`): reset the progress flag, clear the pending
marker of every node, then trigger the refresh. -/
def handle_apply_changes_completed_ok (app : App) (uncommitted : List DirPath) : App :=
  let app0 := { app with is_applying_changes := false }
  let app1 := { app0 with items := app0.items.map (fun (it : TreeItem) =>
    { it with pending_change := none }) }
  refresh app1 uncommitted

/-- Full settling of a successful apply: the completion arm of the main
loop followed by the arrival of the refreshed sparse-checkout list. -/
def applyRefreshSettle (app : App) (uncommitted : List DirPath)
    (freshList : List DirPath) : App :=
  handle_sparse_checkout_list_loaded
    (handle_apply_changes_completed_ok app uncommitted) (Except.ok freshList)

/-- Model of `App::toggle_selection` (`src/app.rs:755-777`): locked nodes
are left untouched; otherwise a set marker resets to none and an unset
marker becomes remove for a checked-out node and add otherwise, after
which the cached counts along the parent chain are updated. -/
def toggle_selection (app : App) : App :=
  match app.filtered_item_indices[app.selected_item_index]? with
  | none => app
  | some global_idx =>
    match app.items[global_idx]? with
    | none => app
    | some item =>
      if item.is_locked then app
      else
        let newPending : Option ChangeType :=
          match item.pending_change with
          | some ChangeType.Add => none
          | some ChangeType.Remove => none
          | none =>
            if item.is_checked_out then some ChangeType.Remove else some ChangeType.Add
        let items2 := app.items.set global_idx { item with pending_change := newPending }
        { app with items := update_pending_changes_cache items2.length items2 global_idx }

/-- Model of `App::load_children_and_expand` (`src/app.rs:653-686`),
returning the new state together with the number of background fetches
dispatched: an already-loaded node only re-expands (when it has
children), a loading node is left alone, and otherwise the loading flag
is set and exactly one fetch is dispatched. -/
def load_children_and_expand (app : App) (global_idx : Nat) : App × Nat :=
  match app.items[global_idx]? with
  | none => (app, 0)
  | some item =>
    if item.children_loaded then
      if item.children_indices.isEmpty then (app, 0)
      else
        let app2 := { app with
          items := app.items.set global_idx { item with is_expanded := true } }
        (build_visible_items app2, 0)
    else if item.is_loading then (app, 0)
    else
      ({ app with items := app.items.set global_idx { item with is_loading := true } }, 1)

/-- Model of `App::expand_selected_item` (`src/app.rs:688-695`): only a
not-yet-expanded selected node triggers `load_children_and_expand`. -/
def expand_selected_item (app : App) : App × Nat :=
  match app.filtered_item_indices[app.selected_item_index]? with
  | none => (app, 0)
  | some global_idx =>
    match app.items[global_idx]? with
    | none => (app, 0)
    | some item =>
      if item.is_expanded then (app, 0)
      else load_children_and_expand app global_idx

end Pickit

namespace Pickit

/-! ## Frame lemmas

Each propagation pass writes exactly one field of the affected slots;
these lemmas express that every function of a node that ignores the
written field is preserved pointwise. -/

theorem setItem_length (items : List TreeItem) (i : Nat) (f : TreeItem → TreeItem) :
    (setItem items i f).length = items.length := by
  rw [setItem]
  cases h : items[i]? <;> simp

theorem setItem_getElem? (items : List TreeItem) (i : Nat) (f : TreeItem → TreeItem)
    (j : Nat) : (setItem items i f)[j]? = if i = j then (items[i]?).map f else items[j]? := by
  rw [setItem]
  cases h : items[i]? with
  | none =>
    by_cases hij : i = j
    · subst hij
      simp [h]
    · simp [hij]
  | some it =>
    have hlt : i < items.length := by
      by_contra hge
      rw [List.getElem?_eq_none (by omega)] at h
      exact Option.noConfusion h
    by_cases hij : i = j
    · subst hij
      simp [List.getElem?_set_self, h, hlt]
    · simp [List.getElem?_set_ne hij, hij]

theorem pass1_length (sp : List DirPath) (items : List TreeItem) :
    (pass1 sp items).length = items.length := by
  simp [pass1]

theorem pass2Step_length (items : List TreeItem) (k : Nat) :
    (pass2Step items k).length = items.length := by
  rw [pass2Step]
  cases h : items[k]? <;> simp

theorem pass2From_length (k : Nat) (items : List TreeItem) :
    (pass2From items k).length = items.length := by
  induction k generalizing items with
  | zero => rfl
  | succ n ih => rw [pass2From, ih, pass2Step_length]

theorem pass3Step_length (items : List TreeItem) (i : Nat) :
    (pass3Step items i).length = items.length := by
  rw [pass3Step]
  cases h : items[i]? <;> simp

theorem pass3Upto_length (k : Nat) (items : List TreeItem) (i : Nat) :
    (pass3Upto items i k).length = items.length := by
  induction k generalizing items i with
  | zero => rfl
  | succ n ih => rw [pass3Upto, ih, pass3Step_length]

theorem update_tree_item_states_length (sp : List DirPath) (items : List TreeItem) :
    (update_tree_item_states sp items).length = items.length := by
  rw [update_tree_item_states]
  rw [pass3Upto_length, pass2From_length, pass1_length]

theorem update_pending_changes_cache_length (fuel : Nat) (items : List TreeItem) (idx : Nat) :
    (update_pending_changes_cache fuel items idx).length = items.length := by
  induction fuel generalizing items idx with
  | zero => rfl
  | succ n ih =>
    rw [update_pending_changes_cache]
    cases h : items[idx]? with
    | none => rfl
    | some it =>
      by_cases hc : it.cached_pending_changes = cacheValue items it
      · simp [hc]
      · simp only [hc, if_false]
        cases hp : it.parent_index with
        | some p => simp [ih]
        | none => simp

theorem rebuildCachesFrom_length (k : Nat) (items : List TreeItem) :
    (rebuildCachesFrom items k).length = items.length := by
  induction k generalizing items with
  | zero => rfl
  | succ n ih => rw [rebuildCachesFrom, ih, update_pending_changes_cache_length]

theorem rebuildAllCaches_length (items : List TreeItem) :
    (rebuildAllCaches items).length = items.length := by
  rw [rebuildAllCaches, rebuildCachesFrom_length]

theorem pass1_frame {β : Type} (f : TreeItem → β)
    (hf : ∀ it b, f { it with has_checked_out_descendant := b } = f it)
    (sp : List DirPath) (items : List TreeItem) (i : Nat) :
    ((pass1 sp items)[i]?).map f = (items[i]?).map f := by
  rw [pass1, List.getElem?_map]
  cases items[i]? with
  | none => rfl
  | some it => simp [hf]

theorem pass2Step_frame {β : Type} (f : TreeItem → β)
    (hf : ∀ it b, f { it with has_checked_out_descendant := b } = f it)
    (items : List TreeItem) (k i : Nat) :
    ((pass2Step items k)[i]?).map f = (items[i]?).map f := by
  rw [pass2Step]
  cases h : items[k]? with
  | none => rfl
  | some it =>
    have hlt : k < items.length := by
      by_contra hge
      rw [List.getElem?_eq_none (by omega)] at h
      exact Option.noConfusion h
    by_cases hik : k = i
    · subst hik
      simp [List.getElem?_set_self, hlt, h, hf]
    · simp [List.getElem?_set_ne hik]

theorem pass2From_frame {β : Type} (f : TreeItem → β)
    (hf : ∀ it b, f { it with has_checked_out_descendant := b } = f it)
    (k : Nat) (items : List TreeItem) (i : Nat) :
    ((pass2From items k)[i]?).map f = (items[i]?).map f := by
  induction k generalizing items with
  | zero => rfl
  | succ n ih => rw [pass2From, ih, pass2Step_frame f hf]

theorem pass3Step_frame {β : Type} (f : TreeItem → β)
    (hf : ∀ it b, f { it with is_implicitly_checked_out := b } = f it)
    (items : List TreeItem) (k i : Nat) :
    ((pass3Step items k)[i]?).map f = (items[i]?).map f := by
  rw [pass3Step]
  cases h : items[k]? with
  | none => rfl
  | some it =>
    have hlt : k < items.length := by
      by_contra hge
      rw [List.getElem?_eq_none (by omega)] at h
      exact Option.noConfusion h
    by_cases hik : k = i
    · subst hik
      simp [List.getElem?_set_self, hlt, h, hf]
    · simp [List.getElem?_set_ne hik]

theorem pass3Upto_frame {β : Type} (f : TreeItem → β)
    (hf : ∀ it b, f { it with is_implicitly_checked_out := b } = f it)
    (k : Nat) (items : List TreeItem) (j i : Nat) :
    ((pass3Upto items j k)[i]?).map f = (items[i]?).map f := by
  induction k generalizing items j with
  | zero => rfl
  | succ n ih => rw [pass3Upto, ih, pass3Step_frame f hf]

theorem update_tree_item_states_frame {β : Type} (f : TreeItem → β)
    (hf1 : ∀ it b, f { it with has_checked_out_descendant := b } = f it)
    (hf3 : ∀ it b, f { it with is_implicitly_checked_out := b } = f it)
    (sp : List DirPath) (items : List TreeItem) (i : Nat) :
    ((update_tree_item_states sp items)[i]?).map f = (items[i]?).map f := by
  rw [update_tree_item_states]
  rw [pass3Upto_frame f hf3, pass2From_frame f hf1, pass1_frame f hf1]

theorem update_pending_changes_cache_frame {β : Type} (f : TreeItem → β)
    (hf : ∀ it n, f { it with cached_pending_changes := n } = f it)
    (fuel : Nat) (items : List TreeItem) (idx i : Nat) :
    ((update_pending_changes_cache fuel items idx)[i]?).map f = (items[i]?).map f := by
  induction fuel generalizing items idx with
  | zero => rfl
  | succ n ih =>
    rw [update_pending_changes_cache]
    cases h : items[idx]? with
    | none => rfl
    | some it =>
      have hlt : idx < items.length := by
        by_contra hge
        rw [List.getElem?_eq_none (by omega)] at h
        exact Option.noConfusion h
      by_cases hc : it.cached_pending_changes = cacheValue items it
      · simp [hc]
      · simp only [hc, if_false]
        have hset : ∀ w : TreeItem,
            w = { it with cached_pending_changes := cacheValue items it } →
            ∀ j : Nat, ((items.set idx w)[j]?).map f = (items[j]?).map f := by
          intro w hw j
          by_cases hij : idx = j
          · subst hij
            simp [List.getElem?_set_self, hlt, h, hw, hf]
          · simp [List.getElem?_set_ne hij]
        generalize hX : ({ it with cached_pending_changes := cacheValue items it }
          : TreeItem) = w
        cases hp : it.parent_index with
        | some p =>
          rw [ih]
          exact hset w hX.symm i
        | none =>
          exact hset w hX.symm i

theorem rebuildCachesFrom_frame {β : Type} (f : TreeItem → β)
    (hf : ∀ it n, f { it with cached_pending_changes := n } = f it)
    (k : Nat) (items : List TreeItem) (i : Nat) :
    ((rebuildCachesFrom items k)[i]?).map f = (items[i]?).map f := by
  induction k generalizing items with
  | zero => rfl
  | succ n ih => rw [rebuildCachesFrom, ih, update_pending_changes_cache_frame f hf]

theorem rebuildAllCaches_frame {β : Type} (f : TreeItem → β)
    (hf : ∀ it n, f { it with cached_pending_changes := n } = f it)
    (items : List TreeItem) (i : Nat) :
    ((rebuildAllCaches items)[i]?).map f = (items[i]?).map f := by
  rw [rebuildAllCaches, rebuildCachesFrom_frame f hf]

theorem build_visible_items_items (app : App) : (build_visible_items app).items = app.items :=
  rfl

end Pickit

namespace Pickit

/-! ## Claims C3 and C4 -/

/-- Empty application state: the `Default` impl of `App` restricted to
the modelled fields. -/
def baseApp : App where
  items := []
  path_to_index := []
  filtered_item_indices := []
  selected_item_index := 0
  last_git_error := none
  is_applying_changes := false
  sparse_checkout_dirs := []
  uncommitted_paths := []
  is_sparse_checkout_list_loading := false

theorem refresh_pending_frame (b : App) (u : List DirPath) (i : Nat) :
    (((refresh b u).items)[i]?).map TreeItem.pending_change
      = ((b.items)[i]?).map TreeItem.pending_change := by
  rw [refresh]
  rw [rebuildAllCaches_frame TreeItem.pending_change (fun _ _ => rfl)]
  rw [update_tree_item_states_frame TreeItem.pending_change (fun _ _ => rfl) (fun _ _ => rfl)]
  rw [List.getElem?_map]
  cases b.items[i]? with
  | none => rfl
  | some it =>
    by_cases hr : it.path = rootPath <;> simp [hr]

theorem sparse_loaded_pending_frame (b : App) (l : List DirPath) (i : Nat) :
    (((handle_sparse_checkout_list_loaded b (Except.ok l)).items)[i]?).map
        TreeItem.pending_change
      = ((b.items)[i]?).map TreeItem.pending_change := by
  rw [handle_sparse_checkout_list_loaded]
  rw [rebuildAllCaches_frame TreeItem.pending_change (fun _ _ => rfl)]
  rw [build_visible_items_items]
  rw [update_tree_item_states_frame TreeItem.pending_change (fun _ _ => rfl) (fun _ _ => rfl)]
  rw [List.getElem?_map]
  cases b.items[i]? with
  | none => rfl
  | some it => rfl

/-- Claim C4 as amended: after a successful apply the completion handler
clears every node's pending marker unconditionally before triggering the
refresh, and neither the refresh nor the arrival of the refreshed
sparse-checkout list restores any marker — afterwards every node's
marker is none whether or not the refreshed external state matches the
marker's former intent. -/
theorem apply_settle_clears_all_markers (app : App) (uncommitted freshList : List DirPath) :
    ∀ it ∈ (applyRefreshSettle app uncommitted freshList).items, it.pending_change = none := by
  intro it hit
  rw [List.mem_iff_getElem?] at hit
  obtain ⟨i, hi⟩ := hit
  have key : (((applyRefreshSettle app uncommitted freshList).items)[i]?).map
      TreeItem.pending_change = ((app.items)[i]?).map (fun _ => (none : Option ChangeType)) := by
    rw [applyRefreshSettle, sparse_loaded_pending_frame]
    rw [handle_apply_changes_completed_ok, refresh_pending_frame]
    rw [List.getElem?_map]
    cases app.items[i]? with
    | none => rfl
    | some x => rfl
  rw [hi] at key
  cases hx : (app.items)[i]? with
  | none => rw [hx] at key; exact Option.noConfusion key
  | some x =>
    rw [hx] at key
    simpa using key

/-- Concrete application: fresh tree over the single top-level directory
`docs`, nothing checked out. -/
def appC4base : App :=
  load_initial_tree baseApp "repo" [] [["docs"]]

/-- Concrete application with a pending add marker on `docs`. -/
def appC4 : App :=
  { appC4base with items := setItem appC4base.items 1 (fun it =>
      { it with pending_change := some ChangeType.Add }) }

/-- Counterexample to claim C4 as stated: `docs` carries an add marker,
the apply reports success but the refreshed external list still does not
contain `docs`, so the refreshed state disagrees with the marker's
intent — yet the settled state has cleared the marker instead of
preserving it. -/
theorem apply_settle_marker_not_preserved_cex :
    ((appC4.items)[1]?).map TreeItem.pending_change = some (some ChangeType.Add) ∧
      (((applyRefreshSettle appC4 [] []).items)[1]?).map TreeItem.is_checked_out
        = some false ∧
      (((applyRefreshSettle appC4 [] []).items)[1]?).map TreeItem.pending_change
        = some none := by
  refine ⟨by decide, by decide, by decide⟩

/-- C4, witness: the amended theorem applied to the concrete state
`appC4`, at its first item. -/
theorem apply_settle_clears_all_markers_witness :
    (((applyRefreshSettle appC4 [] []).items).get
      ⟨0, (by decide : 0 < ((applyRefreshSettle appC4 [] []).items).length)⟩).pending_change
      = none :=
  apply_settle_clears_all_markers appC4 [] [] _
    (List.get_mem ((applyRefreshSettle appC4 [] []).items) 0 _)

/-- Concrete application: fresh tree over `docs` with `docs` externally
checked out, so the root starts explicitly checked out and locked. -/
def appC3 : App :=
  load_initial_tree { baseApp with sparse_checkout_dirs := [["docs"]] } "repo" [] [["docs"]]

/-- Claim C3 failing run: the root of `appC3` is explicitly checked out
and locked after the initial load, but handling a loaded sparse-checkout
list that does not contain the root path `.` (the normal git output)
overwrites the root's explicit-checkout flag with false; only the locked
flag survives. -/
theorem root_flag_lost_on_sparse_list_load :
    ((appC3.items)[0]?).map (fun it => (it.path, it.is_checked_out, it.is_locked))
        = some (rootPath, true, true) ∧
      (((handle_sparse_checkout_list_loaded appC3 (Except.ok [["docs"]])).items)[0]?).map
          (fun it => (it.is_checked_out, it.is_locked)) = some (false, true) := by
  refine ⟨by decide, by decide⟩

end Pickit

namespace Pickit

/-! ## Claims C8 and C10 -/

/-- Claim C8: (1) an expand request on a node whose loading flag is set
and whose children are not yet loaded is a no-op dispatching no fetch;
(2) expanding an already-expanded selected node dispatches no fetch and
changes nothing, hence doing it twice dispatches zero fetches; (3) a call
that does dispatch dispatches exactly one fetch, only from a node whose
loading flag was clear, and leaves that flag set — so at most one fetch
can be in flight per node. -/
theorem expand_guard_no_duplicate_fetch :
    (∀ (app : App) (idx : Nat) (it : TreeItem), app.items[idx]? = some it →
      it.is_loading = true → it.children_loaded = false →
      load_children_and_expand app idx = (app, 0)) ∧
    (∀ (app : App) (gidx : Nat) (it : TreeItem),
      app.filtered_item_indices[app.selected_item_index]? = some gidx →
      app.items[gidx]? = some it → it.is_expanded = true →
      expand_selected_item app = (app, 0)) ∧
    (∀ (app : App) (idx : Nat) (st : App × Nat),
      load_children_and_expand app idx = st → st.2 ≠ 0 →
      (app.items[idx]?).map TreeItem.is_loading = some false ∧
        (st.1.items[idx]?).map TreeItem.is_loading = some true ∧ st.2 = 1) := by
  refine ⟨?_, ?_, ?_⟩
  · intro app idx it hit hload hnl
    rw [load_children_and_expand, hit]
    simp [hnl, hload]
  · intro app gidx it hsel hit hexp
    rw [expand_selected_item, hsel]
    simp [hit, hexp]
  · intro app idx st hst hnz
    subst hst
    cases hit : app.items[idx]? with
    | none => simp [load_children_and_expand, hit] at hnz
    | some it =>
      by_cases hcl : it.children_loaded = true
      · by_cases hemp : it.children_indices.isEmpty = true
        · simp [load_children_and_expand, hit, hcl, hemp] at hnz
        · simp [load_children_and_expand, hit, hcl, hemp] at hnz
      · by_cases hld : it.is_loading = true
        · simp [load_children_and_expand, hit, hcl, hld] at hnz
        · have hlt : idx < app.items.length := by
            by_contra hge
            rw [List.getElem?_eq_none (by omega)] at hit
            exact Option.noConfusion hit
          refine ⟨?_, ?_, ?_⟩
          · simp only [Bool.not_eq_true] at hld
            simp [hld]
          · simp [load_children_and_expand, hit, hcl, hld, List.getElem?_set_self, hlt]
          · simp [load_children_and_expand, hit, hcl, hld]

/-- Concrete application for the C8 witness: `docs` is loading with
children unloaded, the root is expanded with loaded children and sits at
the cursor. -/
def appC8 : App :=
  let a := build_visible_items (load_initial_tree baseApp "repo" [] [["docs"]])
  { a with items := setItem a.items 1 (fun it => { it with is_loading := true }) }

/-- Witness for claim C8: on `appC8`, an expand request against the
loading node 1 is a no-op with zero dispatches, expanding the
already-expanded selected root is a no-op with zero dispatches, and a
dispatching call on the fresh tree turns node 1's clear loading flag
into a set one with exactly one dispatch. -/
theorem expand_guard_no_duplicate_fetch_witness :
    load_children_and_expand appC8 1 = (appC8, 0) ∧
      expand_selected_item appC8 = (appC8, 0) ∧
      (((load_children_and_expand (load_initial_tree baseApp "repo" [] [["docs"]]) 1).1.items)[1]?).map
          TreeItem.is_loading = some true := by
  refine ⟨?_, ?_, ?_⟩
  · exact expand_guard_no_duplicate_fetch.1 appC8 1
      ((appC8.items[1]?).get (by decide))
      (Option.some_get (by decide)).symm (by decide) (by decide)
  · exact expand_guard_no_duplicate_fetch.2.1 appC8 0
      ((appC8.items[0]?).get (by decide))
      (by decide) (Option.some_get (by decide)).symm (by decide)
  · exact (expand_guard_no_duplicate_fetch.2.2 (load_initial_tree baseApp "repo" [] [["docs"]]) 1
      (load_children_and_expand (load_initial_tree baseApp "repo" [] [["docs"]]) 1) rfl
      (by decide)).2.1

end Pickit

namespace Pickit

theorem toggle_selection_pending (app : App) (gidx : Nat) (item : TreeItem)
    (hsel : app.filtered_item_indices[app.selected_item_index]? = some gidx)
    (hit : app.items[gidx]? = some item) (hlock : item.is_locked = false) :
    (((toggle_selection app).items)[gidx]?).map TreeItem.pending_change
      = some (match item.pending_change with
          | some _ => none
          | none =>
            if item.is_checked_out then some ChangeType.Remove else some ChangeType.Add) := by
  have hlt : gidx < app.items.length := by
    by_contra hge
    rw [List.getElem?_eq_none (by omega)] at hit
    exact Option.noConfusion hit
  rw [toggle_selection, hsel]
  simp only [hit]
  rw [if_neg (by simp [hlock])]
  rw [update_pending_changes_cache_frame TreeItem.pending_change (fun _ _ => rfl)]
  cases hp : item.pending_change with
  | none => simp [List.getElem?_set_self, hlt]
  | some c => cases c <;> simp [List.getElem?_set_self, hlt]

theorem toggle_selection_frame {β : Type} (f : TreeItem → β)
    (hfp : ∀ it p, f { it with pending_change := p } = f it)
    (hfc : ∀ it n, f { it with cached_pending_changes := n } = f it)
    (app : App) (i : Nat) :
    (((toggle_selection app).items)[i]?).map f = ((app.items)[i]?).map f := by
  rw [toggle_selection]
  cases hsel : app.filtered_item_indices[app.selected_item_index]? with
  | none => rfl
  | some gidx =>
    cases hit : app.items[gidx]? with
    | none => simp [hit]
    | some item =>
      have hlt : gidx < app.items.length := by
        by_contra hge
        rw [List.getElem?_eq_none (by omega)] at hit
        exact Option.noConfusion hit
      by_cases hlk : item.is_locked = true
      · simp [hit, hlk]
      · simp only [hit]
        rw [if_neg hlk]
        rw [update_pending_changes_cache_frame f hfc]
        by_cases hij : gidx = i
        · subst hij
          simp [List.getElem?_set_self, hlt, hit, hfp]
        · simp [List.getElem?_set_ne hij]

theorem toggle_selection_fields (app : App) :
    (toggle_selection app).filtered_item_indices = app.filtered_item_indices ∧
      (toggle_selection app).selected_item_index = app.selected_item_index := by
  rw [toggle_selection]
  cases app.filtered_item_indices[app.selected_item_index]? with
  | none => exact ⟨rfl, rfl⟩
  | some gidx =>
    cases hit : app.items[gidx]? with
    | none => simp [hit]
    | some item =>
      by_cases hlk : item.is_locked = true
      · simp [hit, hlk]
      · simp [hit, hlk]

/-- Claim C10: for a visible, unlocked node — one at the cursor position
of the visible list — a toggle resets a set pending marker to none; an
unset marker becomes add exactly when the node is not checked out and
remove exactly when it is; and two toggles starting from an unset marker
return the marker to none. -/
theorem toggle_selection_spec (app : App) (gidx : Nat) (item : TreeItem)
    (hsel : app.filtered_item_indices[app.selected_item_index]? = some gidx)
    (hit : app.items[gidx]? = some item) (hlock : item.is_locked = false) :
    (∀ c, item.pending_change = some c →
      (((toggle_selection app).items)[gidx]?).map TreeItem.pending_change = some none) ∧
    (item.pending_change = none →
      (((toggle_selection app).items)[gidx]?).map TreeItem.pending_change
        = some (if item.is_checked_out then some ChangeType.Remove else some ChangeType.Add)) ∧
    (item.pending_change = none →
      (((toggle_selection (toggle_selection app)).items)[gidx]?).map TreeItem.pending_change
        = some none) := by
  refine ⟨?_, ?_, ?_⟩
  · intro c hc
    rw [toggle_selection_pending app gidx item hsel hit hlock, hc]
  · intro hc
    rw [toggle_selection_pending app gidx item hsel hit hlock, hc]
  · intro hc
    have h1 := toggle_selection_pending app gidx item hsel hit hlock
    rw [hc] at h1
    have hfields := toggle_selection_fields app
    obtain ⟨w, hw, hwp⟩ : ∃ w, (toggle_selection app).items[gidx]? = some w ∧
        w.pending_change
          = (if item.is_checked_out then some ChangeType.Remove else some ChangeType.Add) := by
      cases hx : (toggle_selection app).items[gidx]? with
      | none => rw [hx] at h1; exact Option.noConfusion h1
      | some w =>
        rw [hx] at h1
        exact ⟨w, rfl, by simpa using h1⟩
    have hwlock : w.is_locked = false := by
      have hfr := toggle_selection_frame TreeItem.is_locked (fun _ _ => rfl) (fun _ _ => rfl)
        app gidx
      rw [hw, hit] at hfr
      have : w.is_locked = item.is_locked := by simpa using hfr
      rw [this, hlock]
    have hsel2 : (toggle_selection app).filtered_item_indices[(toggle_selection
        app).selected_item_index]? = some gidx := by
      rw [hfields.1, hfields.2]
      exact hsel
    have h2 := toggle_selection_pending (toggle_selection app) gidx w hsel2 hw hwlock
    rw [h2]
    cases hci : item.is_checked_out <;> simp [hci] at hwp <;> simp [hwp]

/-- Concrete application for the C10 witness: the unlocked, unchecked
node `docs` sits at cursor position 1 with no pending marker. -/
def appC10 : App :=
  { build_visible_items (load_initial_tree baseApp "repo" [] [["docs"]]) with
    selected_item_index := 1 }

/-- Witness for claim C10 on `appC10`: toggling the unmarked, unchecked
`docs` node yields an add marker, and toggling twice returns it to none. -/
theorem toggle_selection_spec_witness :
    (((toggle_selection appC10).items)[1]?).map TreeItem.pending_change
        = some (some ChangeType.Add) ∧
      (((toggle_selection (toggle_selection appC10)).items)[1]?).map TreeItem.pending_change
        = some none := by
  have h := toggle_selection_spec appC10 1 ((appC10.items[1]?).get (by decide))
    (by decide) (Option.some_get (by decide)).symm (by decide)
  refine ⟨?_, ?_⟩
  · have h2 := h.2.1 (by decide)
    rw [h2]
    have : ((appC10.items[1]?).get (by decide)).is_checked_out = false := by decide
    rw [this]
    simp
  · exact h.2.2 (by decide)

end Pickit

namespace Pickit

/-! ## Order lemmas for the path comparator -/

theorem char_eq_of_toNat_eq (a b : Char) (h : a.toNat = b.toNat) : a = b := by
  apply Char.eq_of_val_eq
  exact UInt32.toNat.inj h

theorem string_eq_of_data_eq (a b : String) (h : a.data = b.data) : a = b := by
  cases a
  cases b
  exact congrArg String.mk h

theorem strLtb_irrefl (a : List Char) : strLtb a a = false := by
  induction a with
  | nil => rfl
  | cons c t ih => simp [strLtb, ih]

theorem strLtb_asymm (a b : List Char) (h : strLtb a b = true) : strLtb b a = false := by
  induction a generalizing b with
  | nil =>
    cases b with
    | nil => simpa [strLtb] using h
    | cons y ys => simp [strLtb]
  | cons x xs ih =>
    cases b with
    | nil => simp [strLtb] at h
    | cons y ys =>
      rw [strLtb] at h ⊢
      by_cases h1 : x.toNat < y.toNat
      · rw [if_neg (by omega), if_pos h1]
      · rw [if_neg h1] at h
        by_cases h2 : y.toNat < x.toNat
        · rw [if_pos h2] at h
          exact Bool.noConfusion h
        · rw [if_neg h2] at h
          rw [if_neg h2, if_neg h1]
          exact ih ys h

theorem strLtb_eq_of_not (a b : List Char) (h1 : strLtb a b = false)
    (h2 : strLtb b a = false) : a = b := by
  induction a generalizing b with
  | nil =>
    cases b with
    | nil => rfl
    | cons y ys => simp [strLtb] at h1
  | cons x xs ih =>
    cases b with
    | nil => simp [strLtb] at h2
    | cons y ys =>
      rw [strLtb] at h1 h2
      by_cases hx : x.toNat < y.toNat
      · rw [if_pos hx] at h1
        simp at h1
      · rw [if_neg hx] at h1
        by_cases hy : y.toNat < x.toNat
        · rw [if_pos hy] at h2
          simp at h2
        · rw [if_neg hy] at h1
          rw [if_neg (by omega), if_neg (by omega)] at h2
          have hchar : x = y := char_eq_of_toNat_eq x y (by omega)
          rw [hchar, ih ys h1 h2]

theorem strLtb_trans (a b c : List Char) (h1 : strLtb a b = true)
    (h2 : strLtb b c = true) : strLtb a c = true := by
  induction a generalizing b c with
  | nil =>
    cases c with
    | nil =>
      cases b with
      | nil => simpa using h1
      | cons y ys => simp [strLtb] at h2
    | cons z zs => simp [strLtb]
  | cons x xs ih =>
    cases b with
    | nil => simp [strLtb] at h1
    | cons y ys =>
      cases c with
      | nil => simp [strLtb] at h2
      | cons z zs =>
        rw [strLtb] at h1 h2 ⊢
        by_cases hxy : x.toNat < y.toNat
        · by_cases hyz : y.toNat < z.toNat
          · rw [if_pos (by omega)]
          · rw [if_neg hyz] at h2
            by_cases hzy : z.toNat < y.toNat
            · rw [if_pos hzy] at h2
              exact Bool.noConfusion h2
            · rw [if_pos (by omega)]
        · rw [if_neg hxy] at h1
          by_cases hyx : y.toNat < x.toNat
          · rw [if_pos hyx] at h1
            exact Bool.noConfusion h1
          · rw [if_neg hyx] at h1
            by_cases hyz : y.toNat < z.toNat
            · rw [if_pos (by omega)]
            · rw [if_neg hyz] at h2
              by_cases hzy : z.toNat < y.toNat
              · rw [if_pos hzy] at h2
                exact Bool.noConfusion h2
              · rw [if_neg hzy] at h2
                rw [if_neg (by omega), if_neg (by omega)]
                exact ih ys zs h1 h2

theorem pathLeb_total (p q : DirPath) : pathLeb p q = true ∨ pathLeb q p = true := by
  induction p generalizing q with
  | nil => left; rfl
  | cons x xs ih =>
    cases q with
    | nil => right; rfl
    | cons y ys =>
      rw [pathLeb, pathLeb]
      by_cases hxy : strLtb x.data y.data = true
      · left
        rw [if_pos hxy]
      · by_cases hyx : strLtb y.data x.data = true
        · right
          rw [if_pos hyx]
        · rw [if_neg hxy, if_neg hyx, if_neg hyx, if_neg hxy]
          exact ih ys

theorem pathLeb_trans (p q r : DirPath) (h1 : pathLeb p q = true)
    (h2 : pathLeb q r = true) : pathLeb p r = true := by
  induction p generalizing q r with
  | nil => rfl
  | cons x xs ih =>
    cases q with
    | nil => simp [pathLeb] at h1
    | cons y ys =>
      cases r with
      | nil => simp [pathLeb] at h2
      | cons z zs =>
        rw [pathLeb] at h1 h2 ⊢
        by_cases hxy : strLtb x.data y.data = true
        · by_cases hyz : strLtb y.data z.data = true
          · rw [if_pos (strLtb_trans _ _ _ hxy hyz)]
          · rw [if_neg hyz] at h2
            by_cases hzy : strLtb z.data y.data = true
            · rw [if_pos hzy] at h2
              exact Bool.noConfusion h2
            · have hze : y = z := string_eq_of_data_eq y z
                (strLtb_eq_of_not y.data z.data (by simpa using hyz) (by simpa using hzy))
              rw [← hze, if_pos hxy]
        · rw [if_neg hxy] at h1
          by_cases hyx : strLtb y.data x.data = true
          · rw [if_pos hyx] at h1
            exact Bool.noConfusion h1
          · rw [if_neg hyx] at h1
            have hxe : x = y := string_eq_of_data_eq x y
              (strLtb_eq_of_not x.data y.data (by simpa using hxy) (by simpa using hyx))
            subst hxe
            by_cases hyz : strLtb x.data z.data = true
            · rw [if_pos hyz]
            · rw [if_neg hyz] at h2 ⊢
              by_cases hzy : strLtb z.data x.data = true
              · rw [if_pos hzy] at h2
                exact Bool.noConfusion h2
              · rw [if_neg hzy] at h2 ⊢
                exact ih ys zs h1 h2

instance : IsTotal DirPath pathLe where
  total p q := pathLeb_total p q

instance : IsTrans DirPath pathLe where
  trans p q r := pathLeb_trans p q r

theorem sorted_insertionSort_pathLe (l : List DirPath) :
    List.Sorted pathLe (List.insertionSort pathLe l) :=
  List.sorted_insertionSort pathLe l

end Pickit

namespace Pickit

/-! ## Children-merge bookkeeping (claims C5 and C6) -/

/-- Keys currently present in the path index. -/
def keysOf (app : App) : List DirPath := app.path_to_index.map Prod.fst

/-- Child index list of the node at `p`. -/
def childIndicesAt (app : App) (p : Nat) : List Nat :=
  ((app.items[p]?).map TreeItem.children_indices).getD []

/-- Paths of the children of the node at `p`, in child-list order. -/
def childPathsAt (app : App) (p : Nat) : List DirPath :=
  (childIndicesAt app p).map (fun c => ((app.items[c]?).map TreeItem.path).getD [])

/-- Names of the children of the node at `p`, in child-list order. -/
def childNamesAt (app : App) (p : Nat) : List String :=
  (childIndicesAt app p).map (fun c => ((app.items[c]?).map TreeItem.name).getD "")

/-- Keys present after sequentially registering the given paths,
skipping those already present. -/
def addKeys : List DirPath → List DirPath → List DirPath
  | [], k => k
  | d :: ds, k => if d ∈ k then addKeys ds k else addKeys ds (d :: k)

/-- Paths that sequential registration actually adds: the first
occurrence of every path not already present. -/
def newOnes : List DirPath → List DirPath → List DirPath
  | [], _ => []
  | d :: ds, k => if d ∈ k then newOnes ds k else d :: newOnes ds (d :: k)

theorem mapContainsKey_iff (m : List (DirPath × Nat)) (q : DirPath) :
    mapContainsKey m q = true ↔ q ∈ m.map Prod.fst := by
  simp [mapContainsKey, List.any_eq_true, List.mem_map]

theorem mergeChildrenLoop_spec (p : Nat) :
    ∀ (dirs : List DirPath) (app : App),
    p < app.items.length →
    (∀ c ∈ childIndicesAt app p, c < app.items.length) →
    app.items.length ≤ (mergeChildrenLoop app p dirs).items.length ∧
    p < (mergeChildrenLoop app p dirs).items.length ∧
    (∀ c ∈ childIndicesAt (mergeChildrenLoop app p dirs) p,
      c < (mergeChildrenLoop app p dirs).items.length) ∧
    keysOf (mergeChildrenLoop app p dirs) = addKeys dirs (keysOf app) ∧
    childPathsAt (mergeChildrenLoop app p dirs) p
      = childPathsAt app p ++ newOnes dirs (keysOf app) ∧
    childNamesAt (mergeChildrenLoop app p dirs) p
      = childNamesAt app p ++ (newOnes dirs (keysOf app)).map (fun q => (q.getLast?).getD "")
  | [], app, hp, hb => by
    rw [mergeChildrenLoop]
    refine ⟨le_rfl, hp, hb, rfl, by simp [newOnes], by simp [newOnes]⟩
  | d :: ds, app, hp, hb => by
    by_cases hc : mapContainsKey app.path_to_index d = true
    · have hstep : mergeChildrenLoop app p (d :: ds) = mergeChildrenLoop app p ds := by
        rw [mergeChildrenLoop, if_pos hc]
      rw [hstep]
      have hdk : d ∈ keysOf app := (mapContainsKey_iff _ _).mp hc
      have ih := mergeChildrenLoop_spec p ds app hp hb
      rw [show addKeys (d :: ds) (keysOf app) = addKeys ds (keysOf app) by
            rw [addKeys, if_pos hdk],
          show newOnes (d :: ds) (keysOf app) = newOnes ds (keysOf app) by
            rw [newOnes, if_pos hdk]]
      exact ih
    · have hdk : ¬d ∈ keysOf app := fun hmem => hc ((mapContainsKey_iff _ _).mpr hmem)
      have hitp : app.items[p]? = some app.items[p] := List.getElem?_eq_getElem hp
      -- the state after inserting the fresh node for d
      set newItem : TreeItem :=
        { TreeItem.new d ((d.getLast?).getD "") (app.sparse_checkout_dirs.contains d) with
          contains_uncommitted_changes :=
            app.uncommitted_paths.any (fun q => d.isPrefixOf q)
          is_locked := app.uncommitted_paths.any (fun q => d.isPrefixOf q)
          parent_index := some p
          indentation_level :=
            ((app.items[p]?).map TreeItem.indentation_level).getD 0 + 1
          cached_pending_changes := 0 } with hnew
      set app2 : App :=
        { app with
          items := setItem app.items p (fun q =>
            { q with children_indices := q.children_indices ++ [app.items.length] })
            ++ [newItem]
          path_to_index := mapInsert app.path_to_index d app.items.length } with ha2
      have hstep : mergeChildrenLoop app p (d :: ds) = mergeChildrenLoop app2 p ds := by
        rw [mergeChildrenLoop, if_neg hc]
      rw [hstep]
      have hlen2 : app2.items.length = app.items.length + 1 := by
        rw [ha2]
        simp [setItem_length]
      have hsetlen : (setItem app.items p (fun q =>
          { q with children_indices := q.children_indices ++ [app.items.length] })).length
          = app.items.length := setItem_length _ _ _
      have hci2 : childIndicesAt app2 p = childIndicesAt app p ++ [app.items.length] := by
        rw [childIndicesAt, ha2]
        rw [List.getElem?_append_left (by rw [hsetlen]; exact hp)]
        rw [setItem_getElem?, if_pos rfl, hitp]
        rw [childIndicesAt, hitp]
        rfl
      have hlook2 : ∀ c : Nat, c < app.items.length →
          app2.items[c]? = if p = c
            then some { app.items[p] with children_indices :=
              (app.items[p]).children_indices ++ [app.items.length] }
            else app.items[c]? := by
        intro c hclt
        rw [ha2]
        rw [List.getElem?_append_left (by rw [hsetlen]; exact hclt)]
        rw [setItem_getElem?, hitp]
        by_cases hpc : p = c
        · rw [if_pos hpc, if_pos hpc]
          rfl
        · rw [if_neg hpc, if_neg hpc]
      have hlooknew : app2.items[app.items.length]? = some newItem := by
        rw [ha2]
        rw [List.getElem?_append_right (by rw [hsetlen])]
        rw [hsetlen]
        simp
      have hpaths2 : childPathsAt app2 p = childPathsAt app p ++ [d] := by
        rw [childPathsAt, hci2, List.map_append, childPathsAt]
        congr 1
        · apply List.map_congr_left
          intro c hcmem
          have hclt : c < app.items.length := hb c hcmem
          rw [hlook2 c hclt]
          by_cases hpc : p = c
          · rw [if_pos hpc]
            rw [← hpc, hitp]
            rfl
          · rw [if_neg hpc]
        · rw [List.map_cons, List.map_nil, hlooknew]
          rfl
      have hnames2 : childNamesAt app2 p
          = childNamesAt app p ++ [(d.getLast?).getD ""] := by
        rw [childNamesAt, hci2, List.map_append, childNamesAt]
        congr 1
        · apply List.map_congr_left
          intro c hcmem
          have hclt : c < app.items.length := hb c hcmem
          rw [hlook2 c hclt]
          by_cases hpc : p = c
          · rw [if_pos hpc]
            rw [← hpc, hitp]
            rfl
          · rw [if_neg hpc]
        · rw [List.map_cons, List.map_nil, hlooknew]
          rfl
      have hkeys2 : keysOf app2 = d :: keysOf app := by
        rw [keysOf, ha2]
        rfl
      have hp2 : p < app2.items.length := by omega
      have hb2 : ∀ c ∈ childIndicesAt app2 p, c < app2.items.length := by
        intro c hcmem
        rw [hci2] at hcmem
        rw [List.mem_append] at hcmem
        rcases hcmem with hcm | hcm
        · have := hb c hcm
          omega
        · simp at hcm
          omega
      have ih := mergeChildrenLoop_spec p ds app2 hp2 hb2
      obtain ⟨ih1, ih2, ih3, ih4, ih5, ih6⟩ := ih
      refine ⟨by omega, ih2, ih3, ?_, ?_, ?_⟩
      · rw [ih4, hkeys2, addKeys, if_neg hdk]
      · rw [ih5, hpaths2, hkeys2, newOnes, if_neg hdk]
        simp
      · rw [ih6, hnames2, hkeys2, newOnes, if_neg hdk]
        simp

end Pickit

namespace Pickit

theorem addKeys_mem (q : DirPath) : ∀ (ds k : List DirPath),
    q ∈ addKeys ds k ↔ q ∈ ds ∨ q ∈ k
  | [], k => by simp [addKeys]
  | d :: ds, k => by
    rw [addKeys]
    by_cases hk : d ∈ k
    · rw [if_pos hk, addKeys_mem q ds k]
      by_cases hq : q = d
      · subst hq
        simp [hk]
      · simp [hq]
    · rw [if_neg hk, addKeys_mem q ds (d :: k)]
      by_cases hq : q = d
      · subst hq
        simp
      · simp [hq]

theorem newOnes_mem (q : DirPath) : ∀ (ds k : List DirPath),
    q ∈ newOnes ds k ↔ q ∈ ds ∧ ¬q ∈ k
  | [], k => by simp [newOnes]
  | d :: ds, k => by
    rw [newOnes]
    by_cases hk : d ∈ k
    · rw [if_pos hk, newOnes_mem q ds k]
      by_cases hq : q = d
      · subst hq
        simp [hk]
      · simp [hq]
    · rw [if_neg hk]
      by_cases hq : q = d
      · subst hq
        simp [hk]
      · simp only [List.mem_cons, hq, false_or, newOnes_mem q ds (d :: k)]
        

theorem newOnes_nodup : ∀ (ds k : List DirPath), (newOnes ds k).Nodup
  | [], _ => List.nodup_nil
  | d :: ds, k => by
    rw [newOnes]
    by_cases hk : d ∈ k
    · rw [if_pos hk]
      exact newOnes_nodup ds k
    · rw [if_neg hk]
      refine List.Nodup.cons ?_ (newOnes_nodup ds (d :: k))
      intro hmem
      have := (newOnes_mem d ds (d :: k)).mp hmem
      exact this.2 (by simp)

theorem newOnes_sublist : ∀ (ds k : List DirPath), (newOnes ds k).Sublist ds
  | [], _ => List.Sublist.refl []
  | d :: ds, k => by
    rw [newOnes]
    by_cases hk : d ∈ k
    · rw [if_pos hk]
      exact List.Sublist.cons d (newOnes_sublist ds k)
    · rw [if_neg hk]
      exact List.Sublist.cons₂ d (newOnes_sublist ds (d :: k))

theorem newOnes_append (ys : List DirPath) : ∀ (xs k : List DirPath),
    newOnes (xs ++ ys) k = newOnes xs k ++ newOnes ys (addKeys xs k)
  | [], k => by simp [newOnes, addKeys]
  | x :: xs, k => by
    rw [List.cons_append, newOnes, newOnes, addKeys]
    by_cases hk : x ∈ k
    · rw [if_pos hk, if_pos hk, if_pos hk]
      exact newOnes_append ys xs k
    · rw [if_neg hk, if_neg hk, if_neg hk]
      rw [newOnes_append ys xs (x :: k)]
      rfl

theorem newOnes_length (ds : List DirPath) : ∀ (k : List DirPath),
    (newOnes ds k).length = (ds.toFinset \ k.toFinset).card := by
  induction ds with
  | nil => intro k; simp [newOnes]
  | cons d t ih =>
    intro k
    rw [newOnes, List.toFinset_cons]
    by_cases hk : d ∈ k
    · rw [if_pos hk, ih k, Finset.insert_sdiff_of_mem _ (List.mem_toFinset.mpr hk)]
    · rw [if_neg hk, List.length_cons, ih (d :: k)]
      rw [Finset.insert_sdiff_of_not_mem _ (fun hx => hk (List.mem_toFinset.mp hx))]
      rw [List.toFinset_cons, Finset.sdiff_insert]
      by_cases hd : d ∈ t.toFinset \ k.toFinset
      · rw [Finset.card_erase_add_one hd, Finset.insert_eq_self.mpr hd]
      · rw [Finset.erase_eq_of_not_mem hd, Finset.card_insert_of_not_mem hd]

theorem toFinset_eq_of_perm (l l2 : List DirPath) (h : l.Perm l2) :
    l.toFinset = l2.toFinset := by
  ext q
  simp [List.mem_toFinset, h.mem_iff]

theorem setItem_frame {β : Type} (f : TreeItem → β) (g : TreeItem → TreeItem)
    (hfg : ∀ it, f (g it) = f it) (items : List TreeItem) (i j : Nat) :
    ((setItem items i g)[j]?).map f = (items[j]?).map f := by
  rw [setItem_getElem?]
  by_cases hij : i = j
  · subst hij
    rw [if_pos rfl]
    cases items[i]? <;> simp [hfg]
  · rw [if_neg hij]

/-- Joint projection used to transport child bookkeeping across
operations that do not touch structure fields. -/
def childData (it : TreeItem) : List Nat × DirPath × String :=
  (it.children_indices, it.path, it.name)

theorem childData_invariant (a b : App) (p : Nat)
    (h : ∀ i : Nat, ((b.items)[i]?).map childData = ((a.items)[i]?).map childData) :
    childIndicesAt b p = childIndicesAt a p ∧ childPathsAt b p = childPathsAt a p ∧
      childNamesAt b p = childNamesAt a p := by
  have hcomp : ∀ i : Nat,
      ((b.items)[i]?).map TreeItem.children_indices
        = ((a.items)[i]?).map TreeItem.children_indices ∧
      ((b.items)[i]?).map TreeItem.path = ((a.items)[i]?).map TreeItem.path ∧
      ((b.items)[i]?).map TreeItem.name = ((a.items)[i]?).map TreeItem.name := by
    intro i
    have hi := h i
    cases hb2 : (b.items)[i]? with
    | none =>
      rw [hb2] at hi
      cases ha2 : (a.items)[i]? with
      | none => simp
      | some x =>
        rw [ha2] at hi
        exact Option.noConfusion hi
    | some x =>
      rw [hb2] at hi
      cases ha2 : (a.items)[i]? with
      | none =>
        rw [ha2] at hi
        exact Option.noConfusion hi
      | some y =>
        rw [ha2] at hi
        have hxy : childData x = childData y := by simpa using hi
        rw [childData, childData, Prod.mk.injEq, Prod.mk.injEq] at hxy
        obtain ⟨h1, h2, h3⟩ := hxy
        exact ⟨by simp [h1], by simp [h2], by simp [h3]⟩
  have hci : childIndicesAt b p = childIndicesAt a p := by
    rw [childIndicesAt, childIndicesAt, (hcomp p).1]
  refine ⟨hci, ?_, ?_⟩
  · rw [childPathsAt, childPathsAt, hci]
    apply List.map_congr_left
    intro c _
    rw [(hcomp c).2.1]
  · rw [childNamesAt, childNamesAt, hci]
    apply List.map_congr_left
    intro c _
    rw [(hcomp c).2.2]

end Pickit

namespace Pickit

/-- First half of the success arm of `handle_children_loaded`: clear the
parent's loading flag, mark its children loaded, and merge the sorted
discovered paths. -/
def mergePhase (app : App) (p : Nat) (dirs : List DirPath) : App :=
  let app1 : App := { app with items := setItem app.items p (fun it =>
    { it with is_loading := false, children_loaded := true }) }
  if dirs.isEmpty then app1 else mergeChildrenLoop app1 p (List.insertionSort pathLe dirs)

theorem handle_children_loaded_ok_eq (app : App) (p : Nat) (dirs : List DirPath) :
    handle_children_loaded app (Except.ok (p, dirs)) =
      (let app2 := mergePhase app p dirs
       let app3 : App := { app2 with items := setItem app2.items p (fun it =>
         if it.children_indices.isEmpty then it else { it with is_expanded := true }) }
       let app4 : App := { app3 with
         items := update_tree_item_states app3.sparse_checkout_dirs app3.items }
       let app5 := build_visible_items app4
       { app5 with items := update_pending_changes_cache app5.items.length app5.items p }) :=
  rfl

theorem mergePhase_spec (app : App) (p : Nat) (dirs : List DirPath)
    (hp : p < app.items.length)
    (hb : ∀ c ∈ childIndicesAt app p, c < app.items.length) :
    app.items.length ≤ (mergePhase app p dirs).items.length ∧
    p < (mergePhase app p dirs).items.length ∧
    (∀ c ∈ childIndicesAt (mergePhase app p dirs) p, c < (mergePhase app p dirs).items.length) ∧
    keysOf (mergePhase app p dirs)
      = addKeys (List.insertionSort pathLe dirs) (keysOf app) ∧
    childPathsAt (mergePhase app p dirs) p
      = childPathsAt app p ++ newOnes (List.insertionSort pathLe dirs) (keysOf app) ∧
    childNamesAt (mergePhase app p dirs) p
      = childNamesAt app p ++ (newOnes (List.insertionSort pathLe dirs) (keysOf app)).map
          (fun q => (q.getLast?).getD "") := by
  rw [mergePhase]
  set app1 : App := { app with items := setItem app.items p (fun it =>
    { it with is_loading := false, children_loaded := true }) } with ha1
  have hlen1 : app1.items.length = app.items.length := by
    rw [ha1]
    exact setItem_length _ _ _
  have htriple1 : ∀ i : Nat, ((app1.items)[i]?).map childData = ((app.items)[i]?).map childData := by
    intro i
    rw [ha1]
    exact setItem_frame childData
      (fun it => { it with is_loading := false, children_loaded := true })
      (fun it => rfl) app.items p i
  obtain ⟨hci1, hcp1, hcn1⟩ := childData_invariant app app1 p htriple1
  have hkeys1 : keysOf app1 = keysOf app := rfl
  have hp1 : p < app1.items.length := by omega
  have hb1 : ∀ c ∈ childIndicesAt app1 p, c < app1.items.length := by
    intro c hcm
    rw [hci1] at hcm
    have := hb c hcm
    omega
  by_cases hde : dirs.isEmpty = true
  · have hdirs : dirs = [] := List.isEmpty_iff.mp hde
    subst hdirs
    rw [if_pos (show ([] : List DirPath).isEmpty = true from rfl)]
    rw [show List.insertionSort pathLe [] = [] from rfl]
    rw [show newOnes [] (keysOf app) = [] from rfl,
      show addKeys [] (keysOf app) = keysOf app from rfl]
    refine ⟨by omega, hp1, hb1, hkeys1, by rw [hcp1]; simp, by rw [hcn1]; simp⟩
  · rw [if_neg hde]
    obtain ⟨m1, m2, m3, m4, m5, m6⟩ :=
      mergeChildrenLoop_spec p (List.insertionSort pathLe dirs) app1 hp1 hb1
    refine ⟨by omega, m2, m3, ?_, ?_, ?_⟩
    · rw [m4, hkeys1]
    · rw [m5, hcp1, hkeys1]
    · rw [m6, hcn1, hkeys1]

theorem handle_ok_items_eq (app : App) (p : Nat) (dirs : List DirPath) :
    (handle_children_loaded app (Except.ok (p, dirs))).items
      = update_pending_changes_cache
          (update_tree_item_states (mergePhase app p dirs).sparse_checkout_dirs
            (setItem (mergePhase app p dirs).items p (fun it =>
              if it.children_indices.isEmpty then it
              else { it with is_expanded := true }))).length
          (update_tree_item_states (mergePhase app p dirs).sparse_checkout_dirs
            (setItem (mergePhase app p dirs).items p (fun it =>
              if it.children_indices.isEmpty then it
              else { it with is_expanded := true }))) p :=
  rfl

theorem handle_ok_path_to_index_eq (app : App) (p : Nat) (dirs : List DirPath) :
    (handle_children_loaded app (Except.ok (p, dirs))).path_to_index
      = (mergePhase app p dirs).path_to_index :=
  rfl

theorem handle_children_loaded_ok_spec (app : App) (p : Nat) (dirs : List DirPath)
    (hp : p < app.items.length)
    (hb : ∀ c ∈ childIndicesAt app p, c < app.items.length) :
    app.items.length ≤ (handle_children_loaded app (Except.ok (p, dirs))).items.length ∧
    p < (handle_children_loaded app (Except.ok (p, dirs))).items.length ∧
    (∀ c ∈ childIndicesAt (handle_children_loaded app (Except.ok (p, dirs))) p,
      c < (handle_children_loaded app (Except.ok (p, dirs))).items.length) ∧
    keysOf (handle_children_loaded app (Except.ok (p, dirs)))
      = addKeys (List.insertionSort pathLe dirs) (keysOf app) ∧
    childPathsAt (handle_children_loaded app (Except.ok (p, dirs))) p
      = childPathsAt app p ++ newOnes (List.insertionSort pathLe dirs) (keysOf app) ∧
    childNamesAt (handle_children_loaded app (Except.ok (p, dirs))) p
      = childNamesAt app p ++ (newOnes (List.insertionSort pathLe dirs) (keysOf app)).map
          (fun q => (q.getLast?).getD "") := by
  obtain ⟨g1, g2, g3, g4, g5, g6⟩ := mergePhase_spec app p dirs hp hb
  have hlenfin : (handle_children_loaded app (Except.ok (p, dirs))).items.length
      = (mergePhase app p dirs).items.length := by
    rw [handle_ok_items_eq, update_pending_changes_cache_length,
      update_tree_item_states_length, setItem_length]
  have htriple : ∀ i : Nat,
      (((handle_children_loaded app (Except.ok (p, dirs))).items)[i]?).map childData
        = (((mergePhase app p dirs).items)[i]?).map childData := by
    intro i
    rw [handle_ok_items_eq]
    rw [update_pending_changes_cache_frame childData (fun _ _ => rfl)]
    rw [update_tree_item_states_frame childData (fun _ _ => rfl) (fun _ _ => rfl)]
    apply setItem_frame childData _ (fun it => ?_) (mergePhase app p dirs).items p i
    by_cases hci : it.children_indices.isEmpty = true
    · rw [if_pos hci]
    · rw [if_neg hci]
      rfl
  obtain ⟨hcif, hcpf, hcnf⟩ :=
    childData_invariant (mergePhase app p dirs) (handle_children_loaded app (Except.ok (p, dirs)))
      p htriple
  refine ⟨by omega, by omega, ?_, ?_, ?_, ?_⟩
  · intro c hcm
    rw [hcif] at hcm
    have := g3 c hcm
    omega
  · rw [keysOf, handle_ok_path_to_index_eq]
    exact g4
  · rw [hcpf]
    exact g5
  · rw [hcnf]
    exact g6

end Pickit

namespace Pickit

/-! ## Claims C5 and C6 -/

/-- Claim C5: merging discovered-path sequences A and then B for the same
parent — two runs of the `handle_children_loaded` success arm — leaves
the parent with exactly one child per distinct path of the union: the
child count is the size of the set union, the child paths are free of
duplicates, and a path appears as a child exactly when it occurs in A or
B. The hypotheses say the parent exists with no children yet and that
the discovered paths are new to the index. -/
theorem merge_children_idempotent_union (app : App) (p : Nat) (A B : List DirPath)
    (hp : p < app.items.length)
    (hch : childIndicesAt app p = [])
    (hAB : ∀ q ∈ A ++ B, ¬q ∈ keysOf app) :
    (childIndicesAt (handle_children_loaded (handle_children_loaded app
        (Except.ok (p, A))) (Except.ok (p, B))) p).length = ((A ++ B).dedup).length ∧
    (childPathsAt (handle_children_loaded (handle_children_loaded app
        (Except.ok (p, A))) (Except.ok (p, B))) p).Nodup ∧
    (∀ q, q ∈ childPathsAt (handle_children_loaded (handle_children_loaded app
        (Except.ok (p, A))) (Except.ok (p, B))) p ↔ q ∈ A ++ B) := by
  have hb0 : ∀ c ∈ childIndicesAt app p, c < app.items.length := by
    rw [hch]
    simp
  have hcp0 : childPathsAt app p = [] := by
    rw [childPathsAt, hch]
    rfl
  obtain ⟨s11, s12, s13, s14, s15, s16⟩ := handle_children_loaded_ok_spec app p A hp hb0
  obtain ⟨s21, s22, s23, s24, s25, s26⟩ :=
    handle_children_loaded_ok_spec (handle_children_loaded app (Except.ok (p, A))) p B s12 s13
  set sA := List.insertionSort pathLe A with hsA
  set sB := List.insertionSort pathLe B with hsB
  have hmemA : ∀ q, q ∈ sA ↔ q ∈ A := fun q => (List.perm_insertionSort pathLe A).mem_iff
  have hmemB : ∀ q, q ∈ sB ↔ q ∈ B := fun q => (List.perm_insertionSort pathLe B).mem_iff
  have hpaths : childPathsAt (handle_children_loaded (handle_children_loaded app
      (Except.ok (p, A))) (Except.ok (p, B))) p = newOnes (sA ++ sB) (keysOf app) := by
    rw [s25, s15, s14, hcp0, List.nil_append, newOnes_append]
  have hdisj : ∀ q ∈ sA ++ sB, ¬q ∈ keysOf app := by
    intro q hq
    rw [List.mem_append] at hq
    apply hAB
    rw [List.mem_append]
    rcases hq with hq | hq
    · exact Or.inl ((hmemA q).mp hq)
    · exact Or.inr ((hmemB q).mp hq)
  have hperm : (sA ++ sB).Perm (A ++ B) :=
    (List.perm_insertionSort pathLe A).append (List.perm_insertionSort pathLe B)
  refine ⟨?_, ?_, ?_⟩
  · have hlen : (childIndicesAt (handle_children_loaded (handle_children_loaded app
        (Except.ok (p, A))) (Except.ok (p, B))) p).length
        = (childPathsAt (handle_children_loaded (handle_children_loaded app
            (Except.ok (p, A))) (Except.ok (p, B))) p).length := by
      rw [childPathsAt, List.length_map]
    rw [hlen, hpaths, newOnes_length]
    have hsd : (sA ++ sB).toFinset \ (keysOf app).toFinset = (sA ++ sB).toFinset := by
      rw [Finset.sdiff_eq_self_iff_disjoint]
      rw [Finset.disjoint_left]
      intro q hq hqk
      exact hdisj q (List.mem_toFinset.mp hq) (List.mem_toFinset.mp hqk)
    rw [hsd, toFinset_eq_of_perm _ _ hperm, List.card_toFinset]
  · rw [hpaths]
    exact newOnes_nodup _ _
  · intro q
    rw [hpaths, newOnes_mem]
    constructor
    · rintro ⟨hq, -⟩
      exact hperm.mem_iff.mp hq
    · intro hq
      exact ⟨hperm.mem_iff.mpr hq, hAB q hq⟩

/-- Concrete application for the C5 witness: the childless node `docs`
sits at index 1. -/
def appC5 : App :=
  load_initial_tree baseApp "repo" [] [["docs"]]

/-- Witness for claim C5 on `appC5`: merging the overlapping sequences
docs/x, docs/y and then docs/y, docs/z under `docs` yields three
children — the size of the union, not the sum. -/
theorem merge_children_idempotent_union_witness :
    (childIndicesAt (handle_children_loaded (handle_children_loaded appC5
        (Except.ok (1, [["docs", "x"], ["docs", "y"]])))
        (Except.ok (1, [["docs", "y"], ["docs", "z"]]))) 1).length
      = (([["docs", "x"], ["docs", "y"]] ++ [["docs", "y"], ["docs", "z"]]).dedup).length ∧
    (childPathsAt (handle_children_loaded (handle_children_loaded appC5
        (Except.ok (1, [["docs", "x"], ["docs", "y"]])))
        (Except.ok (1, [["docs", "y"], ["docs", "z"]]))) 1).Nodup ∧
    (∀ q, q ∈ childPathsAt (handle_children_loaded (handle_children_loaded appC5
        (Except.ok (1, [["docs", "x"], ["docs", "y"]])))
        (Except.ok (1, [["docs", "y"], ["docs", "z"]]))) 1
      ↔ q ∈ [["docs", "x"], ["docs", "y"]] ++ [["docs", "y"], ["docs", "z"]]) :=
  merge_children_idempotent_union appC5 1 [["docs", "x"], ["docs", "y"]]
    [["docs", "y"], ["docs", "z"]] (by decide) (by decide) (by decide)

/-- Byte-order comparison of display names, the order claim C6 refers
to. -/
def nameLe (a b : String) : Prop := strLtb b.data a.data = false

instance : DecidableRel nameLe := fun a b => instDecidableEqBool (strLtb b.data a.data) false

/-- Concrete application for claim C6: top-level directories docs, src,
tests; `src` is at index 2. -/
def appC6 : App :=
  load_initial_tree baseApp "repo" [] [["docs"], ["src"], ["tests"]]

/-- Counterexample to claim C6 as stated: after populating `src` with
the single child zeta, a later merge that discovers alpha and zeta
appends the new node for alpha after the existing child, leaving the
child names zeta, alpha — not sorted by name. -/
theorem merge_append_not_resorted_cex :
    childNamesAt (handle_children_loaded (handle_children_loaded appC6
        (Except.ok (2, [["src", "zeta"]])))
        (Except.ok (2, [["src", "alpha"], ["src", "zeta"]]))) 2 = ["zeta", "alpha"] ∧
    ¬List.Sorted nameLe (childNamesAt (handle_children_loaded (handle_children_loaded appC6
        (Except.ok (2, [["src", "zeta"]])))
        (Except.ok (2, [["src", "alpha"], ["src", "zeta"]]))) 2) := by
  have hnames : childNamesAt (handle_children_loaded (handle_children_loaded appC6
      (Except.ok (2, [["src", "zeta"]])))
      (Except.ok (2, [["src", "alpha"], ["src", "zeta"]]))) 2 = ["zeta", "alpha"] := by
    decide
  refine ⟨hnames, ?_⟩
  rw [hnames]
  intro h
  have hle : nameLe "zeta" "alpha" := List.rel_of_sorted_cons h "alpha" (by simp)
  exact absurd hle (by decide)

theorem pathLe_ext_name (pp : DirPath) (a b : String)
    (h : pathLeb (pp ++ [a]) (pp ++ [b]) = true) : strLtb b.data a.data = false := by
  induction pp with
  | nil =>
    rw [List.nil_append, List.nil_append, pathLeb] at h
    by_cases h1 : strLtb a.data b.data = true
    · exact strLtb_asymm _ _ h1
    · rw [if_neg h1] at h
      by_cases h2 : strLtb b.data a.data = true
      · rw [if_pos h2] at h
        simp at h
      · simpa using h2
  | cons x rest ih =>
    rw [List.cons_append, List.cons_append, pathLeb] at h
    rw [if_neg (by rw [strLtb_irrefl]; simp), if_neg (by rw [strLtb_irrefl]; simp)] at h
    exact ih h

/-- Claim C6 as amended: the children created by merging discovered
paths into a parent that has no children yet are sorted — by path, and
by display name whenever every discovered path extends one common parent
path by a single component (the shape the fetch produces). A later merge
appends its new, internally sorted children after the existing ones
without re-sorting the combined list, which the recorded counterexample
shows. -/
theorem merge_into_childless_sorted (app : App) (p : Nat) (dirs : List DirPath) (pp : DirPath)
    (hp : p < app.items.length)
    (hch : childIndicesAt app p = [])
    (hext : ∀ q ∈ dirs, ∃ n : String, q = pp ++ [n]) :
    List.Sorted pathLe (childPathsAt (handle_children_loaded app (Except.ok (p, dirs))) p) ∧
    List.Sorted nameLe (childNamesAt (handle_children_loaded app (Except.ok (p, dirs))) p) := by
  have hb0 : ∀ c ∈ childIndicesAt app p, c < app.items.length := by
    rw [hch]
    simp
  have hcp0 : childPathsAt app p = [] := by
    rw [childPathsAt, hch]
    rfl
  have hcn0 : childNamesAt app p = [] := by
    rw [childNamesAt, hch]
    rfl
  obtain ⟨-, -, -, -, s5, s6⟩ := handle_children_loaded_ok_spec app p dirs hp hb0
  have hsub : (newOnes (List.insertionSort pathLe dirs) (keysOf app)).Sublist
      (List.insertionSort pathLe dirs) := newOnes_sublist _ _
  have hsorted : List.Sorted pathLe (newOnes (List.insertionSort pathLe dirs) (keysOf app)) :=
    List.Pairwise.sublist hsub (List.sorted_insertionSort pathLe dirs)
  have hmem : ∀ q ∈ newOnes (List.insertionSort pathLe dirs) (keysOf app), q ∈ dirs := by
    intro q hq
    exact (List.perm_insertionSort pathLe dirs).mem_iff.mp (hsub.mem hq)
  constructor
  · rw [s5, hcp0, List.nil_append]
    exact hsorted
  · rw [s6, hcn0, List.nil_append]
    rw [List.Sorted, List.pairwise_map]
    apply List.Pairwise.imp_of_mem ?_ hsorted
    intro q1 q2 hq1 hq2 hle
    obtain ⟨n1, hn1⟩ := hext q1 (hmem q1 hq1)
    obtain ⟨n2, hn2⟩ := hext q2 (hmem q2 hq2)
    subst hn1
    subst hn2
    rw [show ((pp ++ [n1]).getLast?).getD "" = n1 by rw [List.getLast?_concat]; rfl,
      show ((pp ++ [n2]).getLast?).getD "" = n2 by rw [List.getLast?_concat]; rfl]
    exact pathLe_ext_name pp n1 n2 hle

/-- Witness for the amended claim C6 on `appC6`: merging src/b, src/a
under the childless node `src` yields children sorted by path and by
name. -/
theorem merge_into_childless_sorted_witness :
    List.Sorted pathLe (childPathsAt (handle_children_loaded appC6
        (Except.ok (2, [["src", "b"], ["src", "a"]]))) 2) ∧
    List.Sorted nameLe (childNamesAt (handle_children_loaded appC6
        (Except.ok (2, [["src", "b"], ["src", "a"]]))) 2) :=
  merge_into_childless_sorted appC6 2 [["src", "b"], ["src", "a"]] ["src"]
    (by decide) (by decide)
    (by
      intro q hq
      simp at hq
      rcases hq with rfl | rfl
      · exact ⟨"b", rfl⟩
      · exact ⟨"a", rfl⟩)

end Pickit

namespace Pickit

/-! ## Subtree machinery for claims C1 and C7 -/

/-- Child index list of the arena slot `i`. -/
def childIndicesOf (w : List TreeItem) (i : Nat) : List Nat :=
  ((w[i]?).map TreeItem.children_indices).getD []

/-- Structural well-formedness the program maintains for the arena:
every child index is strictly greater than its parent's and in range,
and every parent pointer is strictly smaller than the node's index. -/
def structWF (w : List TreeItem) : Prop :=
  ∀ i : Nat, ∀ h : i < w.length,
    (∀ c ∈ (w[i]).children_indices, i < c ∧ c < w.length) ∧
    (∀ p ∈ (w[i]).parent_index, p < i)

/-- Indices of the subtree rooted at `i`, in pre-order; the fuel bounds
the descent, and any fuel at least the arena length is enough under
`structWF` because child indices strictly increase. -/
def subtreeIndices (w : List TreeItem) : Nat → Nat → List Nat
  | 0, i => [i]
  | fuel + 1, i => i :: (childIndicesOf w i).flatMap (fun c => subtreeIndices w fuel c)

theorem flatMap_congr {α β : Type} (l : List α) (f g : α → List β)
    (h : ∀ a ∈ l, f a = g a) : l.flatMap f = l.flatMap g := by
  induction l with
  | nil => rfl
  | cons x t ih =>
    rw [List.flatMap_cons, List.flatMap_cons, h x (by simp), ih (fun a ha => h a (by simp [ha]))]

theorem structWF_children (w : List TreeItem) (hWF : structWF w) (i : Nat)
    (hi : i < w.length) : ∀ c ∈ childIndicesOf w i, i < c ∧ c < w.length := by
  intro c hc
  rw [childIndicesOf, List.getElem?_eq_getElem hi] at hc
  exact (hWF i hi).1 c (by simpa using hc)

theorem childIndicesOf_empty_of_last (w : List TreeItem) (hWF : structWF w) (i : Nat)
    (hi : i < w.length) (hlast : w.length ≤ i + 1) : childIndicesOf w i = [] := by
  rw [List.eq_nil_iff_forall_not_mem]
  intro c hc
  have := structWF_children w hWF i hi c hc
  omega

theorem subtreeIndices_fuel_irrel (w : List TreeItem) (hWF : structWF w) :
    ∀ (f1 f2 i : Nat), i < w.length → w.length - i ≤ f1 + 1 → w.length - i ≤ f2 + 1 →
      subtreeIndices w f1 i = subtreeIndices w f2 i
  | 0, f2, i, hi, h1, h2 => by
    have hempty : childIndicesOf w i = [] :=
      childIndicesOf_empty_of_last w hWF i hi (by omega)
    cases f2 with
    | zero => rfl
    | succ g =>
      rw [subtreeIndices, subtreeIndices, hempty]
      rfl
  | f1 + 1, 0, i, hi, h1, h2 => by
    have hempty : childIndicesOf w i = [] :=
      childIndicesOf_empty_of_last w hWF i hi (by omega)
    rw [subtreeIndices, subtreeIndices, hempty]
    rfl
  | f1 + 1, f2 + 1, i, hi, h1, h2 => by
    rw [subtreeIndices, subtreeIndices]
    congr 1
    apply flatMap_congr
    intro c hc
    have hcb := structWF_children w hWF i hi c hc
    exact subtreeIndices_fuel_irrel w hWF f1 f2 c hcb.2 (by omega) (by omega)

/-- Effective witness inside the pass-1 output: a slot that is either
explicitly checked out or whose pass-1 flag is set. -/
def effectiveAt (q : List TreeItem) (m : Nat) : Bool :=
  ((q[m]?).map (fun x => x.is_checked_out || x.has_checked_out_descendant)).getD false

/-- Specification value computed by pass 2 for slot `j`: some slot of
the subtree rooted at `j` (including `j` itself) is effective. -/
def subtreeEffective (q : List TreeItem) (j : Nat) : Prop :=
  ∃ m ∈ subtreeIndices q q.length j, effectiveAt q m = true

theorem subtreeEffective_unfold (q : List TreeItem) (hWF : structWF q) (j : Nat)
    (hj : j < q.length) :
    subtreeEffective q j ↔ effectiveAt q j = true ∨
      ∃ c ∈ childIndicesOf q j, subtreeEffective q c := by
  obtain ⟨f, hf⟩ : ∃ f, q.length = f + 1 := ⟨q.length - 1, by omega⟩
  rw [subtreeEffective, hf, subtreeIndices]
  constructor
  · rintro ⟨m, hm, hme⟩
    rw [List.mem_cons] at hm
    rcases hm with rfl | hm
    · exact Or.inl hme
    · rw [List.mem_flatMap] at hm
      obtain ⟨c, hc, hmc⟩ := hm
      have hcb := structWF_children q hWF j hj c hc
      refine Or.inr ⟨c, hc, ?_⟩
      rw [subtreeEffective]
      refine ⟨m, ?_, hme⟩
      rw [subtreeIndices_fuel_irrel q hWF q.length f c hcb.2 (by omega) (by omega)]
      exact hmc
  · rintro (hj2 | ⟨c, hc, hce⟩)
    · exact ⟨j, by simp, hj2⟩
    · rw [subtreeEffective] at hce
      obtain ⟨m, hm, hme⟩ := hce
      have hcb := structWF_children q hWF j hj c hc
      refine ⟨m, ?_, hme⟩
      rw [List.mem_cons, List.mem_flatMap]
      refine Or.inr ⟨c, hc, ?_⟩
      rw [subtreeIndices_fuel_irrel q hWF f q.length c hcb.2 (by omega) (by omega)]
      exact hm

end Pickit

namespace Pickit

instance subtreeEffective_decidable (q : List TreeItem) (j : Nat) :
    Decidable (subtreeEffective q j) :=
  List.decidableBEx (fun m => effectiveAt q m = true) (subtreeIndices q q.length j)

/-- Final value pass 2 stores in slot `j`. -/
def pass2Final (q : List TreeItem) (j : Nat) (it : TreeItem) : TreeItem :=
  { it with has_checked_out_descendant := decide (subtreeEffective q j) }

theorem self_mem_subtreeIndices (w : List TreeItem) (f i : Nat) :
    i ∈ subtreeIndices w f i := by
  cases f with
  | zero => simp [subtreeIndices]
  | succ g => simp [subtreeIndices]

theorem checked_subtreeEffective (q : List TreeItem) (c : Nat) (hc : c < q.length)
    (hck : (q[c]).is_checked_out = true) : subtreeEffective q c := by
  refine ⟨c, self_mem_subtreeIndices q q.length c, ?_⟩
  rw [effectiveAt, List.getElem?_eq_getElem hc]
  simp [hck]

theorem pass2From_invariant (q : List TreeItem) (hWF : structWF q) :
    ∀ (k : Nat) (v : List TreeItem), v.length = q.length → k ≤ q.length →
    (∀ j, j < k → v[j]? = q[j]?) →
    (∀ j, k ≤ j → v[j]? = (q[j]?).map (pass2Final q j)) →
    ∀ j, (pass2From v k)[j]? = (q[j]?).map (pass2Final q j)
  | 0, v, hlen, hk, hlo, hhi => by
    intro j
    rw [pass2From]
    exact hhi j (by omega)
  | k + 1, v, hlen, hk, hlo, hhi => by
    have hklt : k < q.length := by omega
    have hqk : q[k]? = some q[k] := List.getElem?_eq_getElem hklt
    have hvk : v[k]? = some q[k] := by
      rw [hlo k (by omega), hqk]
    have hstep : pass2Step v k = v.set k
        { q[k] with has_checked_out_descendant :=
            (q[k]).has_checked_out_descendant ||
            ((q[k]).children_indices.any (fun c =>
              match v[c]? with
              | some child => child.is_checked_out || child.has_checked_out_descendant
              | none => false)) ||
            (q[k]).is_checked_out } := by
      rw [pass2Step, hvk]
    have hch_iff : ((q[k]).children_indices.any (fun c =>
        match v[c]? with
        | some child => child.is_checked_out || child.has_checked_out_descendant
        | none => false)) = true
        ↔ ∃ c ∈ (q[k]).children_indices, subtreeEffective q c := by
      rw [List.any_eq_true]
      constructor
      · rintro ⟨c, hc, hval⟩
        have hcb : k < c ∧ c < q.length := (hWF k hklt).1 c hc
        have hvc : v[c]? = some (pass2Final q c q[c]) := by
          rw [hhi c (by omega), List.getElem?_eq_getElem hcb.2]
          rfl
        rw [hvc] at hval
        simp only [pass2Final, Bool.or_eq_true, decide_eq_true_iff] at hval
        rcases hval with hval | hval
        · exact ⟨c, hc, checked_subtreeEffective q c hcb.2 hval⟩
        · exact ⟨c, hc, hval⟩
      · rintro ⟨c, hc, heff⟩
        have hcb : k < c ∧ c < q.length := (hWF k hklt).1 c hc
        have hvc : v[c]? = some (pass2Final q c q[c]) := by
          rw [hhi c (by omega), List.getElem?_eq_getElem hcb.2]
          rfl
        refine ⟨c, hc, ?_⟩
        rw [hvc]
        simp only [pass2Final, Bool.or_eq_true, decide_eq_true_iff]
        exact Or.inr heff
    have heffk : effectiveAt q k = ((q[k]).is_checked_out
        || (q[k]).has_checked_out_descendant) := by
      rw [effectiveAt, hqk]
      rfl
    have hchildk : childIndicesOf q k = (q[k]).children_indices := by
      rw [childIndicesOf, hqk]
      rfl
    have hB : ((q[k]).has_checked_out_descendant ||
        ((q[k]).children_indices.any (fun c =>
          match v[c]? with
          | some child => child.is_checked_out || child.has_checked_out_descendant
          | none => false)) ||
        (q[k]).is_checked_out) = decide (subtreeEffective q k) := by
      have hiff : ((q[k]).has_checked_out_descendant ||
          ((q[k]).children_indices.any (fun c =>
            match v[c]? with
            | some child => child.is_checked_out || child.has_checked_out_descendant
            | none => false)) ||
          (q[k]).is_checked_out) = true ↔ subtreeEffective q k := by
        rw [subtreeEffective_unfold q hWF k hklt, heffk, hchildk]
        simp only [Bool.or_eq_true]
        constructor
        · rintro ((hh | hch) | hck)
          · exact Or.inl (Or.inr hh)
          · exact Or.inr (hch_iff.mp hch)
          · exact Or.inl (Or.inl hck)
        · rintro ((hck | hh) | hex)
          · exact Or.inr hck
          · exact Or.inl (Or.inl hh)
          · exact Or.inl (Or.inr (hch_iff.mpr hex))
      by_cases hP : subtreeEffective q k
      · rw [hiff.mpr hP, decide_eq_true hP]
      · rw [decide_eq_false hP]
        cases hL : ((q[k]).has_checked_out_descendant ||
            ((q[k]).children_indices.any (fun c =>
              match v[c]? with
              | some child => child.is_checked_out || child.has_checked_out_descendant
              | none => false)) ||
            (q[k]).is_checked_out) with
        | false => rfl
        | true => exact absurd (hiff.mp hL) hP
    rw [pass2From, hstep]
    apply pass2From_invariant q hWF k _ (by simp [hlen]) (by omega)
    · intro j hj
      rw [List.getElem?_set_ne (by omega), hlo j (by omega)]
    · intro j hj
      by_cases hjk : j = k
      · subst hjk
        rw [List.getElem?_set_self (by omega), hqk]
        rw [show Option.map (pass2Final q j) (some (q[j]))
            = some (pass2Final q j (q[j])) from rfl]
        rw [pass2Final, ← hB]
      · rw [List.getElem?_set_ne (by omega)]
        exact hhi j (by omega)

end Pickit

namespace Pickit

/-- Pass-1 style witness at slot `m` of the original arena: the node is
explicitly checked out, or some reported sparse path lies strictly below
its path. -/
def nodeSelfWitness (sp : List DirPath) (w : List TreeItem) (m : Nat) : Bool :=
  ((w[m]?).map (fun x => x.is_checked_out
    || sp.any (fun sco => isStrictPathDescendant sco x.path))).getD false

/-- Amended specification value for `has_checked_out_descendant` at slot
`j`: some slot of `j`'s subtree — including `j` itself — carries a
witness. -/
def subtreeWitness (sp : List DirPath) (w : List TreeItem) (j : Nat) : Prop :=
  ∃ m ∈ subtreeIndices w w.length j, nodeSelfWitness sp w m = true

instance subtreeWitness_decidable (sp : List DirPath) (w : List TreeItem) (j : Nat) :
    Decidable (subtreeWitness sp w j) :=
  List.decidableBEx (fun m => nodeSelfWitness sp w m = true) (subtreeIndices w w.length j)

/-- The per-item transformation applied by pass 1. -/
def pass1Fn (sp : List DirPath) (it : TreeItem) : TreeItem :=
  { it with has_checked_out_descendant :=
      sp.any (fun sco => isStrictPathDescendant sco it.path) }

theorem pass1_getElem? (sp : List DirPath) (w : List TreeItem) (i : Nat) :
    (pass1 sp w)[i]? = (w[i]?).map (pass1Fn sp) := by
  rw [pass1, List.getElem?_map]
  rfl

theorem childIndicesOf_pass1 (sp : List DirPath) (w : List TreeItem) (i : Nat) :
    childIndicesOf (pass1 sp w) i = childIndicesOf w i := by
  rw [childIndicesOf, childIndicesOf, pass1_getElem?]
  cases w[i]? <;> rfl

theorem subtreeIndices_congr (a b : List TreeItem)
    (hch : ∀ i : Nat, childIndicesOf a i = childIndicesOf b i) :
    ∀ (f i : Nat), subtreeIndices a f i = subtreeIndices b f i
  | 0, i => rfl
  | f + 1, i => by
    rw [subtreeIndices, subtreeIndices, hch i]
    congr 1
    apply flatMap_congr
    intro c _
    exact subtreeIndices_congr a b hch f c

theorem structWF_pass1 (sp : List DirPath) (w : List TreeItem) (hWF : structWF w) :
    structWF (pass1 sp w) := by
  intro i h
  have hl : i < w.length := by rw [pass1_length] at h; exact h
  have hq : (pass1 sp w)[i] = pass1Fn sp (w[i]) := by
    have h1 : (pass1 sp w)[i]? = some ((pass1 sp w)[i]) := List.getElem?_eq_getElem h
    rw [pass1_getElem?, List.getElem?_eq_getElem hl] at h1
    exact (Option.some.inj h1).symm
  rw [hq]
  constructor
  · intro c hc
    have hcb := (hWF i hl).1 c hc
    exact ⟨hcb.1, by rw [pass1_length]; exact hcb.2⟩
  · intro p hp
    exact (hWF i hl).2 p hp

theorem effectiveAt_pass1 (sp : List DirPath) (w : List TreeItem) (m : Nat) :
    effectiveAt (pass1 sp w) m = nodeSelfWitness sp w m := by
  rw [effectiveAt, nodeSelfWitness, pass1_getElem?]
  cases w[m]? <;> rfl

theorem subtreeEffective_pass1 (sp : List DirPath) (w : List TreeItem) (j : Nat) :
    subtreeEffective (pass1 sp w) j ↔ subtreeWitness sp w j := by
  rw [subtreeEffective, subtreeWitness]
  rw [show (pass1 sp w).length = w.length from pass1_length sp w]
  rw [subtreeIndices_congr (pass1 sp w) w (childIndicesOf_pass1 sp w) w.length j]
  constructor
  · rintro ⟨m, hm, hme⟩
    refine ⟨m, hm, ?_⟩
    rw [← effectiveAt_pass1 sp w m]
    exact hme
  · rintro ⟨m, hm, hme⟩
    refine ⟨m, hm, ?_⟩
    rw [effectiveAt_pass1 sp w m]
    exact hme

theorem update_tree_item_states_eq (sp : List DirPath) (w : List TreeItem) :
    update_tree_item_states sp w
      = pass3Upto (pass2From (pass1 sp w) (pass1 sp w).length) 0
          (pass2From (pass1 sp w) (pass1 sp w).length).length := rfl

/-- C1 (amended): after the three state-propagation passes run,
`has_checked_out_descendant` at slot `j` is true exactly when some slot in
`j`'s subtree — including `j` itself — is explicitly checked out or has a
reported sparse path strictly below its own path; pass 2 ORs the node's
own explicit checkout into the flag, so it does not restrict the witness
to strict descendants. -/
theorem hcd_subtree_witness (sp : List DirPath) (w : List TreeItem)
    (hWF : structWF w) (j : Nat) (hj : j < w.length) :
    ((update_tree_item_states sp w)[j]?).map TreeItem.has_checked_out_descendant
      = some (decide (subtreeWitness sp w j)) := by
  have hWFq : structWF (pass1 sp w) := structWF_pass1 sp w hWF
  have hp2 : ∀ i : Nat, (pass2From (pass1 sp w) (pass1 sp w).length)[i]?
      = ((pass1 sp w)[i]?).map (pass2Final (pass1 sp w) i) := by
    apply pass2From_invariant (pass1 sp w) hWFq (pass1 sp w).length (pass1 sp w) rfl
      (Nat.le_refl _)
    · intro i hi
      rfl
    · intro i hi
      rw [List.getElem?_eq_none hi]
      rfl
  have hframe := pass3Upto_frame TreeItem.has_checked_out_descendant
    (fun it b => rfl)
    (pass2From (pass1 sp w) (pass1 sp w).length).length
    (pass2From (pass1 sp w) (pass1 sp w).length) 0 j
  rw [update_tree_item_states_eq, hframe, hp2 j]
  have hjq : j < (pass1 sp w).length := by rw [pass1_length]; exact hj
  rw [List.getElem?_eq_getElem hjq]
  rw [show (Option.map (pass2Final (pass1 sp w) j) (some ((pass1 sp w)[j]))).map
        TreeItem.has_checked_out_descendant
      = some (decide (subtreeEffective (pass1 sp w) j)) from rfl]
  rw [decide_eq_decide.mpr (subtreeEffective_pass1 sp w j)]

/-- Application state after an initial load over a single top-level
directory `docs` that the sparse list reports as checked out. -/
def appC1 : App :=
  load_initial_tree { baseApp with sparse_checkout_dirs := [["docs"]] } "repo" [] [["docs"]]

/-- C1, counterexample to the claim as stated: in `appC1` the node
`docs` has no children at all — so no strict descendant, let alone one
with explicit checkout — yet its `has_checked_out_descendant` flag is
true, because pass 2 ORs in the node's own explicit checkout. -/
theorem hcd_self_counted_cex :
    (appC1.items[1]?).map (fun (it : TreeItem) =>
        (it.path, it.is_checked_out, it.has_checked_out_descendant, it.children_indices))
      = some ((["docs"], true, true, [])) := by
  decide

instance optionBAll_decidable {α : Type} (P : α → Prop) [DecidablePred P] (o : Option α) :
    Decidable (∀ p ∈ o, P p) :=
  match o with
  | none => isTrue (by simp)
  | some a => decidable_of_iff (P a) (by simp)

def structWFDec (w : List TreeItem) : Decidable (∀ i : Nat, ∀ _ : i < w.length,
    (∀ c ∈ (w[i]).children_indices, i < c ∧ c < w.length) ∧
    (∀ p ∈ (w[i]).parent_index, p < i)) :=
  inferInstance

instance structWF_decidable (w : List TreeItem) : Decidable (structWF w) :=
  structWFDec w

/-- C1, witness: the amended theorem applied to the concrete arena of
`appC1` at the `docs` slot. -/
theorem hcd_subtree_witness_witness :
    ((update_tree_item_states [["docs"]] appC1.items)[1]?).map
        TreeItem.has_checked_out_descendant
      = some (decide (subtreeWitness [["docs"]] appC1.items 1)) :=
  hcd_subtree_witness [["docs"]] appC1.items (by decide) 1 (by decide)

end Pickit

namespace Pickit

/-! ## Claim C7: the pending-count cache invariant -/

/-- Cached pending count read from slot `m` (0 outside the arena), the
read the cache recomputation performs for each child. -/
def cachedAt (w : List TreeItem) (m : Nat) : Nat :=
  ((w[m]?).map TreeItem.cached_pending_changes).getD 0

/-- Pending bit read from slot `m` (0 outside the arena). -/
def pendAt (w : List TreeItem) (m : Nat) : Nat :=
  ((w[m]?).map pendingBit).getD 0

/-- Local cache equation at slot `j`: the stored count equals the value
`App::update_pending_changes_cache` would recompute there. -/
def localCacheEq (w : List TreeItem) (j : Nat) : Prop :=
  (w[j]?).map TreeItem.cached_pending_changes = (w[j]?).map (cacheValue w)

/-- Every parent pointer points strictly below the node's own index. -/
def parentsDown (v : List TreeItem) : Prop :=
  ∀ i : Nat, ∀ it : TreeItem, v[i]? = some it → ∀ p ∈ it.parent_index, p < i

/-- Every child index is strictly above the node's own index. -/
def childrenUp (v : List TreeItem) : Prop :=
  ∀ i : Nat, ∀ it : TreeItem, v[i]? = some it → ∀ c ∈ it.children_indices, i < c

theorem structWF_parentsDown (v : List TreeItem) (hWF : structWF v) : parentsDown v := by
  intro i it hit p hp
  have hi : i < v.length := by
    by_contra hge
    rw [List.getElem?_eq_none (by omega)] at hit
    exact Option.noConfusion hit
  have hvi : v[i] = it := by
    have h2 : some (v[i]) = some it := by rw [← List.getElem?_eq_getElem hi, hit]
    exact Option.some.inj h2
  rw [← hvi] at hp
  exact (hWF i hi).2 p hp

theorem structWF_childrenUp (v : List TreeItem) (hWF : structWF v) : childrenUp v := by
  intro i it hit c hc
  have hi : i < v.length := by
    by_contra hge
    rw [List.getElem?_eq_none (by omega)] at hit
    exact Option.noConfusion hit
  have hvi : v[i] = it := by
    have h2 : some (v[i]) = some it := by rw [← List.getElem?_eq_getElem hi, hit]
    exact Option.some.inj h2
  rw [← hvi] at hc
  exact ((hWF i hi).1 c hc).1

theorem upd_step_some (fuel : Nat) (v : List TreeItem) (i : Nat) (it : TreeItem)
    (hvi : v[i]? = some it) :
    update_pending_changes_cache (fuel + 1) v i =
      if it.cached_pending_changes = cacheValue v it then v
      else
        match it.parent_index with
        | some parent_idx => update_pending_changes_cache fuel
            (v.set i { it with cached_pending_changes := cacheValue v it }) parent_idx
        | none => v.set i { it with cached_pending_changes := cacheValue v it } := by
  rw [update_pending_changes_cache, hvi]

theorem upd_step_none (fuel : Nat) (v : List TreeItem) (i : Nat)
    (hvi : v[i]? = none) :
    update_pending_changes_cache (fuel + 1) v i = v := by
  rw [update_pending_changes_cache, hvi]

theorem parentsDown_set_cached (v : List TreeItem) (i : Nat) (it : TreeItem) (n : Nat)
    (hvi : v[i]? = some it) (hPD : parentsDown v) :
    parentsDown (v.set i { it with cached_pending_changes := n }) := by
  intro j jt hjt p hp
  have hi : i < v.length := by
    by_contra hge
    rw [List.getElem?_eq_none (by omega)] at hvi
    exact Option.noConfusion hvi
  by_cases hji : j = i
  · subst hji
    rw [List.getElem?_set_self hi] at hjt
    have hjt2 : jt = { it with cached_pending_changes := n } := (Option.some.inj hjt).symm
    subst hjt2
    exact hPD j it hvi p hp
  · rw [List.getElem?_set_ne (Ne.symm hji)] at hjt
    exact hPD j jt hjt p hp

theorem upd_frame_above : ∀ (fuel : Nat) (v : List TreeItem) (i : Nat), parentsDown v →
    ∀ j : Nat, i < j → (update_pending_changes_cache fuel v i)[j]? = v[j]?
  | 0, v, i, hPD, j, hij => rfl
  | fuel + 1, v, i, hPD, j, hij => by
    cases hvi : v[i]? with
    | none => rw [upd_step_none fuel v i hvi]
    | some it =>
      rw [upd_step_some fuel v i it hvi]
      by_cases hc : it.cached_pending_changes = cacheValue v it
      · rw [if_pos hc]
      · rw [if_neg hc]
        generalize hX : ({ it with cached_pending_changes := cacheValue v it } : TreeItem) = itN
        cases hpi : it.parent_index with
        | none =>
          show ((v.set i itN)[j]?) = v[j]?
          rw [List.getElem?_set_ne (by omega)]
        | some p =>
          show (update_pending_changes_cache fuel (v.set i itN) p)[j]? = v[j]?
          have hp : p < i := hPD i it hvi p (Option.mem_def.mpr hpi)
          have hPD2 : parentsDown (v.set i itN) := by
            rw [← hX]
            exact parentsDown_set_cached v i it (cacheValue v it) hvi hPD
          rw [upd_frame_above fuel _ p hPD2 j (by omega)]
          rw [List.getElem?_set_ne (by omega)]

theorem upd_sets (fuel : Nat) (v : List TreeItem) (i : Nat) (it : TreeItem)
    (hPD : parentsDown v) (hvi : v[i]? = some it) :
    (update_pending_changes_cache (fuel + 1) v i)[i]? =
      some { it with cached_pending_changes := cacheValue v it } := by
  have hi : i < v.length := by
    by_contra hge
    rw [List.getElem?_eq_none (by omega)] at hvi
    exact Option.noConfusion hvi
  rw [upd_step_some fuel v i it hvi]
  by_cases hc : it.cached_pending_changes = cacheValue v it
  · rw [if_pos hc, hvi, ← hc]
  · rw [if_neg hc]
    generalize hX : ({ it with cached_pending_changes := cacheValue v it } : TreeItem) = itN
    cases hpi : it.parent_index with
    | none =>
      show ((v.set i itN)[i]?) = some itN
      rw [List.getElem?_set_self hi]
    | some p =>
      show (update_pending_changes_cache fuel (v.set i itN) p)[i]? = some itN
      have hp : p < i := hPD i it hvi p (Option.mem_def.mpr hpi)
      have hPD2 : parentsDown (v.set i itN) := by
        rw [← hX]
        exact parentsDown_set_cached v i it (cacheValue v it) hvi hPD
      rw [upd_frame_above fuel _ p hPD2 i (by omega)]
      rw [List.getElem?_set_self hi]

theorem cacheValue_congr (v w1 : List TreeItem) (it : TreeItem)
    (hch : ∀ c ∈ it.children_indices, w1[c]? = v[c]?) :
    cacheValue w1 it = cacheValue v it := by
  rw [cacheValue, cacheValue]
  congr 1
  apply congrArg List.sum
  apply List.map_congr_left
  intro c hc
  rw [hch c hc]

theorem parentsDown_of_frames (v w1 : List TreeItem)
    (hpar : ∀ j : Nat, (w1[j]?).map TreeItem.parent_index
      = (v[j]?).map TreeItem.parent_index)
    (hPD : parentsDown v) : parentsDown w1 := by
  intro i it hit p hp
  have h1 := hpar i
  rw [hit] at h1
  cases hvi : v[i]? with
  | none =>
    rw [hvi] at h1
    exact Option.noConfusion h1
  | some x =>
    rw [hvi] at h1
    have hpx : it.parent_index = x.parent_index := Option.some.inj h1
    rw [hpx] at hp
    exact hPD i x hvi p hp

theorem childrenUp_of_frames (v w1 : List TreeItem)
    (hch : ∀ j : Nat, (w1[j]?).map TreeItem.children_indices
      = (v[j]?).map TreeItem.children_indices)
    (hCU : childrenUp v) : childrenUp w1 := by
  intro i it hit c hc
  have h1 := hch i
  rw [hit] at h1
  cases hvi : v[i]? with
  | none =>
    rw [hvi] at h1
    exact Option.noConfusion h1
  | some x =>
    rw [hvi] at h1
    have hcx : it.children_indices = x.children_indices := Option.some.inj h1
    rw [hcx] at hc
    exact hCU i x hvi c hc

theorem rebuildCachesFrom_invariant :
    ∀ (k : Nat) (v : List TreeItem), parentsDown v → childrenUp v →
    (∀ j : Nat, k ≤ j → localCacheEq v j) →
    ∀ j : Nat, localCacheEq (rebuildCachesFrom v k) j
  | 0, v, hPD, hCU, hhi, j => by
    rw [rebuildCachesFrom]
    exact hhi j (Nat.zero_le j)
  | k + 1, v, hPD, hCU, hhi, j => by
    rw [rebuildCachesFrom]
    cases hvk : v[k]? with
    | none =>
      have hid : update_pending_changes_cache v.length v k = v := by
        cases hl : v.length with
        | zero => rfl
        | succ m => rw [upd_step_none m v k hvk]
      rw [hid]
      apply rebuildCachesFrom_invariant k v hPD hCU
      intro j2 hj2
      by_cases hj2k : j2 = k
      · subst hj2k
        show (v[j2]?).map TreeItem.cached_pending_changes = (v[j2]?).map (cacheValue v)
        rw [hvk]
        rfl
      · exact hhi j2 (by omega)
    | some it =>
      have hk : k < v.length := by
        by_contra hge
        rw [List.getElem?_eq_none (by omega)] at hvk
        exact Option.noConfusion hvk
      obtain ⟨m, hm⟩ : ∃ m, v.length = m + 1 := ⟨v.length - 1, by omega⟩
      have hparf : ∀ j : Nat,
          ((update_pending_changes_cache v.length v k)[j]?).map TreeItem.parent_index
            = (v[j]?).map TreeItem.parent_index :=
        fun j => update_pending_changes_cache_frame TreeItem.parent_index
          (fun _ _ => rfl) v.length v k j
      have hchf : ∀ j : Nat,
          ((update_pending_changes_cache v.length v k)[j]?).map TreeItem.children_indices
            = (v[j]?).map TreeItem.children_indices :=
        fun j => update_pending_changes_cache_frame TreeItem.children_indices
          (fun _ _ => rfl) v.length v k j
      have hPD1 : parentsDown (update_pending_changes_cache v.length v k) :=
        parentsDown_of_frames v _ hparf hPD
      have hCU1 : childrenUp (update_pending_changes_cache v.length v k) :=
        childrenUp_of_frames v _ hchf hCU
      apply rebuildCachesFrom_invariant k _ hPD1 hCU1
      intro j2 hj2
      by_cases hj2k : j2 = k
      · subst hj2k
        have hset : (update_pending_changes_cache v.length v j2)[j2]?
            = some { it with cached_pending_changes := cacheValue v it } := by
          rw [hm]
          exact upd_sets m v j2 it hPD hvk
        show ((update_pending_changes_cache v.length v j2)[j2]?).map
            TreeItem.cached_pending_changes
          = ((update_pending_changes_cache v.length v j2)[j2]?).map
            (cacheValue (update_pending_changes_cache v.length v j2))
        rw [hset]
        have hcv : cacheValue (update_pending_changes_cache v.length v j2)
            { it with cached_pending_changes := cacheValue v it } = cacheValue v it := by
          have h1 : cacheValue (update_pending_changes_cache v.length v j2)
              { it with cached_pending_changes := cacheValue v it }
              = cacheValue v { it with cached_pending_changes := cacheValue v it } := by
            apply cacheValue_congr
            intro c hc
            have hgt : j2 < c := hCU j2 it hvk c hc
            exact upd_frame_above v.length v j2 hPD c hgt
          rw [h1]
          rfl
        rw [show Option.map TreeItem.cached_pending_changes
            (some { it with cached_pending_changes := cacheValue v it })
            = some (cacheValue v it) from rfl]
        rw [show Option.map (cacheValue (update_pending_changes_cache v.length v j2))
            (some { it with cached_pending_changes := cacheValue v it })
            = some (cacheValue (update_pending_changes_cache v.length v j2)
                { it with cached_pending_changes := cacheValue v it }) from rfl]
        rw [hcv]
      · have hj2gt : k < j2 := by omega
        have hfr : (update_pending_changes_cache v.length v k)[j2]? = v[j2]? :=
          upd_frame_above v.length v k hPD j2 hj2gt
        have hlc := hhi j2 (by omega)
        show ((update_pending_changes_cache v.length v k)[j2]?).map
            TreeItem.cached_pending_changes
          = ((update_pending_changes_cache v.length v k)[j2]?).map
            (cacheValue (update_pending_changes_cache v.length v k))
        rw [hfr]
        cases hvj : v[j2]? with
        | none => rfl
        | some x =>
          rw [localCacheEq, hvj] at hlc
          have hcong : cacheValue (update_pending_changes_cache v.length v k) x
              = cacheValue v x := by
            apply cacheValue_congr
            intro c hc
            have hgt : j2 < c := hCU j2 x hvj c hc
            exact upd_frame_above v.length v k hPD c (by omega)
          rw [show Option.map (cacheValue (update_pending_changes_cache v.length v k))
              (some x)
              = some (cacheValue (update_pending_changes_cache v.length v k) x) from rfl]
          rw [hcong]
          exact hlc

theorem rebuildAllCaches_localEq (v : List TreeItem) (hWF : structWF v) :
    ∀ j : Nat, localCacheEq (rebuildAllCaches v) j := by
  rw [rebuildAllCaches]
  apply rebuildCachesFrom_invariant v.length v (structWF_parentsDown v hWF)
    (structWF_childrenUp v hWF)
  intro j hj
  show (v[j]?).map TreeItem.cached_pending_changes = (v[j]?).map (cacheValue v)
  rw [List.getElem?_eq_none hj]
  rfl

theorem sum_map_flatMap {α β : Type} (l : List α) (g : α → List β) (f : β → Nat) :
    ((l.flatMap g).map f).sum = (l.map (fun a => ((g a).map f).sum)).sum := by
  induction l with
  | nil => rfl
  | cons x t ih => simp [List.flatMap_cons, ih]

theorem cached_eq_subtree (w : List TreeItem) (hWF : structWF w)
    (hloc : ∀ j : Nat, localCacheEq w j) :
    ∀ (d j : Nat), w.length - j ≤ d → j < w.length →
      cachedAt w j = ((subtreeIndices w w.length j).map (pendAt w)).sum
  | 0, j, hd, hj => by omega
  | d + 1, j, hd, hj => by
    have hwj : w[j]? = some (w[j]) := List.getElem?_eq_getElem hj
    have hlc := hloc j
    rw [localCacheEq, hwj] at hlc
    have hval : (w[j]).cached_pending_changes = cacheValue w (w[j]) := Option.some.inj hlc
    have hca : cachedAt w j = (w[j]).cached_pending_changes := by
      rw [cachedAt, hwj]
      rfl
    obtain ⟨f, hf⟩ : ∃ f, w.length = f + 1 := ⟨w.length - 1, by omega⟩
    have hsub : subtreeIndices w w.length j
        = j :: ((w[j]).children_indices).flatMap (fun c => subtreeIndices w w.length c) := by
      rw [hf, subtreeIndices]
      congr 1
      rw [show childIndicesOf w j = (w[j]).children_indices from by
        rw [childIndicesOf, hwj]
        rfl]
      apply flatMap_congr
      intro c hc
      have hcb := (hWF j hj).1 c hc
      exact subtreeIndices_fuel_irrel w hWF f (f + 1) c (by omega) (by omega) (by omega)
    rw [hca, hval, cacheValue, hsub, List.map_cons, List.sum_cons]
    congr 1
    · rw [pendAt, hwj]
      rfl
    · rw [sum_map_flatMap]
      apply congrArg List.sum
      apply List.map_congr_left
      intro c hc
      have hcb := (hWF j hj).1 c hc
      exact cached_eq_subtree w hWF hloc d c (by omega) hcb.2

theorem range_map_pendAt : ∀ (w : List TreeItem),
    (List.range w.length).map (pendAt w) = w.map pendingBit
  | [] => rfl
  | x :: t => by
    rw [List.length_cons, List.range_succ_eq_map, List.map_cons, List.map_cons, List.map_map]
    congr 1
    · rw [pendAt, List.getElem?_cons_zero]
      rfl
    · have hshift : (pendAt (x :: t)) ∘ (· + 1) = pendAt t := by
        funext m
        show pendAt (x :: t) (m + 1) = pendAt t m
        rw [pendAt, pendAt, List.getElem?_cons_succ]
      rw [hshift]
      exact range_map_pendAt t

theorem sum_pendingBit (w : List TreeItem) :
    (w.map pendingBit).sum = (w.filter (fun it => it.pending_change.isSome)).length := by
  induction w with
  | nil => rfl
  | cons x t ih =>
    rw [List.map_cons, List.sum_cons, ih, pendingBit]
    by_cases hx : x.pending_change.isSome = true
    · rw [if_pos hx, List.filter_cons, if_pos hx, List.length_cons]
      omega
    · rw [if_neg hx, List.filter_cons, if_neg hx]
      omega

theorem structWF_of_frames (v w1 : List TreeItem)
    (hlen : w1.length = v.length)
    (hch : ∀ j : Nat, (w1[j]?).map TreeItem.children_indices
      = (v[j]?).map TreeItem.children_indices)
    (hpar : ∀ j : Nat, (w1[j]?).map TreeItem.parent_index
      = (v[j]?).map TreeItem.parent_index)
    (hWF : structWF v) : structWF w1 := by
  intro i h
  have hi : i < v.length := by omega
  have hw1 : w1[i]? = some (w1[i]) := List.getElem?_eq_getElem h
  have hvv : v[i]? = some (v[i]) := List.getElem?_eq_getElem hi
  have hch2 : (w1[i]).children_indices = (v[i]).children_indices := by
    have := hch i
    rw [hw1, hvv] at this
    exact Option.some.inj this
  have hpar2 : (w1[i]).parent_index = (v[i]).parent_index := by
    have := hpar i
    rw [hw1, hvv] at this
    exact Option.some.inj this
  constructor
  · intro c hc
    rw [hch2] at hc
    have := (hWF i hi).1 c hc
    exact ⟨this.1, by omega⟩
  · intro p hp
    rw [hpar2] at hp
    exact (hWF i hi).2 p hp

end Pickit

namespace Pickit

/-! ### Parent/child coherence and incremental cache preservation

The incremental `App::update_pending_changes_cache` chain walks the
parent pointers, so its correctness needs the pointers to agree with the
child lists: a slot listed among `j`'s children points back to `j`. Both
tree-building loops (`load_initial_tree` and `handle_children_loaded`)
append each fresh node with `parent_index = Some(parent_idx)` right after
pushing its index onto that parent's child list, so the program maintains
this coherence. -/

/-- A slot listed among `j`'s children has `j` as its parent pointer. -/
def parentCoherent (v : List TreeItem) : Prop :=
  ∀ j : Nat, ∀ jt : TreeItem, v[j]? = some jt → ∀ c ∈ jt.children_indices,
    (v[c]?).map TreeItem.parent_index = some (some j)

/-- Bounded form of parentCoherent, decidable on concrete arenas. -/
def parentCoherentB (v : List TreeItem) : Prop :=
  ∀ j : Nat, ∀ h : j < v.length, ∀ c ∈ (v[j]).children_indices,
    (v[c]?).map TreeItem.parent_index = some (some j)

def parentCoherentBDec (v : List TreeItem) : Decidable (∀ j : Nat, ∀ _ : j < v.length,
    ∀ c ∈ (v[j]).children_indices,
      (v[c]?).map TreeItem.parent_index = some (some j)) :=
  inferInstance

instance parentCoherentB_decidable (v : List TreeItem) : Decidable (parentCoherentB v) :=
  parentCoherentBDec v

theorem parentCoherent_of_B (v : List TreeItem) (h : parentCoherentB v) :
    parentCoherent v := by
  intro j jt hjt c hc
  have hj : j < v.length := by
    by_contra hge
    rw [List.getElem?_eq_none (by omega)] at hjt
    exact Option.noConfusion hjt
  have hvj : v[j] = jt := by
    have h2 : some (v[j]) = some jt := by rw [← List.getElem?_eq_getElem hj, hjt]
    exact Option.some.inj h2
  rw [← hvj] at hc
  exact h j hj c hc

/-- Every child index is inside the arena. -/
def childrenBounded (v : List TreeItem) : Prop :=
  ∀ i : Nat, ∀ it : TreeItem, v[i]? = some it → ∀ c ∈ it.children_indices, c < v.length

theorem structWF_childrenBounded (v : List TreeItem) (hWF : structWF v) :
    childrenBounded v := by
  intro i it hit c hc
  have hi : i < v.length := by
    by_contra hge
    rw [List.getElem?_eq_none (by omega)] at hit
    exact Option.noConfusion hit
  have hvi : v[i] = it := by
    have h2 : some (v[i]) = some it := by rw [← List.getElem?_eq_getElem hi, hit]
    exact Option.some.inj h2
  rw [← hvi] at hc
  exact ((hWF i hi).1 c hc).2

/-- `cacheValue` through `cachedAt`: the recomputed count is the
pending bit plus the children's cached reads. -/
theorem cacheValue_eq (items : List TreeItem) (it : TreeItem) :
    cacheValue items it = pendingBit it + (it.children_indices.map (cachedAt items)).sum :=
  rfl

theorem cachedAt_of_frame (v w1 : List TreeItem) (c : Nat)
    (h : (w1[c]?).map TreeItem.cached_pending_changes
      = (v[c]?).map TreeItem.cached_pending_changes) :
    cachedAt w1 c = cachedAt v c := by
  rw [cachedAt, cachedAt, h]

theorem cacheValue_eq_of_cachedAt (w1 v : List TreeItem) (it : TreeItem)
    (h : ∀ c ∈ it.children_indices, cachedAt w1 c = cachedAt v c) :
    cacheValue w1 it = cacheValue v it := by
  rw [cacheValue_eq, cacheValue_eq, List.map_congr_left h]

theorem localCacheEq_of_frames (v w1 : List TreeItem)
    (hch : ∀ j : Nat, (w1[j]?).map TreeItem.children_indices
      = (v[j]?).map TreeItem.children_indices)
    (hpend : ∀ j : Nat, (w1[j]?).map TreeItem.pending_change
      = (v[j]?).map TreeItem.pending_change)
    (hcach : ∀ j : Nat, (w1[j]?).map TreeItem.cached_pending_changes
      = (v[j]?).map TreeItem.cached_pending_changes)
    (hloc : ∀ j : Nat, localCacheEq v j) : ∀ j : Nat, localCacheEq w1 j := by
  intro j
  show (w1[j]?).map TreeItem.cached_pending_changes = (w1[j]?).map (cacheValue w1)
  cases hjt : w1[j]? with
  | none => rfl
  | some jt =>
    have hc1 := hcach j
    rw [hjt] at hc1
    cases hvj : v[j]? with
    | none =>
      rw [hvj] at hc1
      exact Option.noConfusion hc1
    | some x =>
      rw [hvj] at hc1
      have hcached : jt.cached_pending_changes = x.cached_pending_changes :=
        Option.some.inj hc1
      have hc2 := hch j
      rw [hjt, hvj] at hc2
      have hchildren : jt.children_indices = x.children_indices := Option.some.inj hc2
      have hc3 := hpend j
      rw [hjt, hvj] at hc3
      have hpending : jt.pending_change = x.pending_change := Option.some.inj hc3
      have hl := hloc j
      rw [localCacheEq, hvj] at hl
      have hx : x.cached_pending_changes = cacheValue v x := Option.some.inj hl
      rw [show Option.map TreeItem.cached_pending_changes (some jt)
          = some jt.cached_pending_changes from rfl]
      rw [show Option.map (cacheValue w1) (some jt) = some (cacheValue w1 jt) from rfl]
      congr 1
      rw [hcached, hx]
      rw [cacheValue_eq, cacheValue_eq, hchildren]
      congr 1
      · rw [pendingBit, pendingBit, hpending]
      · apply congrArg List.sum
        apply List.map_congr_left
        intro c _
        exact (cachedAt_of_frame v w1 c (hcach c)).symm

theorem parentCoherent_of_frames (v w1 : List TreeItem)
    (hch : ∀ j : Nat, (w1[j]?).map TreeItem.children_indices
      = (v[j]?).map TreeItem.children_indices)
    (hpar : ∀ j : Nat, (w1[j]?).map TreeItem.parent_index
      = (v[j]?).map TreeItem.parent_index)
    (hPC : parentCoherent v) : parentCoherent w1 := by
  intro j jt hjt c hc
  have h1 := hch j
  rw [hjt] at h1
  cases hvj : v[j]? with
  | none =>
    rw [hvj] at h1
    exact Option.noConfusion h1
  | some x =>
    rw [hvj] at h1
    have hchildren : jt.children_indices = x.children_indices := Option.some.inj h1
    rw [hchildren] at hc
    rw [hpar c]
    exact hPC j x hvj c hc

theorem childrenBounded_of_frames (v w1 : List TreeItem)
    (hlen : w1.length = v.length)
    (hch : ∀ j : Nat, (w1[j]?).map TreeItem.children_indices
      = (v[j]?).map TreeItem.children_indices)
    (hCB : childrenBounded v) : childrenBounded w1 := by
  intro i it hit c hc
  have h1 := hch i
  rw [hit] at h1
  cases hvi : v[i]? with
  | none =>
    rw [hvi] at h1
    exact Option.noConfusion h1
  | some x =>
    rw [hvi] at h1
    have hchildren : it.children_indices = x.children_indices := Option.some.inj h1
    rw [hchildren] at hc
    rw [hlen]
    exact hCB i x hvi c hc

theorem listSet_frame {β : Type} (v : List TreeItem) (i : Nat) (it itN : TreeItem)
    (hvi : v[i]? = some it) (f : TreeItem → β) (hf : f itN = f it) (j : Nat) :
    ((v.set i itN)[j]?).map f = (v[j]?).map f := by
  by_cases hij : i = j
  · subst hij
    have hi : i < v.length := by
      by_contra hge
      rw [List.getElem?_eq_none (by omega)] at hvi
      exact Option.noConfusion hvi
    rw [List.getElem?_set_self hi, hvi]
    show some (f itN) = some (f it)
    rw [hf]
  · rw [List.getElem?_set_ne hij]

/-- Correctness of the incremental chain (`src/app.rs:127-152`): if the
local cache equation holds everywhere except possibly at `i`, one call of
`update_pending_changes_cache` at `i` restores it everywhere, provided
the parent pointers descend, the child indices ascend and cohere with the
parent pointers, and the fuel covers the descending parent chain. -/
theorem upd_restores :
    ∀ (fuel : Nat) (v : List TreeItem) (i : Nat),
      parentsDown v → childrenUp v → parentCoherent v →
      (∀ j : Nat, j ≠ i → localCacheEq v j) → i < fuel →
      ∀ j : Nat, localCacheEq (update_pending_changes_cache fuel v i) j
  | 0, v, i, hPD, hCU, hPC, hexc, hfuel, j => by omega
  | fuel + 1, v, i, hPD, hCU, hPC, hexc, hfuel, j => by
    cases hvi : v[i]? with
    | none =>
      rw [upd_step_none fuel v i hvi]
      by_cases hji : j = i
      · subst hji
        show (v[j]?).map TreeItem.cached_pending_changes = (v[j]?).map (cacheValue v)
        rw [hvi]
        rfl
      · exact hexc j hji
    | some it =>
      rw [upd_step_some fuel v i it hvi]
      by_cases hc : it.cached_pending_changes = cacheValue v it
      · rw [if_pos hc]
        by_cases hji : j = i
        · subst hji
          show (v[j]?).map TreeItem.cached_pending_changes = (v[j]?).map (cacheValue v)
          rw [hvi]
          rw [show Option.map TreeItem.cached_pending_changes (some it)
              = some it.cached_pending_changes from rfl]
          rw [show Option.map (cacheValue v) (some it) = some (cacheValue v it) from rfl]
          rw [hc]
        · exact hexc j hji
      · rw [if_neg hc]
        have hi : i < v.length := by
          by_contra hge
          rw [List.getElem?_eq_none (by omega)] at hvi
          exact Option.noConfusion hvi
        generalize hX : ({ it with cached_pending_changes := cacheValue v it } : TreeItem) = itN
        have hitN_ch : itN.children_indices = it.children_indices := by rw [← hX]
        have hitN_par : itN.parent_index = it.parent_index := by rw [← hX]
        have hitN_pend : itN.pending_change = it.pending_change := by rw [← hX]
        have hitN_cached : itN.cached_pending_changes = cacheValue v it := by rw [← hX]
        have hchf : ∀ k2 : Nat, ((v.set i itN)[k2]?).map TreeItem.children_indices
            = (v[k2]?).map TreeItem.children_indices :=
          fun k2 => listSet_frame v i it itN hvi TreeItem.children_indices hitN_ch k2
        have hparf : ∀ k2 : Nat, ((v.set i itN)[k2]?).map TreeItem.parent_index
            = (v[k2]?).map TreeItem.parent_index :=
          fun k2 => listSet_frame v i it itN hvi TreeItem.parent_index hitN_par k2
        have hPD2 : parentsDown (v.set i itN) := parentsDown_of_frames v _ hparf hPD
        have hCU2 : childrenUp (v.set i itN) := childrenUp_of_frames v _ hchf hCU
        have hPC2 : parentCoherent (v.set i itN) := parentCoherent_of_frames v _ hchf hparf hPC
        have hEqI : localCacheEq (v.set i itN) i := by
          show ((v.set i itN)[i]?).map TreeItem.cached_pending_changes
            = ((v.set i itN)[i]?).map (cacheValue (v.set i itN))
          rw [List.getElem?_set_self hi]
          rw [show Option.map TreeItem.cached_pending_changes (some itN)
              = some itN.cached_pending_changes from rfl]
          rw [show Option.map (cacheValue (v.set i itN)) (some itN)
              = some (cacheValue (v.set i itN) itN) from rfl]
          rw [hitN_cached]
          congr 1
          have h1 : cacheValue (v.set i itN) itN = cacheValue v itN := by
            apply cacheValue_congr
            intro c hcmem
            rw [hitN_ch] at hcmem
            have hic : i < c := hCU i it hvi c hcmem
            rw [List.getElem?_set_ne (by omega)]
          have h2 : cacheValue v itN = cacheValue v it := by
            rw [cacheValue_eq, cacheValue_eq, hitN_ch]
            congr 1
            rw [pendingBit, pendingBit, hitN_pend]
          rw [h1, h2]
        have hEqNonParent : ∀ k2 : Nat, k2 ≠ i → it.parent_index ≠ some k2 →
            localCacheEq (v.set i itN) k2 := by
          intro k2 hk2i hk2p
          have hlc := hexc k2 hk2i
          show ((v.set i itN)[k2]?).map TreeItem.cached_pending_changes
            = ((v.set i itN)[k2]?).map (cacheValue (v.set i itN))
          rw [List.getElem?_set_ne (fun hh => hk2i hh.symm)]
          cases hvk2 : v[k2]? with
          | none => rfl
          | some kt =>
            rw [localCacheEq, hvk2] at hlc
            have hcong : cacheValue (v.set i itN) kt = cacheValue v kt := by
              apply cacheValue_congr
              intro c hcmem
              by_cases hci : c = i
              · exfalso
                subst hci
                have h3 := hPC k2 kt hvk2 c hcmem
                rw [hvi] at h3
                have h4 : it.parent_index = some k2 := Option.some.inj h3
                exact hk2p h4
              · rw [List.getElem?_set_ne (fun hh => hci hh.symm)]
            rw [show Option.map (cacheValue (v.set i itN)) (some kt)
                = some (cacheValue (v.set i itN) kt) from rfl]
            rw [hcong]
            exact hlc
        cases hpi : it.parent_index with
        | none =>
          show localCacheEq (v.set i itN) j
          by_cases hji : j = i
          · subst hji
            exact hEqI
          · refine hEqNonParent j hji ?_
            rw [hpi]
            intro hh
            exact Option.noConfusion hh
        | some p =>
          show localCacheEq (update_pending_changes_cache fuel (v.set i itN) p) j
          have hp : p < i := hPD i it hvi p (Option.mem_def.mpr hpi)
          refine upd_restores fuel (v.set i itN) p hPD2 hCU2 hPC2 ?_ (by omega) j
          intro k2 hk2p
          by_cases hk2i : k2 = i
          · subst hk2i
            exact hEqI
          · refine hEqNonParent k2 hk2i ?_
            rw [hpi]
            intro hh
            exact hk2p (Option.some.inj hh).symm

/-- Flipping one node's pending marker and running the incremental chain
from it — the shape of `App::toggle_selection` — keeps the cache
equation everywhere. -/
theorem setPending_upd_cacheEq (v : List TreeItem) (gidx : Nat) (item : TreeItem)
    (pnew : Option ChangeType) (hvi : v[gidx]? = some item)
    (hPD : parentsDown v) (hCU : childrenUp v) (hPC : parentCoherent v)
    (hloc : ∀ j : Nat, localCacheEq v j) :
    ∀ j : Nat, localCacheEq (update_pending_changes_cache
      (v.set gidx { item with pending_change := pnew }).length
      (v.set gidx { item with pending_change := pnew }) gidx) j := by
  intro j
  have hgl : gidx < v.length := by
    by_contra hge
    rw [List.getElem?_eq_none (by omega)] at hvi
    exact Option.noConfusion hvi
  have hchf : ∀ k2 : Nat,
      ((v.set gidx { item with pending_change := pnew })[k2]?).map TreeItem.children_indices
        = (v[k2]?).map TreeItem.children_indices :=
    fun k2 => listSet_frame v gidx item { item with pending_change := pnew } hvi TreeItem.children_indices rfl k2
  have hparf : ∀ k2 : Nat,
      ((v.set gidx { item with pending_change := pnew })[k2]?).map TreeItem.parent_index
        = (v[k2]?).map TreeItem.parent_index :=
    fun k2 => listSet_frame v gidx item { item with pending_change := pnew } hvi TreeItem.parent_index rfl k2
  have hcachf : ∀ k2 : Nat,
      ((v.set gidx { item with pending_change := pnew })[k2]?).map
          TreeItem.cached_pending_changes
        = (v[k2]?).map TreeItem.cached_pending_changes :=
    fun k2 => listSet_frame v gidx item { item with pending_change := pnew } hvi TreeItem.cached_pending_changes rfl k2
  have hexc : ∀ k2 : Nat, k2 ≠ gidx →
      localCacheEq (v.set gidx { item with pending_change := pnew }) k2 := by
    intro k2 hk2
    show ((v.set gidx { item with pending_change := pnew })[k2]?).map
        TreeItem.cached_pending_changes
      = ((v.set gidx { item with pending_change := pnew })[k2]?).map
        (cacheValue (v.set gidx { item with pending_change := pnew }))
    rw [List.getElem?_set_ne (fun hh => hk2 hh.symm)]
    cases hvk2 : v[k2]? with
    | none => rfl
    | some kt =>
      have hlc := hloc k2
      rw [localCacheEq, hvk2] at hlc
      have hcong : cacheValue (v.set gidx { item with pending_change := pnew }) kt
          = cacheValue v kt :=
        cacheValue_eq_of_cachedAt _ v kt
          (fun c _ => cachedAt_of_frame v _ c (hcachf c))
      rw [show Option.map (cacheValue (v.set gidx { item with pending_change := pnew }))
          (some kt)
          = some (cacheValue (v.set gidx { item with pending_change := pnew }) kt)
          from rfl]
      rw [hcong]
      exact hlc
  exact upd_restores (v.set gidx { item with pending_change := pnew }).length _ gidx
    (parentsDown_of_frames v _ hparf hPD)
    (childrenUp_of_frames v _ hchf hCU)
    (parentCoherent_of_frames v _ hchf hparf hPC)
    hexc (by rw [List.length_set]; exact hgl) j

/-- `App::toggle_selection` preserves the cache equation: the node's
pending flip changes only its own recomputed value, and the chain from it
restores the equation along the parent path. -/
theorem toggle_selection_cacheEq (app : App)
    (hPD : parentsDown app.items) (hCU : childrenUp app.items)
    (hPC : parentCoherent app.items)
    (hloc : ∀ j : Nat, localCacheEq app.items j) :
    ∀ j : Nat, localCacheEq (toggle_selection app).items j := by
  rw [toggle_selection]
  cases hsel : app.filtered_item_indices[app.selected_item_index]? with
  | none => exact hloc
  | some gidx =>
    cases hit : app.items[gidx]? with
    | none =>
      simp only [hit]
      exact hloc
    | some item =>
      simp only [hit]
      by_cases hlk : item.is_locked = true
      · rw [if_pos hlk]
        exact hloc
      · rw [if_neg hlk]
        exact setPending_upd_cacheEq app.items gidx item _ hit hPD hCU hPC hloc

/-- One insertion step of the children merge (`src/app.rs:196-222`):
appending a fresh marker-free node with cached count 0 under parent `p`
preserves every structural property and the cache equation — the
parent's recomputed value gains only the new child's zero. -/
theorem appendChild_arena (v : List TreeItem) (p : Nat) (item : TreeItem)
    (v2 : List TreeItem)
    (hv2 : v2 = setItem v p (fun (q : TreeItem) =>
      { q with children_indices := q.children_indices ++ [v.length] }) ++ [item])
    (hp : p < v.length)
    (hipar : item.parent_index = some p)
    (hich : item.children_indices = [])
    (hipend : item.pending_change = none)
    (hicach : item.cached_pending_changes = 0)
    (hPD : parentsDown v) (hCU : childrenUp v) (hPC : parentCoherent v)
    (hCB : childrenBounded v) (hloc : ∀ j : Nat, localCacheEq v j) :
    parentsDown v2 ∧ childrenUp v2 ∧ parentCoherent v2 ∧ childrenBounded v2 ∧
      (∀ j : Nat, localCacheEq v2 j) ∧ v2.length = v.length + 1 := by
  have hlen2 : v2.length = v.length + 1 := by
    rw [hv2, List.length_append, setItem_length]
    rfl
  have hget : ∀ j : Nat, v2[j]? =
      if j = v.length then some item
      else if j = p then (v[j]?).map (fun (q : TreeItem) =>
        { q with children_indices := q.children_indices ++ [v.length] })
      else v[j]? := by
    intro j
    rw [hv2]
    by_cases hj : j = v.length
    · rw [if_pos hj, hj]
      rw [List.getElem?_append_right (by rw [setItem_length])]
      simp [setItem_length]
    · rw [if_neg hj]
      by_cases hjlt : j < v.length
      · rw [List.getElem?_append_left (by rw [setItem_length]; exact hjlt)]
        rw [setItem_getElem?]
        by_cases hjp : j = p
        · rw [if_pos hjp.symm, if_pos hjp, hjp]
        · rw [if_neg (fun hh => hjp hh.symm), if_neg hjp]
      · have h1 : (setItem v p (fun (q : TreeItem) =>
            { q with children_indices := q.children_indices ++ [v.length] }) ++ [item])[j]?
            = none := by
          apply List.getElem?_eq_none
          rw [List.length_append, setItem_length]
          simp only [List.length_singleton]
          omega
        have h2 : v[j]? = none := List.getElem?_eq_none (by omega)
        rw [h1]
        by_cases hjp : j = p
        · rw [if_pos hjp, h2]
          rfl
        · rw [if_neg hjp, h2]
  have hvp : v[p]? = some (v[p]) := List.getElem?_eq_getElem hp
  have hcachedAt : ∀ c : Nat, cachedAt v2 c = cachedAt v c := by
    intro c
    rw [cachedAt, cachedAt, hget c]
    by_cases hc1 : c = v.length
    · rw [if_pos hc1, hc1, List.getElem?_eq_none (Nat.le_refl v.length)]
      simp [hicach]
    · rw [if_neg hc1]
      by_cases hc2 : c = p
      · rw [if_pos hc2]
        cases v[c]? <;> rfl
      · rw [if_neg hc2]
  have hloc2 : ∀ j : Nat, localCacheEq v2 j := by
    intro j
    show (v2[j]?).map TreeItem.cached_pending_changes = (v2[j]?).map (cacheValue v2)
    rw [hget j]
    by_cases hj1 : j = v.length
    · rw [if_pos hj1]
      rw [show Option.map TreeItem.cached_pending_changes (some item)
          = some item.cached_pending_changes from rfl]
      rw [show Option.map (cacheValue v2) (some item) = some (cacheValue v2 item) from rfl]
      rw [hicach, cacheValue_eq, hich, pendingBit, hipend]
      rfl
    · rw [if_neg hj1]
      by_cases hj2 : j = p
      · subst hj2
        rw [if_pos rfl, hvp]
        rw [show Option.map TreeItem.cached_pending_changes
            ((some (v[j])).map (fun (q : TreeItem) =>
              { q with children_indices := q.children_indices ++ [v.length] }))
            = some ((v[j]).cached_pending_changes) from rfl]
        rw [show Option.map (cacheValue v2)
            ((some (v[j])).map (fun (q : TreeItem) =>
              { q with children_indices := q.children_indices ++ [v.length] }))
            = some (cacheValue v2 { v[j] with
                children_indices := (v[j]).children_indices ++ [v.length] }) from rfl]
        congr 1
        rw [cacheValue_eq]
        rw [show pendingBit { v[j] with
            children_indices := (v[j]).children_indices ++ [v.length] }
            = pendingBit (v[j]) from rfl]
        rw [show TreeItem.children_indices { v[j] with
            children_indices := (v[j]).children_indices ++ [v.length] }
            = (v[j]).children_indices ++ [v.length] from rfl]
        rw [List.map_append, List.sum_append]
        have hn0 : cachedAt v2 v.length = 0 := by
          rw [hcachedAt, cachedAt, List.getElem?_eq_none (Nat.le_refl v.length)]
          rfl
        rw [show ([v.length].map (cachedAt v2)).sum = cachedAt v2 v.length from by simp]
        rw [hn0, Nat.add_zero]
        rw [List.map_congr_left (fun c _ => hcachedAt c)]
        rw [← cacheValue_eq]
        have hl := hloc j
        rw [localCacheEq, hvp] at hl
        exact Option.some.inj hl
      · rw [if_neg hj2]
        cases hvj : v[j]? with
        | none => rfl
        | some jt =>
          have hl := hloc j
          rw [localCacheEq, hvj] at hl
          rw [show Option.map (cacheValue v2) (some jt) = some (cacheValue v2 jt) from rfl]
          rw [cacheValue_eq_of_cachedAt v2 v jt (fun c _ => hcachedAt c)]
          exact hl
  have hPD2 : parentsDown v2 := by
    intro j jt hjt pp hpp
    rw [hget j] at hjt
    by_cases hj1 : j = v.length
    · rw [if_pos hj1] at hjt
      have hjt2 : jt = item := (Option.some.inj hjt).symm
      subst hjt2
      rw [hipar, Option.mem_def] at hpp
      have hppp : pp = p := (Option.some.inj hpp).symm
      omega
    · rw [if_neg hj1] at hjt
      by_cases hj2 : j = p
      · rw [if_pos hj2] at hjt
        cases hvj : v[j]? with
        | none =>
          rw [hvj] at hjt
          exact Option.noConfusion hjt
        | some x =>
          rw [hvj] at hjt
          have hjt2 : jt = { x with
              children_indices := x.children_indices ++ [v.length] } :=
            (Option.some.inj hjt).symm
          subst hjt2
          exact hPD j x hvj pp hpp
      · rw [if_neg hj2] at hjt
        exact hPD j jt hjt pp hpp
  have hCU2 : childrenUp v2 := by
    intro j jt hjt c hcm
    rw [hget j] at hjt
    by_cases hj1 : j = v.length
    · rw [if_pos hj1] at hjt
      have hjt2 : jt = item := (Option.some.inj hjt).symm
      subst hjt2
      rw [hich] at hcm
      exact absurd hcm (List.not_mem_nil c)
    · rw [if_neg hj1] at hjt
      by_cases hj2 : j = p
      · rw [if_pos hj2] at hjt
        cases hvj : v[j]? with
        | none =>
          rw [hvj] at hjt
          exact Option.noConfusion hjt
        | some x =>
          rw [hvj] at hjt
          have hjt2 : jt = { x with
              children_indices := x.children_indices ++ [v.length] } :=
            (Option.some.inj hjt).symm
          subst hjt2
          have hc2 : c ∈ x.children_indices ++ [v.length] := hcm
          rw [List.mem_append] at hc2
          rcases hc2 with hold | hnewm
          · exact hCU j x hvj c hold
          · rw [List.mem_singleton] at hnewm
            omega
      · rw [if_neg hj2] at hjt
        exact hCU j jt hjt c hcm
  have hCB2 : childrenBounded v2 := by
    intro j jt hjt c hcm
    rw [hlen2]
    rw [hget j] at hjt
    by_cases hj1 : j = v.length
    · rw [if_pos hj1] at hjt
      have hjt2 : jt = item := (Option.some.inj hjt).symm
      subst hjt2
      rw [hich] at hcm
      exact absurd hcm (List.not_mem_nil c)
    · rw [if_neg hj1] at hjt
      by_cases hj2 : j = p
      · rw [if_pos hj2] at hjt
        cases hvj : v[j]? with
        | none =>
          rw [hvj] at hjt
          exact Option.noConfusion hjt
        | some x =>
          rw [hvj] at hjt
          have hjt2 : jt = { x with
              children_indices := x.children_indices ++ [v.length] } :=
            (Option.some.inj hjt).symm
          subst hjt2
          have hc2 : c ∈ x.children_indices ++ [v.length] := hcm
          rw [List.mem_append] at hc2
          rcases hc2 with hold | hnewm
          · have := hCB j x hvj c hold
            omega
          · rw [List.mem_singleton] at hnewm
            omega
      · rw [if_neg hj2] at hjt
        have := hCB j jt hjt c hcm
        omega
  have hPC2 : parentCoherent v2 := by
    intro j jt hjt c hcm
    rw [hget j] at hjt
    by_cases hj1 : j = v.length
    · rw [if_pos hj1] at hjt
      have hjt2 : jt = item := (Option.some.inj hjt).symm
      subst hjt2
      rw [hich] at hcm
      exact absurd hcm (List.not_mem_nil c)
    · rw [if_neg hj1] at hjt
      by_cases hj2 : j = p
      · rw [if_pos hj2] at hjt
        cases hvj : v[j]? with
        | none =>
          rw [hvj] at hjt
          exact Option.noConfusion hjt
        | some x =>
          rw [hvj] at hjt
          have hjt2 : jt = { x with
              children_indices := x.children_indices ++ [v.length] } :=
            (Option.some.inj hjt).symm
          subst hjt2
          have hc2 : c ∈ x.children_indices ++ [v.length] := hcm
          rw [List.mem_append] at hc2
          rcases hc2 with hold | hnewm
          · have hclt : c < v.length := hCB j x hvj c hold
            have hjc : j < c := hCU j x hvj c hold
            rw [hget c, if_neg (by omega), if_neg (by omega)]
            exact hPC j x hvj c hold
          · rw [List.mem_singleton] at hnewm
            subst hnewm
            rw [hget v.length, if_pos rfl]
            rw [show Option.map TreeItem.parent_index (some item)
                = some item.parent_index from rfl, hipar, hj2]
      · rw [if_neg hj2] at hjt
        have hclt : c < v.length := hCB j jt hjt c hcm
        have hpar2 : (v[c]?).map TreeItem.parent_index = some (some j) :=
          hPC j jt hjt c hcm
        rw [hget c]
        by_cases hcp : c = p
        · rw [if_neg (by omega), if_pos hcp]
          rw [show Option.map TreeItem.parent_index ((v[c]?).map (fun (q : TreeItem) =>
              { q with children_indices := q.children_indices ++ [v.length] }))
              = (v[c]?).map TreeItem.parent_index from by cases v[c]? <;> rfl]
          exact hpar2
        · rw [if_neg (by omega), if_neg hcp]
          exact hpar2
  exact ⟨hPD2, hCU2, hPC2, hCB2, hloc2, hlen2⟩

/-- The children-merge loop (`src/app.rs:193-223`) preserves the
structural properties and the cache equation, step by step. -/
theorem mergeChildrenLoop_cacheArena (p : Nat) :
    ∀ (dirs : List DirPath) (app : App),
      p < app.items.length →
      parentsDown app.items → childrenUp app.items → parentCoherent app.items →
      childrenBounded app.items →
      (∀ j : Nat, localCacheEq app.items j) →
      p < (mergeChildrenLoop app p dirs).items.length ∧
      parentsDown (mergeChildrenLoop app p dirs).items ∧
      childrenUp (mergeChildrenLoop app p dirs).items ∧
      parentCoherent (mergeChildrenLoop app p dirs).items ∧
      childrenBounded (mergeChildrenLoop app p dirs).items ∧
      (∀ j : Nat, localCacheEq (mergeChildrenLoop app p dirs).items j)
  | [], app, hp, hPD, hCU, hPC, hCB, hloc => by
    rw [mergeChildrenLoop]
    exact ⟨hp, hPD, hCU, hPC, hCB, hloc⟩
  | d :: ds, app, hp, hPD, hCU, hPC, hCB, hloc => by
    by_cases hc : mapContainsKey app.path_to_index d = true
    · have hstep : mergeChildrenLoop app p (d :: ds) = mergeChildrenLoop app p ds := by
        rw [mergeChildrenLoop, if_pos hc]
      rw [hstep]
      exact mergeChildrenLoop_cacheArena p ds app hp hPD hCU hPC hCB hloc
    · set newItem : TreeItem :=
        { TreeItem.new d ((d.getLast?).getD "") (app.sparse_checkout_dirs.contains d) with
          contains_uncommitted_changes :=
            app.uncommitted_paths.any (fun q => d.isPrefixOf q)
          is_locked := app.uncommitted_paths.any (fun q => d.isPrefixOf q)
          parent_index := some p
          indentation_level :=
            ((app.items[p]?).map TreeItem.indentation_level).getD 0 + 1
          cached_pending_changes := 0 } with hnew
      set app2 : App :=
        { app with
          items := setItem app.items p (fun (q : TreeItem) =>
            { q with children_indices := q.children_indices ++ [app.items.length] })
            ++ [newItem]
          path_to_index := mapInsert app.path_to_index d app.items.length } with ha2
      have hstep : mergeChildrenLoop app p (d :: ds) = mergeChildrenLoop app2 p ds := by
        rw [mergeChildrenLoop, if_neg hc]
      rw [hstep]
      have harena := appendChild_arena app.items p newItem app2.items rfl hp
        rfl rfl rfl rfl
        hPD hCU hPC hCB hloc
      exact mergeChildrenLoop_cacheArena p ds app2
        (by rw [harena.2.2.2.2.2]; omega)
        harena.1 harena.2.1 harena.2.2.1 harena.2.2.2.1 harena.2.2.2.2.1

/-- The merge phase of `App::handle_children_loaded` preserves the
structural properties and the cache equation. -/
theorem mergePhase_cacheArena (app : App) (p : Nat) (dirs : List DirPath)
    (hp : p < app.items.length)
    (hPD : parentsDown app.items) (hCU : childrenUp app.items)
    (hPC : parentCoherent app.items) (hCB : childrenBounded app.items)
    (hloc : ∀ j : Nat, localCacheEq app.items j) :
    p < (mergePhase app p dirs).items.length ∧
    parentsDown (mergePhase app p dirs).items ∧
    childrenUp (mergePhase app p dirs).items ∧
    parentCoherent (mergePhase app p dirs).items ∧
    childrenBounded (mergePhase app p dirs).items ∧
    (∀ j : Nat, localCacheEq (mergePhase app p dirs).items j) := by
  set app1 : App := { app with items := setItem app.items p (fun it =>
    { it with is_loading := false, children_loaded := true }) } with ha1
  have hsplit : mergePhase app p dirs =
      if dirs.isEmpty then app1
      else mergeChildrenLoop app1 p (List.insertionSort pathLe dirs) := by
    rw [mergePhase]
  have hchf : ∀ j : Nat, ((app1.items)[j]?).map TreeItem.children_indices
      = ((app.items)[j]?).map TreeItem.children_indices := fun j => by
    rw [ha1]
    exact setItem_frame TreeItem.children_indices (fun (it : TreeItem) =>
      { it with is_loading := false, children_loaded := true }) (fun it => rfl) app.items p j
  have hparf : ∀ j : Nat, ((app1.items)[j]?).map TreeItem.parent_index
      = ((app.items)[j]?).map TreeItem.parent_index := fun j => by
    rw [ha1]
    exact setItem_frame TreeItem.parent_index (fun (it : TreeItem) =>
      { it with is_loading := false, children_loaded := true }) (fun it => rfl) app.items p j
  have hpendf : ∀ j : Nat, ((app1.items)[j]?).map TreeItem.pending_change
      = ((app.items)[j]?).map TreeItem.pending_change := fun j => by
    rw [ha1]
    exact setItem_frame TreeItem.pending_change (fun (it : TreeItem) =>
      { it with is_loading := false, children_loaded := true }) (fun it => rfl) app.items p j
  have hcachf : ∀ j : Nat, ((app1.items)[j]?).map TreeItem.cached_pending_changes
      = ((app.items)[j]?).map TreeItem.cached_pending_changes := fun j => by
    rw [ha1]
    exact setItem_frame TreeItem.cached_pending_changes (fun (it : TreeItem) =>
      { it with is_loading := false, children_loaded := true }) (fun it => rfl) app.items p j
  have hlen1 : app1.items.length = app.items.length := by
    rw [ha1]
    exact setItem_length _ _ _
  have hp1 : p < app1.items.length := by omega
  have hPD1 : parentsDown app1.items := parentsDown_of_frames app.items _ hparf hPD
  have hCU1 : childrenUp app1.items := childrenUp_of_frames app.items _ hchf hCU
  have hPC1 : parentCoherent app1.items := parentCoherent_of_frames app.items _ hchf hparf hPC
  have hCB1 : childrenBounded app1.items := childrenBounded_of_frames app.items _ hlen1 hchf hCB
  have hloc1 : ∀ j : Nat, localCacheEq app1.items j :=
    localCacheEq_of_frames app.items _ hchf hpendf hcachf hloc
  rw [hsplit]
  by_cases hde : dirs.isEmpty = true
  · rw [if_pos hde]
    exact ⟨hp1, hPD1, hCU1, hPC1, hCB1, hloc1⟩
  · rw [if_neg hde]
    exact mergeChildrenLoop_cacheArena p (List.insertionSort pathLe dirs) app1
      hp1 hPD1 hCU1 hPC1 hCB1 hloc1

theorem children_loaded_ok_items_eq (app : App) (p : Nat) (dirs : List DirPath) :
    (handle_children_loaded app (Except.ok (p, dirs))).items
      = update_pending_changes_cache
          (update_tree_item_states (mergePhase app p dirs).sparse_checkout_dirs
            (setItem (mergePhase app p dirs).items p (fun it =>
              if it.children_indices.isEmpty then it
              else { it with is_expanded := true }))).length
          (update_tree_item_states (mergePhase app p dirs).sparse_checkout_dirs
            (setItem (mergePhase app p dirs).items p (fun it =>
              if it.children_indices.isEmpty then it
              else { it with is_expanded := true })))
          p := rfl

/-- `App::handle_children_loaded` on a successful fetch preserves the
cache equation: fresh children carry count 0 and no marker, the flag
updates and the state passes leave the counted fields alone, and the
closing incremental call is run at the parent with every slot already
satisfying the equation. -/
theorem children_loaded_cacheEq (app : App) (p : Nat) (dirs : List DirPath)
    (hp : p < app.items.length)
    (hPD : parentsDown app.items) (hCU : childrenUp app.items)
    (hPC : parentCoherent app.items) (hCB : childrenBounded app.items)
    (hloc : ∀ j : Nat, localCacheEq app.items j) :
    ∀ j : Nat, localCacheEq (handle_children_loaded app (Except.ok (p, dirs))).items j := by
  intro j
  have hM := mergePhase_cacheArena app p dirs hp hPD hCU hPC hCB hloc
  set A1 : List TreeItem := setItem (mergePhase app p dirs).items p (fun it =>
    if it.children_indices.isEmpty then it
    else { it with is_expanded := true }) with hA1
  have hf3 : ∀ {β : Type} (f : TreeItem → β),
      (∀ it b, f { it with is_expanded := b } = f it) →
      ∀ (it : TreeItem), f (if it.children_indices.isEmpty then it
        else { it with is_expanded := true }) = f it := by
    intro β f hf it
    by_cases he : it.children_indices.isEmpty = true
    · rw [if_pos he]
    · rw [if_neg he]
      exact hf it true
  have hchf1 : ∀ i : Nat, (A1[i]?).map TreeItem.children_indices
      = (((mergePhase app p dirs).items)[i]?).map TreeItem.children_indices := fun i => by
    rw [hA1]
    exact setItem_frame TreeItem.children_indices (fun (it : TreeItem) =>
      if it.children_indices.isEmpty then it
      else { it with is_expanded := true }) (hf3 TreeItem.children_indices (fun it b => rfl)) (mergePhase app p dirs).items p i
  have hparf1 : ∀ i : Nat, (A1[i]?).map TreeItem.parent_index
      = (((mergePhase app p dirs).items)[i]?).map TreeItem.parent_index := fun i => by
    rw [hA1]
    exact setItem_frame TreeItem.parent_index (fun (it : TreeItem) =>
      if it.children_indices.isEmpty then it
      else { it with is_expanded := true }) (hf3 TreeItem.parent_index (fun it b => rfl)) (mergePhase app p dirs).items p i
  have hpendf1 : ∀ i : Nat, (A1[i]?).map TreeItem.pending_change
      = (((mergePhase app p dirs).items)[i]?).map TreeItem.pending_change := fun i => by
    rw [hA1]
    exact setItem_frame TreeItem.pending_change (fun (it : TreeItem) =>
      if it.children_indices.isEmpty then it
      else { it with is_expanded := true }) (hf3 TreeItem.pending_change (fun it b => rfl)) (mergePhase app p dirs).items p i
  have hcachf1 : ∀ i : Nat, (A1[i]?).map TreeItem.cached_pending_changes
      = (((mergePhase app p dirs).items)[i]?).map TreeItem.cached_pending_changes := fun i => by
    rw [hA1]
    exact setItem_frame TreeItem.cached_pending_changes (fun (it : TreeItem) =>
      if it.children_indices.isEmpty then it
      else { it with is_expanded := true }) (hf3 TreeItem.cached_pending_changes (fun it b => rfl)) (mergePhase app p dirs).items p i
  have hlenA1 : A1.length = (mergePhase app p dirs).items.length := by
    rw [hA1]
    exact setItem_length _ _ _
  set A2 : List TreeItem :=
    update_tree_item_states (mergePhase app p dirs).sparse_checkout_dirs A1 with hA2
  have hchf2 : ∀ i : Nat, (A2[i]?).map TreeItem.children_indices
      = (A1[i]?).map TreeItem.children_indices := fun i => by
    rw [hA2]
    exact update_tree_item_states_frame TreeItem.children_indices
      (fun it b => rfl) (fun it b => rfl) _ A1 i
  have hparf2 : ∀ i : Nat, (A2[i]?).map TreeItem.parent_index
      = (A1[i]?).map TreeItem.parent_index := fun i => by
    rw [hA2]
    exact update_tree_item_states_frame TreeItem.parent_index
      (fun it b => rfl) (fun it b => rfl) _ A1 i
  have hpendf2 : ∀ i : Nat, (A2[i]?).map TreeItem.pending_change
      = (A1[i]?).map TreeItem.pending_change := fun i => by
    rw [hA2]
    exact update_tree_item_states_frame TreeItem.pending_change
      (fun it b => rfl) (fun it b => rfl) _ A1 i
  have hcachf2 : ∀ i : Nat, (A2[i]?).map TreeItem.cached_pending_changes
      = (A1[i]?).map TreeItem.cached_pending_changes := fun i => by
    rw [hA2]
    exact update_tree_item_states_frame TreeItem.cached_pending_changes
      (fun it b => rfl) (fun it b => rfl) _ A1 i
  have hlenA2 : A2.length = A1.length := by
    rw [hA2]
    exact update_tree_item_states_length _ _
  have hPD2 : parentsDown A2 :=
    parentsDown_of_frames A1 A2 hparf2
      (parentsDown_of_frames (mergePhase app p dirs).items A1 hparf1 hM.2.1)
  have hCU2 : childrenUp A2 :=
    childrenUp_of_frames A1 A2 hchf2
      (childrenUp_of_frames (mergePhase app p dirs).items A1 hchf1 hM.2.2.1)
  have hPC2 : parentCoherent A2 :=
    parentCoherent_of_frames A1 A2 hchf2 hparf2
      (parentCoherent_of_frames (mergePhase app p dirs).items A1 hchf1 hparf1 hM.2.2.2.1)
  have hloc2 : ∀ i : Nat, localCacheEq A2 i :=
    localCacheEq_of_frames A1 A2 hchf2 hpendf2 hcachf2
      (localCacheEq_of_frames (mergePhase app p dirs).items A1 hchf1 hpendf1 hcachf1
        hM.2.2.2.2.2)
  have hfin : (handle_children_loaded app (Except.ok (p, dirs))).items
      = update_pending_changes_cache A2.length A2 p := by
    rw [children_loaded_ok_items_eq, hA2, hA1]
  rw [hfin]
  exact upd_restores A2.length A2 p hPD2 hCU2 hPC2 (fun i _ => hloc2 i)
    (by rw [hlenA2, hlenA1]; exact hM.1) j

/-- Bounded form of the cache equation, decidable on concrete arenas. -/
def cacheOKB (v : List TreeItem) : Prop :=
  ∀ j : Nat, ∀ h : j < v.length,
    (v[j]).cached_pending_changes = cacheValue v (v[j])

def cacheOKBDec (v : List TreeItem) : Decidable (∀ j : Nat, ∀ _ : j < v.length,
    (v[j]).cached_pending_changes = cacheValue v (v[j])) :=
  inferInstance

instance cacheOKB_decidable (v : List TreeItem) : Decidable (cacheOKB v) :=
  cacheOKBDec v

theorem localCacheEq_of_OKB (v : List TreeItem) (h : cacheOKB v) :
    ∀ j : Nat, localCacheEq v j := by
  intro j
  show (v[j]?).map TreeItem.cached_pending_changes = (v[j]?).map (cacheValue v)
  by_cases hj : j < v.length
  · rw [List.getElem?_eq_getElem hj]
    rw [show Option.map TreeItem.cached_pending_changes (some (v[j]))
        = some ((v[j]).cached_pending_changes) from rfl]
    rw [show Option.map (cacheValue v) (some (v[j]))
        = some (cacheValue v (v[j])) from rfl]
    rw [h j hj]
  · rw [List.getElem?_eq_none (by omega)]
    rfl

/-- In any state satisfying the cache equation whose root subtree spans
the arena, the root's cached count is the total number of nodes with a
set pending marker. -/
theorem root_total_of_localEq (w : List TreeItem) (hWF : structWF w)
    (hloc : ∀ j : Nat, localCacheEq w j)
    (hspan : (subtreeIndices w w.length 0).Perm (List.range w.length)) :
    cachedAt w 0 = (w.filter (fun it => it.pending_change.isSome)).length := by
  have h0 : 0 < w.length := by
    by_contra h0
    have hlen0 : w.length = 0 := by omega
    rw [hlen0] at hspan
    have hle := hspan.length_eq
    simp [subtreeIndices] at hle
  have hmain := cached_eq_subtree w hWF hloc w.length 0 (by omega) h0
  rw [hmain]
  have hperm2 := hspan.map (pendAt w)
  rw [hperm2.sum_eq, range_map_pendAt w, sum_pendingBit w]

/-- C7: the cache invariant across every settling path. In a well-formed
state satisfying the local cache equation
`cached = pending bit + sum of children's cached`: the full bottom-up
rebuild (run when an initial load, a refresh or the sparse-list arrival
settles) re-establishes the equation at every slot; the root's cached
count equals the total number of nodes with a set pending marker when the
root's subtree spans the arena; and the two incremental paths —
`toggle_selection` and a successful `handle_children_loaded`, which call
`update_pending_changes_cache` once at the touched slot — preserve the
equation at every slot. -/
theorem cached_count_invariant (app : App)
    (hWF : structWF app.items)
    (hPC : parentCoherentB app.items)
    (hOK : cacheOKB app.items)
    (hspan : (subtreeIndices app.items app.items.length 0).Perm
      (List.range app.items.length)) :
    (∀ j : Nat, localCacheEq (rebuildAllCaches app.items) j) ∧
    cachedAt app.items 0
      = (app.items.filter (fun it => it.pending_change.isSome)).length ∧
    (∀ j : Nat, localCacheEq (toggle_selection app).items j) ∧
    (∀ (p : Nat) (dirs : List DirPath), p < app.items.length →
      ∀ j : Nat, localCacheEq (handle_children_loaded app (Except.ok (p, dirs))).items j) := by
  have hloc := localCacheEq_of_OKB app.items hOK
  have hPD := structWF_parentsDown app.items hWF
  have hCU := structWF_childrenUp app.items hWF
  have hCB := structWF_childrenBounded app.items hWF
  have hPCq := parentCoherent_of_B app.items hPC
  refine ⟨rebuildAllCaches_localEq app.items hWF, ?_, ?_, ?_⟩
  · exact root_total_of_localEq app.items hWF hloc hspan
  · exact toggle_selection_cacheEq app hPD hCU hPCq hloc
  · intro p dirs hp
    exact children_loaded_cacheEq app p dirs hp hPD hCU hPCq hCB hloc

/-- Settled two-node state for the C7 witness: the arena of `appC1`
after a full cache rebuild, with the visible list built and the cursor on
the `docs` node so that a toggle actually flips a marker. -/
def appC7 : App :=
  { appC1 with
    items := rebuildAllCaches appC1.items
    filtered_item_indices := [0, 1]
    selected_item_index := 1 }

/-- C7, witness: the invariant theorem applied to the concrete settled
state `appC7`, including a real toggle at the cursor and a merge of a new
`src` child under the root. -/
theorem cached_count_invariant_witness :
    (∀ j : Nat, localCacheEq (rebuildAllCaches appC7.items) j) ∧
    cachedAt appC7.items 0
      = (appC7.items.filter (fun it => it.pending_change.isSome)).length ∧
    (∀ j : Nat, localCacheEq (toggle_selection appC7).items j) ∧
    (∀ j : Nat, localCacheEq
      (handle_children_loaded appC7 (Except.ok (0, [["src"]]))).items j) := by
  have h := cached_count_invariant appC7 (by decide) (by decide) (by decide) (by decide)
  exact ⟨h.1, h.2.1, h.2.2.1, fun j => h.2.2.2 0 [["src"]] (by decide) j⟩

end Pickit
